import Mathlib

/-!
Verification development for the WeaveSuite backend coverage and test-execution
services (`src/services/coverage_service.py`, `src/services/test_service.py`).

Strings are modelled as `List Char` (ASCII scope: the Python regexes `\d`,
`[a-f0-9-]`, `\s` and the `.upper()`/`.lower()` calls are modelled by their
ASCII behaviour, which is what API paths and HTTP verbs use).  Each Python
regex substitution or search is modelled by an explicit left-to-right scanner
with the same leftmost-match, non-overlapping semantics; greedy character
classes such as `[^}]+` or `\d+` are modelled by maximal `takeWhile` runs,
which coincides with the regex behaviour because in every pattern the
character following the run is excluded from the run's class (so backtracking
can never produce a different match).
-/

namespace WeaveSuite

/-- Strings as lists of characters. -/
abbrev Str := List Char

/-- The generic placeholder token inserted by `_normalize_path`:
the four characters of the replacement text. -/
def idTok : Str := ['{', 'i', 'd', '}']

/-- `path.split('?')[0]`: everything before the first `'?'`. -/
def truncAtQ (l : Str) : Str := l.takeWhile (· ≠ '?')

/-- `path.rstrip('/')`: remove every trailing `'/'` character. -/
def rstripSlash (l : Str) : Str := (l.reverse.dropWhile (· = '/')).reverse

/-- Characters matched by the Python class `[a-f0-9-]`
(the "UUID" class of `_normalize_path`). -/
def isUuidCh (c : Char) : Bool := ('a' ≤ c && c ≤ 'f') || c.isDigit || c = '-'

theorem length_dropWhile_le (p : Char → Bool) (l : Str) :
    (l.dropWhile p).length ≤ l.length :=
  (@List.dropWhile_sublist _ l p).length_le

/-- `re.sub(r'/\d+(?=/|$)', '/{id}', path)`: a leftmost-match scan.  A match
starts at a `'/'` followed by a nonempty maximal digit run whose successor is
`'/'`, the end of the string, or a single final newline (Python `$` also
matches just before a newline that ends the string); the slash and digits are
replaced by `/{id}` and scanning resumes at the lookahead position. -/
def subNumIdsF : Nat → Str → Str
  | 0, _ => []
  | fuel+1, l =>
    match l with
    | [] => []
    | c :: rest =>
      if c = '/' then
        if rest.takeWhile Char.isDigit ≠ [] ∧
            (rest.dropWhile Char.isDigit = [] ∨
              (rest.dropWhile Char.isDigit).head? = some '/' ∨
              rest.dropWhile Char.isDigit = ['\n']) then
          '/' :: idTok ++ subNumIdsF fuel (rest.dropWhile Char.isDigit)
        else
          '/' :: subNumIdsF fuel rest
      else
        c :: subNumIdsF fuel rest

def subNumIds (l : Str) : Str := subNumIdsF l.length l

theorem subNumIdsF_congr (f1 : Nat) :
    ∀ (f2 : Nat) (l : Str), l.length ≤ f1 → l.length ≤ f2 →
      subNumIdsF f1 l = subNumIdsF f2 l := by
  induction f1 with
  | zero =>
    intro f2 l h1 _
    have : l = [] := List.length_eq_zero.mp (Nat.le_zero.mp h1)
    subst this
    cases f2 <;> rfl
  | succ f ih =>
    intro f2 l h1 h2
    cases l with
    | nil => cases f2 <;> rfl
    | cons c rest =>
      cases f2 with
      | zero => simp at h2
      | succ f2' =>
        simp only [List.length_cons, Nat.succ_le_succ_iff] at h1 h2
        show subNumIdsF (f+1) (c :: rest) = subNumIdsF (f2'+1) (c :: rest)
        simp only [subNumIdsF]
        have hd : (rest.dropWhile Char.isDigit).length ≤ rest.length :=
          length_dropWhile_le _ _
        rw [ih f2' rest h1 h2,
          ih f2' (rest.dropWhile Char.isDigit) (le_trans hd h1) (le_trans hd h2)]

theorem subNumIds_nil : subNumIds [] = [] := rfl

theorem subNumIds_cons (c : Char) (rest : Str) :
    subNumIds (c :: rest) =
      if c = '/' then
        if rest.takeWhile Char.isDigit ≠ [] ∧
            (rest.dropWhile Char.isDigit = [] ∨
              (rest.dropWhile Char.isDigit).head? = some '/' ∨
              rest.dropWhile Char.isDigit = ['\n']) then
          '/' :: idTok ++ subNumIds (rest.dropWhile Char.isDigit)
        else
          '/' :: subNumIds rest
      else
        c :: subNumIds rest := by
  show subNumIdsF (rest.length + 1) (c :: rest) = _
  simp only [subNumIdsF]
  rw [subNumIdsF_congr rest.length rest.length rest le_rfl le_rfl,
    subNumIdsF_congr rest.length (rest.dropWhile Char.isDigit).length
      (rest.dropWhile Char.isDigit) (length_dropWhile_le _ _) le_rfl]
  rfl

/-- `re.sub(r'/[a-f0-9-]{36}(?=/|$)', '/{id}', path)`: a match starts at a
`'/'` followed by exactly 36 characters of the class whose successor is `'/'`,
the end of the string, or a single final newline (`$` before a final
newline). -/
def subUuidIdsF : Nat → Str → Str
  | 0, _ => []
  | fuel+1, l =>
    match l with
    | [] => []
    | c :: rest =>
      if c = '/' then
        if (rest.take 36).length = 36 ∧ (rest.take 36).all isUuidCh ∧
            (rest.drop 36 = [] ∨ (rest.drop 36).head? = some '/' ∨
              rest.drop 36 = ['\n']) then
          '/' :: idTok ++ subUuidIdsF fuel (rest.drop 36)
        else
          '/' :: subUuidIdsF fuel rest
      else
        c :: subUuidIdsF fuel rest

def subUuidIds (l : Str) : Str := subUuidIdsF l.length l

theorem subUuidIdsF_congr (f1 : Nat) :
    ∀ (f2 : Nat) (l : Str), l.length ≤ f1 → l.length ≤ f2 →
      subUuidIdsF f1 l = subUuidIdsF f2 l := by
  induction f1 with
  | zero =>
    intro f2 l h1 _
    have : l = [] := List.length_eq_zero.mp (Nat.le_zero.mp h1)
    subst this
    cases f2 <;> rfl
  | succ f ih =>
    intro f2 l h1 h2
    cases l with
    | nil => cases f2 <;> rfl
    | cons c rest =>
      cases f2 with
      | zero => simp at h2
      | succ f2' =>
        simp only [List.length_cons, Nat.succ_le_succ_iff] at h1 h2
        show subUuidIdsF (f+1) (c :: rest) = subUuidIdsF (f2'+1) (c :: rest)
        simp only [subUuidIdsF]
        have hd : (rest.drop 36).length ≤ rest.length := by
          rw [List.length_drop]; omega
        rw [ih f2' rest h1 h2,
          ih f2' (rest.drop 36) (le_trans hd h1) (le_trans hd h2)]

theorem subUuidIds_nil : subUuidIds [] = [] := rfl

theorem subUuidIds_cons (c : Char) (rest : Str) :
    subUuidIds (c :: rest) =
      if c = '/' then
        if (rest.take 36).length = 36 ∧ (rest.take 36).all isUuidCh ∧
            (rest.drop 36 = [] ∨ (rest.drop 36).head? = some '/' ∨
              rest.drop 36 = ['\n']) then
          '/' :: idTok ++ subUuidIds (rest.drop 36)
        else
          '/' :: subUuidIds rest
      else
        c :: subUuidIds rest := by
  show subUuidIdsF (rest.length + 1) (c :: rest) = _
  simp only [subUuidIdsF]
  rw [subUuidIdsF_congr rest.length rest.length rest le_rfl le_rfl,
    subUuidIdsF_congr rest.length (rest.drop 36).length (rest.drop 36)
      (by rw [List.length_drop]; omega) le_rfl]
  rfl

/-- `re.sub(r'\{[^}]+\}', '{id}', path)`: a match starts at a `'{'`, its group
is the (nonempty) run of non-`'}'` characters up to the first `'}'`, and the
whole `{...}` span is replaced by `{id}`. -/
def subBraceIdsF : Nat → Str → Str
  | 0, _ => []
  | fuel+1, l =>
    match l with
    | [] => []
    | c :: rest =>
      if c = '{' then
        match rest.dropWhile (· ≠ '}') with
        | _ :: tail =>
          if rest.takeWhile (· ≠ '}') = [] then '{' :: subBraceIdsF fuel rest
          else idTok ++ subBraceIdsF fuel tail
        | [] => '{' :: subBraceIdsF fuel rest
      else
        c :: subBraceIdsF fuel rest

/-- The head of a nonempty `dropWhile (· ≠ '}')` is necessarily `'}'`, so
matching `_ :: tail` above is the regex case "a `'}'` closes the group". -/
def subBraceIds (l : Str) : Str := subBraceIdsF l.length l

theorem dropWhile_cons_length_le {p : Char → Bool} {l tail : Str} {d : Char}
    (h : l.dropWhile p = d :: tail) : tail.length < l.length := by
  have h2 : (d :: tail).length ≤ l.length := h ▸ length_dropWhile_le _ _
  simp only [List.length_cons] at h2
  omega

theorem subBraceIdsF_congr (f1 : Nat) :
    ∀ (f2 : Nat) (l : Str), l.length ≤ f1 → l.length ≤ f2 →
      subBraceIdsF f1 l = subBraceIdsF f2 l := by
  induction f1 with
  | zero =>
    intro f2 l h1 _
    have : l = [] := List.length_eq_zero.mp (Nat.le_zero.mp h1)
    subst this
    cases f2 <;> rfl
  | succ f ih =>
    intro f2 l h1 h2
    cases l with
    | nil => cases f2 <;> rfl
    | cons c rest =>
      cases f2 with
      | zero => simp at h2
      | succ f2' =>
        simp only [List.length_cons, Nat.succ_le_succ_iff] at h1 h2
        show subBraceIdsF (f+1) (c :: rest) = subBraceIdsF (f2'+1) (c :: rest)
        simp only [subBraceIdsF]
        cases hdw : rest.dropWhile (· ≠ '}') with
        | nil => dsimp only; rw [ih f2' rest h1 h2]
        | cons d tail =>
          have htl : tail.length ≤ rest.length :=
            le_of_lt (dropWhile_cons_length_le hdw)
          dsimp only
          rw [ih f2' rest h1 h2, ih f2' tail (le_trans htl h1) (le_trans htl h2)]

theorem subBraceIds_nil : subBraceIds [] = [] := rfl

theorem subBraceIds_cons (c : Char) (rest : Str) :
    subBraceIds (c :: rest) =
      if c = '{' then
        match rest.dropWhile (· ≠ '}') with
        | _ :: tail =>
          if rest.takeWhile (· ≠ '}') = [] then '{' :: subBraceIds rest
          else idTok ++ subBraceIds tail
        | [] => '{' :: subBraceIds rest
      else
        c :: subBraceIds rest := by
  show subBraceIdsF (rest.length + 1) (c :: rest) = _
  simp only [subBraceIdsF]
  cases hdw : rest.dropWhile (· ≠ '}') with
  | nil =>
    dsimp only
    rw [subBraceIdsF_congr rest.length rest.length rest le_rfl le_rfl]
    rfl
  | cons d tail =>
    have htl : tail.length ≤ rest.length :=
      le_of_lt (dropWhile_cons_length_le hdw)
    dsimp only
    rw [subBraceIdsF_congr rest.length rest.length rest le_rfl le_rfl,
      subBraceIdsF_congr rest.length tail.length tail htl le_rfl]
    rfl

/-- `CoverageService._normalize_path`, as the composition of its four steps. -/
def normalizePath (l : Str) : Str :=
  subBraceIds (subUuidIds (subNumIds (rstripSlash (truncAtQ l))))

/-! ## Path matcher (`_find_matching_endpoint`)

`re.sub(r'\{[^}]+\}', r'[^/]+', endpoint_path)` turns the normalized endpoint
path into a regex in which every `{...}` group becomes `[^/]+`, and the
result is interpolated **unescaped** into `re.match(f'^{pattern}$', ...)`.
We compile the path to a token list: a `{...}` group becomes `anySeg` (one
or more non-`'/'` characters), a `'.'` becomes `anyChar` (the regex
wildcard: exactly one character other than a newline, slash included), and
any other character a literal.  This is faithful for endpoint paths whose
characters outside `{...}` groups include no regex metacharacter other than
`'.'`; on a path containing e.g. `'('` the code raises `re.error` rather
than reporting a non-match, which is outside this model.
`re.match('^..$', s)` succeeds iff the whole string matches, where Python's
`$` also accepts a single trailing newline. -/

/-- One token of the compiled endpoint-path pattern. -/
inductive PatTok where
  | lit (c : Char)
  | anyChar
  | anySeg
deriving Repr, DecidableEq

/-- Compile a normalized endpoint path into pattern tokens, mirroring the
leftmost-match scan of `re.sub(r'\{[^}]+\}', r'[^/]+', ...)` followed by the
unescaped interpolation (a surviving `'.'` is the regex wildcard). -/
def compilePatF : Nat → Str → List PatTok
  | 0, _ => []
  | fuel+1, l =>
    match l with
    | [] => []
    | c :: rest =>
      if c = '{' then
        match rest.dropWhile (· ≠ '}') with
        | _ :: tail =>
          if rest.takeWhile (· ≠ '}') = [] then .lit '{' :: compilePatF fuel rest
          else .anySeg :: compilePatF fuel tail
        | [] => .lit '{' :: compilePatF fuel rest
      else if c = '.' then .anyChar :: compilePatF fuel rest
      else .lit c :: compilePatF fuel rest

def compilePat (l : Str) : List PatTok := compilePatF l.length l

theorem compilePatF_congr (f1 : Nat) :
    ∀ (f2 : Nat) (l : Str), l.length ≤ f1 → l.length ≤ f2 →
      compilePatF f1 l = compilePatF f2 l := by
  induction f1 with
  | zero =>
    intro f2 l h1 _
    have : l = [] := List.length_eq_zero.mp (Nat.le_zero.mp h1)
    subst this
    cases f2 <;> rfl
  | succ f ih =>
    intro f2 l h1 h2
    cases l with
    | nil => cases f2 <;> rfl
    | cons c rest =>
      cases f2 with
      | zero => simp at h2
      | succ f2' =>
        simp only [List.length_cons, Nat.succ_le_succ_iff] at h1 h2
        show compilePatF (f+1) (c :: rest) = compilePatF (f2'+1) (c :: rest)
        simp only [compilePatF]
        cases hdw : rest.dropWhile (· ≠ '}') with
        | nil => dsimp only; rw [ih f2' rest h1 h2]
        | cons d tail =>
          have htl : tail.length ≤ rest.length :=
            le_of_lt (dropWhile_cons_length_le hdw)
          dsimp only
          rw [ih f2' rest h1 h2, ih f2' tail (le_trans htl h1) (le_trans htl h2)]

theorem compilePat_nil : compilePat [] = [] := rfl

theorem compilePat_cons (c : Char) (rest : Str) :
    compilePat (c :: rest) =
      if c = '{' then
        match rest.dropWhile (· ≠ '}') with
        | _ :: tail =>
          if rest.takeWhile (· ≠ '}') = [] then .lit '{' :: compilePat rest
          else .anySeg :: compilePat tail
        | [] => .lit '{' :: compilePat rest
      else if c = '.' then .anyChar :: compilePat rest
      else .lit c :: compilePat rest := by
  show compilePatF (rest.length + 1) (c :: rest) = _
  simp only [compilePatF]
  cases hdw : rest.dropWhile (· ≠ '}') with
  | nil =>
    dsimp only
    rw [compilePatF_congr rest.length rest.length rest le_rfl le_rfl]
    rfl
  | cons d tail =>
    have htl : tail.length ≤ rest.length :=
      le_of_lt (dropWhile_cons_length_le hdw)
    dsimp only
    rw [compilePatF_congr rest.length rest.length rest le_rfl le_rfl,
      compilePatF_congr rest.length tail.length tail htl le_rfl]
    rfl

/-- Whole-string match of a compiled pattern against a string
(`re.match('^' + pattern + '$', s)`); `anyChar` consumes exactly one
character other than `'\n'` (the `'.'` wildcard without `DOTALL`), and
`anySeg` consumes one or more non-`'/'` characters, with full backtracking
as in the regex engine. -/
def patMatchF : Nat → List PatTok → Str → Bool
  | 0, _, _ => false
  | fuel+1, ps, ds =>
    match ps, ds with
    | [], ds => ds = [] || ds = ['\n']
    | .lit _ :: _, [] => false
    | .lit c :: ps2, d :: ds2 => c = d && patMatchF fuel ps2 ds2
    | .anyChar :: _, [] => false
    | .anyChar :: ps2, d :: ds2 =>
      if d = '\n' then false else patMatchF fuel ps2 ds2
    | .anySeg :: _, [] => false
    | .anySeg :: ps2, d :: ds2 =>
      if d = '/' then false
      else patMatchF fuel ps2 ds2 || patMatchF fuel (.anySeg :: ps2) ds2

def patMatch (ps : List PatTok) (ds : Str) : Bool := patMatchF (ds.length + 1) ps ds

theorem patMatchF_congr (f1 : Nat) :
    ∀ (f2 : Nat) (ps : List PatTok) (ds : Str),
      ds.length + 1 ≤ f1 → ds.length + 1 ≤ f2 →
      patMatchF f1 ps ds = patMatchF f2 ps ds := by
  induction f1 with
  | zero => intro f2 ps ds h1 _; omega
  | succ f ih =>
    intro f2 ps ds h1 h2
    cases f2 with
    | zero => omega
    | succ f2' =>
      simp only [Nat.succ_le_succ_iff] at h1 h2
      show patMatchF (f+1) ps ds = patMatchF (f2'+1) ps ds
      match ps, ds with
      | [], ds => rfl
      | .lit _ :: _, [] => rfl
      | .lit c :: ps2, d :: ds2 =>
        simp only [patMatchF]
        simp only [List.length_cons] at h1 h2
        rw [ih f2' ps2 ds2 (by omega) (by omega)]
      | .anyChar :: _, [] => rfl
      | .anyChar :: ps2, d :: ds2 =>
        simp only [patMatchF]
        simp only [List.length_cons] at h1 h2
        rw [ih f2' ps2 ds2 (by omega) (by omega)]
      | .anySeg :: _, [] => rfl
      | .anySeg :: ps2, d :: ds2 =>
        simp only [patMatchF]
        simp only [List.length_cons] at h1 h2
        rw [ih f2' ps2 ds2 (by omega) (by omega),
          ih f2' (.anySeg :: ps2) ds2 (by omega) (by omega)]

theorem patMatch_nil_pat (ds : Str) :
    patMatch [] ds = (ds = [] || ds = ['\n']) := by
  show patMatchF (ds.length + 1) [] ds = _
  cases ds <;> rfl

theorem patMatch_lit_nil (c : Char) (ps : List PatTok) :
    patMatch (.lit c :: ps) [] = false := rfl

theorem patMatch_lit_cons (c : Char) (ps : List PatTok) (d : Char) (ds : Str) :
    patMatch (.lit c :: ps) (d :: ds) = (c = d && patMatch ps ds) := rfl

theorem patMatch_anyChar_nil (ps : List PatTok) :
    patMatch (.anyChar :: ps) [] = false := rfl

theorem patMatch_anyChar_cons (ps : List PatTok) (d : Char) (ds : Str) :
    patMatch (.anyChar :: ps) (d :: ds) =
      if d = '\n' then false else patMatch ps ds := rfl

theorem patMatch_anySeg_nil (ps : List PatTok) :
    patMatch (.anySeg :: ps) [] = false := rfl

theorem patMatch_anySeg_cons (ps : List PatTok) (d : Char) (ds : Str) :
    patMatch (.anySeg :: ps) (d :: ds) =
      if d = '/' then false
      else patMatch ps ds || patMatch (.anySeg :: ps) ds := rfl

/-- An `Endpoint` row.  The ORM class is imported by the service but its
declaration is not part of the sources; the fields are those the service
reads and writes (`id`, `spec_id`, `path`, `method`, `operation_id`,
`summary`, `tags`), with the `(spec_id, path, method)` key described in the
specification's data model. -/
structure Endpoint where
  id : Nat
  specId : Option Nat
  path : Str
  method : Str
  operationId : Option Str
  summary : Option Str
  tags : List Str
deriving Repr, DecidableEq

/-- The loop-body test of `_find_matching_endpoint` for one endpoint:
exact method equality, then exact normalized-path equality or a
compiled-pattern match. -/
def epMatches (normalized method : Str) (ep : Endpoint) : Bool :=
  ep.method == method &&
    (normalizePath ep.path == normalized ||
      patMatch (compilePat (normalizePath ep.path)) normalized)

/-- `CoverageService._find_matching_endpoint`: normalize the call path and
return the first endpoint in iteration order whose method matches exactly and
whose normalized path matches exactly or by pattern; `none` when no endpoint
matches. -/
def findMatchingEndpoint (path method : Str) (endpoints : List Endpoint) :
    Option Endpoint :=
  endpoints.find? (epMatches (normalizePath path) method)

/-! ## Call-site extractor (`_extract_http_calls`, `_extract_path`)

The five `HTTP_CALL_PATTERNS` regexes are scanned with `re.findall(...,
re.IGNORECASE)`.  Each pattern is `ALIAS\.(verb-alternation)\s*\(\s*` followed
either by `[f]?["\']([^"\']+)["\']` (a quoted literal) or by
`([a-zA-Z_][a-zA-Z0-9_]*)` (a bare identifier, `requests` only).  Since no
HTTP verb is a prefix of another and every greedy run is followed by a
character outside its class, the regex match at a given position is
deterministic and is modelled by a straight-line scanner; `findall` semantics
are leftmost, non-overlapping, resuming after each match. -/

/-- Case-insensitive character equality (`re.IGNORECASE`, ASCII). -/
def ciEq (a b : Char) : Bool := a.toLower == b.toLower

/-- Case-insensitive prefix test. -/
def ciStarts : Str → Str → Bool
  | [], _ => true
  | _ :: _, [] => false
  | a :: as_, b :: bs => ciEq a b && ciStarts as_ bs

/-- The verb alternation `(get|post|put|patch|delete|head|options)`,
in source order. -/
def httpVerbs : List Str :=
  [['g','e','t'], ['p','o','s','t'], ['p','u','t'], ['p','a','t','c','h'],
   ['d','e','l','e','t','e'], ['h','e','a','d'], ['o','p','t','i','o','n','s']]

/-- Match the verb alternation case-insensitively at the head of `l`,
returning the matched text (original case, as `findall` captures it) and the
remainder. -/
def matchVerb (l : Str) : Option (Str × Str) :=
  (httpVerbs.find? (fun v => ciStarts v l)).map
    (fun v => (l.take v.length, l.drop v.length))

/-- Python `\s` (ASCII part). -/
def isSpaceCh (c : Char) : Bool :=
  c = ' ' || c = '\t' || c = '\n' || c = '\r' || c = '\x0b' || c = '\x0c'

/-- A quote character (`["\']`). -/
def isQuote (c : Char) : Bool := c = '"' || c = '\''

/-- `([^"\']+)["\']` after the opening quote: one or more non-quote
characters (the captured group) and a closing quote of either kind. -/
def matchQuoteBody (r : Str) : Option (Str × Str) :=
  match r.dropWhile (fun c => !isQuote c) with
  | q :: rest =>
    if r.takeWhile (fun c => !isQuote c) = [] then none
    else if isQuote q then some (r.takeWhile (fun c => !isQuote c), rest) else none
  | [] => none

/-- `[f]?["\']([^"\']+)["\']`: an optional `f` (case-insensitive), an opening
quote, then the quoted body. -/
def matchQuotedArg (l : Str) : Option (Str × Str) :=
  match l with
  | [] => none
  | c :: rest =>
    if isQuote c then matchQuoteBody rest
    else if c = 'f' || c = 'F' then
      match rest with
      | q :: r2 => if isQuote q then matchQuoteBody r2 else none
      | [] => none
    else none

/-- `([a-zA-Z_][a-zA-Z0-9_]*)`: a Python identifier. -/
def isIdentStart (c : Char) : Bool :=
  ('a' ≤ c && c ≤ 'z') || ('A' ≤ c && c ≤ 'Z') || c = '_'

def isIdentCh (c : Char) : Bool := isIdentStart c || c.isDigit

def matchIdentArg (l : Str) : Option (Str × Str) :=
  match l with
  | c :: rest =>
    if isIdentStart c then some (c :: rest.takeWhile isIdentCh, rest.dropWhile isIdentCh)
    else none
  | [] => none

/-- Attempt one whole-pattern match at the head of `l`: the pfx (including
its dot, e.g. `requests.`), a verb, `\s*`, `(`, `\s*`, then the argument in
quoted (`quoted = true`) or identifier form.  Returns the two captured groups
and the remainder after the match. -/
def tryCallAt (pfx : Str) (quoted : Bool) (l : Str) : Option (Str × Str × Str) :=
  if ciStarts pfx l then
    match matchVerb (l.drop pfx.length) with
    | some (v, l2) =>
      match l2.dropWhile isSpaceCh with
      | '(' :: l4 =>
        match (if quoted then matchQuotedArg else matchIdentArg) (l4.dropWhile isSpaceCh) with
        | some (arg, rest) => some (v, arg, rest)
        | none => none
      | _ => none
    | none => none
  else none

theorem ciStarts_length_le (p l : Str) (h : ciStarts p l = true) :
    p.length ≤ l.length := by
  induction p generalizing l with
  | nil => exact Nat.zero_le _
  | cons a as_ ih =>
    cases l with
    | nil => simp [ciStarts] at h
    | cons b bs =>
      simp only [ciStarts, Bool.and_eq_true] at h
      simpa [List.length_cons, Nat.succ_le_succ_iff] using ih bs h.2

theorem matchVerb_length_le (l v r : Str) (h : matchVerb l = some (v, r)) :
    r.length ≤ l.length := by
  unfold matchVerb at h
  cases hf : httpVerbs.find? (fun v => ciStarts v l) with
  | none => rw [hf] at h; simp at h
  | some vb =>
    rw [hf] at h
    simp only [Option.map_some', Option.some.injEq, Prod.mk.injEq] at h
    obtain ⟨-, rfl⟩ := h
    simp [List.length_drop]

theorem matchQuoteBody_length_le (r0 g r : Str) (hq : matchQuoteBody r0 = some (g, r)) :
    r.length < r0.length := by
  unfold matchQuoteBody at hq
  split at hq
  case h_2 => exact absurd hq (by simp)
  case h_1 q rest hd =>
    split at hq
    · exact absurd hq (by simp)
    · split at hq
      · simp only [Option.some.injEq, Prod.mk.injEq] at hq
        obtain ⟨-, rfl⟩ := hq
        rename_i hg _
        have hgl : 0 < (r0.takeWhile (fun c => !isQuote c)).length :=
          List.length_pos.mpr hg
        have hsum : (r0.takeWhile (fun c => !isQuote c)).length +
            (r0.dropWhile (fun c => !isQuote c)).length = r0.length := by
          have h9 := congrArg List.length
            (List.takeWhile_append_dropWhile (fun c => !isQuote c) r0)
          rw [List.length_append] at h9
          exact h9
        rw [hd] at hsum
        simp only [List.length_cons] at hsum
        omega
      · exact absurd hq (by simp)

theorem matchQuotedArg_length_le (l g r : Str) (h : matchQuotedArg l = some (g, r)) :
    r.length ≤ l.length := by
  unfold matchQuotedArg at h
  cases l with
  | nil => simp at h
  | cons c rest =>
    simp only at h
    by_cases hc : isQuote c = true
    · rw [if_pos hc] at h
      have := matchQuoteBody_length_le rest g r h
      simp only [List.length_cons]; omega
    · rw [if_neg hc] at h
      by_cases hf : (c = 'f' || c = 'F') = true
      · rw [if_pos hf] at h
        cases rest with
        | nil => simp at h
        | cons q r2 =>
          simp only at h
          by_cases hq : isQuote q = true
          · rw [if_pos hq] at h
            have := matchQuoteBody_length_le r2 g r h
            simp only [List.length_cons]; omega
          · simp [hq] at h
      · simp [hf] at h

theorem matchIdentArg_length_le (l g r : Str) (h : matchIdentArg l = some (g, r)) :
    r.length ≤ l.length := by
  unfold matchIdentArg at h
  cases l with
  | nil => simp at h
  | cons c rest =>
    simp only at h
    by_cases hs : isIdentStart c = true
    · rw [if_pos hs] at h
      simp only [Option.some.injEq, Prod.mk.injEq] at h
      obtain ⟨-, rfl⟩ := h
      have := length_dropWhile_le isIdentCh rest
      simp only [List.length_cons]; omega
    · simp [hs] at h

/-- Any successful `tryCallAt` with a nonempty pfx consumes at least one
character of the input. -/
theorem tryCallAt_shrinks (pfx : Str) (hal : pfx ≠ []) (quoted : Bool)
    (l v arg rest : Str) (h : tryCallAt pfx quoted l = some (v, arg, rest)) :
    rest.length < l.length := by
  unfold tryCallAt at h
  split at h
  case isFalse => exact absurd h (by simp)
  case isTrue hp =>
    have halen : pfx.length ≤ l.length := ciStarts_length_le pfx l hp
    have hal1 : 1 ≤ pfx.length := by
      cases pfx with
      | nil => exact absurd rfl hal
      | cons _ _ => simp [List.length_cons]
    split at h
    case h_2 => exact absurd h (by simp)
    case h_1 v0 l2 hv =>
      have hl2 : l2.length ≤ (l.drop pfx.length).length :=
        matchVerb_length_le _ _ _ hv
      rw [List.length_drop] at hl2
      split at h
      case h_2 => exact absurd h (by simp)
      case h_1 l4 hd =>
        have hl4 : l4.length < l2.length + 1 := by
          have := hd ▸ length_dropWhile_le isSpaceCh l2
          simp only [List.length_cons] at this
          omega
        split at h
        case h_2 => exact absurd h (by simp)
        case h_1 arg0 rest0 ha =>
          simp only [Option.some.injEq, Prod.mk.injEq] at h
          obtain ⟨-, -, h3⟩ := h
          rw [← h3]
          have hrest : rest0.length ≤ (l4.dropWhile isSpaceCh).length := by
            cases quoted with
            | true => exact matchQuotedArg_length_le _ _ _ (by simpa using ha)
            | false => exact matchIdentArg_length_le _ _ _ (by simpa using ha)
          have h5 := length_dropWhile_le isSpaceCh l4
          omega

/-- `re.findall(pattern, code, re.IGNORECASE)` for one of the call patterns:
scan left to right, at each position try a match; on success capture the two
groups and resume after the match, otherwise advance one character. -/
def scanCallsF (pfx : Str) (quoted : Bool) : Nat → Str → List (Str × Str)
  | 0, _ => []
  | fuel+1, l =>
    match l with
    | [] => []
    | c :: rest =>
      match tryCallAt pfx quoted (c :: rest) with
      | some (v, arg, after) => (v, arg) :: scanCallsF pfx quoted fuel after
      | none => scanCallsF pfx quoted fuel rest

def scanCalls (pfx : Str) (quoted : Bool) (l : Str) : List (Str × Str) :=
  scanCallsF pfx quoted l.length l

theorem scanCallsF_congr (pfx : Str) (hal : pfx ≠ []) (quoted : Bool) (f1 : Nat) :
    ∀ (f2 : Nat) (l : Str), l.length ≤ f1 → l.length ≤ f2 →
      scanCallsF pfx quoted f1 l = scanCallsF pfx quoted f2 l := by
  induction f1 with
  | zero =>
    intro f2 l h1 _
    have : l = [] := List.length_eq_zero.mp (Nat.le_zero.mp h1)
    subst this
    cases f2 <;> rfl
  | succ f ih =>
    intro f2 l h1 h2
    cases l with
    | nil => cases f2 <;> rfl
    | cons c rest =>
      cases f2 with
      | zero => simp at h2
      | succ f2' =>
        simp only [List.length_cons, Nat.succ_le_succ_iff] at h1 h2
        show scanCallsF pfx quoted (f+1) (c :: rest) =
          scanCallsF pfx quoted (f2'+1) (c :: rest)
        simp only [scanCallsF]
        cases htc : tryCallAt pfx quoted (c :: rest) with
        | none => dsimp only; rw [ih f2' rest h1 h2]
        | some res =>
          obtain ⟨v, arg, after⟩ := res
          have hlt : after.length < (c :: rest).length :=
            tryCallAt_shrinks pfx hal quoted _ _ _ _ htc
          simp only [List.length_cons] at hlt
          dsimp only
          rw [ih f2' after (by omega) (by omega)]

theorem scanCalls_nil (pfx : Str) (quoted : Bool) : scanCalls pfx quoted [] = [] := rfl

theorem scanCalls_cons (pfx : Str) (hal : pfx ≠ []) (quoted : Bool)
    (c : Char) (rest : Str) :
    scanCalls pfx quoted (c :: rest) =
      match tryCallAt pfx quoted (c :: rest) with
      | some (v, arg, after) => (v, arg) :: scanCalls pfx quoted after
      | none => scanCalls pfx quoted rest := by
  show scanCallsF pfx quoted (rest.length + 1) (c :: rest) = _
  simp only [scanCallsF]
  cases htc : tryCallAt pfx quoted (c :: rest) with
  | none =>
    dsimp only
    rw [scanCallsF_congr pfx hal quoted rest.length rest.length rest le_rfl le_rfl]
    rfl
  | some res =>
    obtain ⟨v, arg, after⟩ := res
    have hlt : after.length < (c :: rest).length :=
      tryCallAt_shrinks pfx hal quoted _ _ _ _ htc
    simp only [List.length_cons] at hlt
    dsimp only
    rw [scanCallsF_congr pfx hal quoted rest.length after.length after
      (by omega) le_rfl]
    rfl

/-- The five `HTTP_CALL_PATTERNS`, in source order: `requests.` with a quoted
literal, `requests.` with a bare identifier, then `httpx.`, `client.`,
`session.` with quoted literals. -/
def patternScans (code : Str) : List (Str × Str) :=
  scanCalls ['r','e','q','u','e','s','t','s','.'] true code ++
  scanCalls ['r','e','q','u','e','s','t','s','.'] false code ++
  scanCalls ['h','t','t','p','x','.'] true code ++
  scanCalls ['c','l','i','e','n','t','.'] true code ++
  scanCalls ['s','e','s','s','i','o','n','.'] true code

/-! ## `_extract_path` -/

/-- One attempt of `re.search(r'https?://[^/]+(/[^"\'?\s]*)', ...)` at the
current position: `http`, optional `s` (greedy), `://`, a nonempty authority
of non-`'/'` characters, then the captured group `/` + run of characters that
are not quotes, `'?'` or whitespace. -/
def tryUrlAt (l : Str) : Option Str :=
  if ['h','t','t','p'].isPrefixOf l then
    let l0 := l.drop 4
    let afterScheme : Option Str :=
      if ['s',':','/','/'].isPrefixOf l0 then some (l0.drop 4)
      else if [':','/','/'].isPrefixOf l0 then some (l0.drop 3)
      else none
    match afterScheme with
    | none => none
    | some l1 =>
      let auth := l1.takeWhile (· ≠ '/')
      if auth = [] then none
      else
        match l1.dropWhile (· ≠ '/') with
        | [] => none
        | '/' :: tl =>
          some ('/' :: tl.takeWhile (fun c => !(isQuote c || c = '?' || isSpaceCh c)))
        | _ :: _ => none
  else none

/-- Leftmost `re.search` of the URL pattern over the whole string. -/
def findUrlPath : Str → Option Str
  | [] => none
  | c :: rest =>
    match tryUrlAt (c :: rest) with
    | some g => some g
    | none => findUrlPath rest

/-- The class `[a-zA-Z0-9/_\-{}]` of the f-string fallback pattern. -/
def isPathCh (c : Char) : Bool :=
  ('a' ≤ c && c ≤ 'z') || ('A' ≤ c && c ≤ 'Z') || c.isDigit ||
  c = '/' || c = '_' || c = '-' || c = '{' || c = '}'

/-- Leftmost `re.search(r'(/[a-zA-Z0-9/_\-{}]+)', ...)`: the first `'/'`
followed by at least one class character, captured greedily. -/
def findPathShaped : Str → Option Str
  | [] => none
  | c :: rest =>
    if c = '/' ∧ rest.takeWhile isPathCh ≠ [] then
      some ('/' :: rest.takeWhile isPathCh)
    else findPathShaped rest

/-- `CoverageService._extract_path`.  Returns `none` for the Python `None`;
note that the successful branches can return the empty string (falsy in
Python), which the caller discards. -/
def extractPath (arg : Str) : Option Str :=
  if arg = [] then none
  else if arg.head? = some '/' then some (normalizePath arg)
  else
    match findUrlPath arg with
    | some g => some (normalizePath g)
    | none =>
      if '{' ∈ arg then
        match findPathShaped arg with
        | some g => some (normalizePath g)
        | none => none
      else none

/-- Python's `str.upper()` on ASCII text. -/
def upperStr (s : Str) : Str := s.map Char.toUpper

/-- `calls.add(x)` on a set modelled as a duplicate-free list in insertion
order. -/
def insertDedup (acc : List (Str × Str)) (x : Str × Str) : List (Str × Str) :=
  if x ∈ acc then acc else acc ++ [x]

/-- `CoverageService._extract_http_calls`: run the five patterns, resolve each
captured argument through `_extract_path`, keep the truthy results and collect
the `(METHOD, path)` pairs as a set. -/
def extractHttpCalls (code : Str) : List (Str × Str) :=
  (patternScans code).foldl
    (fun acc m =>
      match extractPath m.2 with
      | some p => if p ≠ [] then insertDedup acc (upperStr m.1, p) else acc
      | none => acc)
    []

/-! ## Coverage correlator (`_analyze_single_test`)

The transactional store is modelled as explicit lists of rows.  A
`TestEndpointCoverage` row is the `(test_id, endpoint_id)` pair; the ORM
class declaration is not part of the sources, its shape is the association
pair described by the specification's data model and used by the service. -/

structure CoverageRow where
  testId : Nat
  endpointId : Nat
deriving Repr, DecidableEq

/-- The fields of a `Test` row read by the coverage service. -/
structure TestRec where
  id : Nat
  name : Str
  code : Str
  specId : Option Nat
deriving Repr, DecidableEq

/-- The store as seen by `_analyze_single_test`. -/
structure CovDb where
  endpoints : List Endpoint
  coverage : List CoverageRow
deriving Repr, DecidableEq

/-- The candidate endpoints of a test: scoped by `test.spec_id` when that is
truthy (SQLAlchemy ids start at 1, but `if test.spec_id:` is Python
truthiness, so `0` behaves like `None`). -/
def candidateEndpoints (db : CovDb) (t : TestRec) : List Endpoint :=
  match t.specId with
  | some sid => if sid ≠ 0 then db.endpoints.filter (fun e => e.specId == some sid)
                else db.endpoints
  | none => db.endpoints

/-- The loop of `_analyze_single_test`: fold over the extracted calls,
recording one endpoint id per distinct matched endpoint (duplicates are
skipped by the `endpoint.id not in [...]` test). -/
def matchedIds (calls : List (Str × Str)) (eps : List Endpoint) : List Nat :=
  calls.foldl
    (fun acc call =>
      match findMatchingEndpoint call.2 call.1 eps with
      | some ep => if ep.id ∈ acc then acc else acc ++ [ep.id]
      | none => acc)
    []

/-- `CoverageService._analyze_single_test`: delete all coverage rows of the
test, then insert one row per distinct matched endpoint id of the current
body.  Returns the new store and the list of matched endpoint ids. -/
def analyzeSingleTest (db : CovDb) (t : TestRec) : CovDb × List Nat :=
  let cleared := db.coverage.filter (fun r => r.testId ≠ t.id)
  let ids := matchedIds (extractHttpCalls t.code) (candidateEndpoints db t)
  ({ db with coverage := cleared ++ ids.map (fun i => ⟨t.id, i⟩) }, ids)

/-! ## Endpoint catalog builder (`_process_openapi_spec`)

`spec.spec` is a JSON value; the builder only distinguishes a falsy value,
the presence of a `paths` mapping, whether each path item and operation is a
dict, and the `operationId`/`summary`/`tags` fields of an operation.  Python
iterates `HTTP_METHODS` (a `set`) in an unspecified order, so the method
iteration order is a parameter. -/

inductive OpVal where
  | notDict
  | op (operationId : Option Str) (summary : Option Str) (tags : Option (List Str))
deriving Repr, DecidableEq

inductive PathVal where
  | notDict
  | dict (items : List (Str × OpVal))
deriving Repr, DecidableEq

inductive SpecContent where
  | falsy
  | obj (paths? : Option (List (Str × PathVal)))
deriving Repr, DecidableEq

/-- An `OpenAPISpec` row as the builder sees it. -/
structure SpecRec where
  id : Nat
  content : SpecContent
deriving Repr, DecidableEq

/-- The endpoint table together with the primary-key allocator. -/
structure EpDb where
  nextId : Nat
  endpoints : List Endpoint
deriving Repr, DecidableEq

/-- Update the first element satisfying `p` (the ORM mutation of the row
returned by `.first()`). -/
def updateFirst (p : α → Bool) (f : α → α) : List α → List α
  | [] => []
  | x :: xs => if p x then f x :: xs else x :: updateFirst p f xs

/-- `filter_by(spec_id=..., path=..., method=...)`. -/
def epKeyMatch (sid : Nat) (path m : Str) (e : Endpoint) : Bool :=
  e.specId == some sid && e.path == path && e.method == m

/-- The per-operation body of `_process_openapi_spec`: update the first
existing row with metadata, or insert a fresh row.  Returns the id of the
touched row. -/
def upsertEndpoint (db : EpDb) (sid : Nat) (path m : Str)
    (oid sm : Option Str) (tg : List Str) : EpDb × Nat :=
  match db.endpoints.find? (epKeyMatch sid path m) with
  | some e =>
    let eps := updateFirst (epKeyMatch sid path m)
      (fun e0 => { e0 with operationId := oid, summary := sm, tags := tg }) db.endpoints
    ({ db with endpoints := eps }, e.id)
  | none =>
    let newRow : Endpoint :=
      { id := db.nextId, specId := some sid, path := path, method := m,
        operationId := oid, summary := sm, tags := tg }
    ({ nextId := db.nextId + 1, endpoints := db.endpoints ++ [newRow] }, db.nextId)

/-- `method in path_item` / `path_item[method]` on the dict. -/
def lookupKey (k : Str) (items : List (Str × OpVal)) : Option OpVal :=
  (items.find? (fun kv => kv.1 == k)).map (fun kv => kv.2)

/-- `CoverageService._process_openapi_spec`: for each path (skipping
non-dict items) and each known method present (skipping non-dict
operations), upsert an endpoint keyed by `(spec_id, path, METHOD)`.
`order` is the iteration order of the `HTTP_METHODS` set.  Returns the new
store and the ids of the endpoints returned by the Python function. -/
def processOpenapiSpec (order : List Str) (db : EpDb) (s : SpecRec) : EpDb × List Nat :=
  match s.content with
  | .falsy => (db, [])
  | .obj none => (db, [])
  | .obj (some paths) =>
    paths.foldl
      (fun acc pitem =>
        match pitem.2 with
        | .notDict => acc
        | .dict items =>
          order.foldl
            (fun acc2 m =>
              match lookupKey m items with
              | none => acc2
              | some .notDict => acc2
              | some (.op oid sm tg) =>
                let r := upsertEndpoint acc2.1 s.id pitem.1 (upperStr m) oid sm (tg.getD [])
                (r.1, acc2.2 ++ [r.2]))
            acc)
      (db, [])

/-! ## Coverage aggregator (`get_coverage_summary`,
`get_coverage_by_microservice`)

Python floats and `round(x, 2)` are modelled over `ℚ` with `round` to the
nearest multiple of `1/100`. -/

/-- `round(x, 2)` over the rationals. -/
def round2 (q : ℚ) : ℚ := (round (q * 100) : ℤ) / 100

/-- `query(TestEndpointCoverage.endpoint_id).distinct()` (no join). -/
def coveredIdsAll (db : CovDb) : List Nat :=
  (db.coverage.map (fun r => r.endpointId)).dedup

/-- The same query joined with `Endpoint` and filtered on `spec_id`. -/
def coveredIdsSpec (db : CovDb) (sid : Nat) : List Nat :=
  ((db.coverage.filter (fun r =>
      db.endpoints.any (fun e => e.id == r.endpointId && e.specId == some sid))).map
    (fun r => r.endpointId)).dedup

structure Summary where
  totalEndpoints : Nat
  coveredEndpoints : Nat
  uncoveredEndpoints : Int
  coveragePercentage : ℚ
deriving Repr, DecidableEq

/-- `CoverageService.get_coverage_summary`; `if spec_id:` is Python
truthiness, so `None` and `0` both mean "no filter". -/
def getCoverageSummary (db : CovDb) (specId : Option Nat) : Summary :=
  let sid := specId.getD 0
  let total := if sid ≠ 0 then
      (db.endpoints.filter (fun e => e.specId == some sid)).length
    else db.endpoints.length
  let covered := if sid ≠ 0 then (coveredIdsSpec db sid).length
    else (coveredIdsAll db).length
  { totalEndpoints := total
    coveredEndpoints := covered
    uncoveredEndpoints := (total : Int) - (covered : Int)
    coveragePercentage :=
      round2 (if total > 0 then (covered : ℚ) / (total : ℚ) * 100 else 0) }

/-- A `Microservice` row with its `specs` relationship (the ids of its
OpenAPI specs). -/
structure MsRec where
  id : Nat
  name : Str
  nspace : Str
  specIds : List Nat
deriving Repr, DecidableEq

/-- One entry of the `get_coverage_by_microservice` result. -/
structure MsCovRow where
  microserviceId : Nat
  microserviceName : Str
  nspace : Str
  totalEndpoints : Nat
  coveredEndpoints : Nat
  coveragePercentage : ℚ
deriving Repr, DecidableEq

/-- The whole store seen by the aggregator. -/
structure FullDb where
  microservices : List MsRec
  endpoints : List Endpoint
  coverage : List CoverageRow
deriving Repr, DecidableEq

/-- `Endpoint.spec_id.in_(spec_ids)` (SQL `IN`: false for NULL). -/
def specIdIn (e : Endpoint) (sids : List Nat) : Bool :=
  match e.specId with
  | some s => sids.contains s
  | none => false

/-- The row built for one microservice. -/
def msRow (db : FullDb) (ms : MsRec) : MsCovRow :=
  let total := (db.endpoints.filter (fun e => specIdIn e ms.specIds)).length
  let covered := ((db.coverage.filter (fun r =>
      db.endpoints.any (fun e => e.id == r.endpointId && specIdIn e ms.specIds))).map
    (fun r => r.endpointId)).dedup.length
  { microserviceId := ms.id
    microserviceName := ms.name
    nspace := ms.nspace
    totalEndpoints := total
    coveredEndpoints := covered
    coveragePercentage :=
      round2 (if total > 0 then (covered : ℚ) / (total : ℚ) * 100 else 0) }

/-- `CoverageService.get_coverage_by_microservice`: skip microservices with
no specs, build a row for every other one, and sort ascending by coverage
percentage (`sorted` with that key; `mergeSort` is stable like Python's
sort). -/
def getCoverageByMicroservice (db : FullDb) : List MsCovRow :=
  ((db.microservices.filter (fun ms => ms.specIds ≠ [])).map (msRow db)).mergeSort
    (fun a b => a.coveragePercentage ≤ b.coveragePercentage)

/-! ## Test execution service (`TestService`)

`_parse_pytest_output` is a pure function of the captured stdout, stderr and
exit code; `subprocess.run` is an external effect and appears as an oracle
parameter of `execute_single_test`, as does the float duration parser
`_extract_pytest_execution_time` (floating point is outside the model; its
value does not influence status or message). -/

def statusPassed : Str := "passed".toList
def statusFailed : Str := "failed".toList
def statusError : Str := "error".toList
def msgUnknown : Str := "Unknown error".toList
def needlePassed : Str := "PASSED".toList
def needleFailed : Str := "FAILED".toList
def needleError : Str := "ERROR".toList
def needleImportError : Str := "ImportError".toList
def needleSyntaxError : Str := "SyntaxError".toList
def needleModuleNotFound : Str := "ModuleNotFoundError".toList
def msgFailedDefault : Str := "Test failed (see logs for details)".toList
def msgErrorDefault : Str := "Test execution error (see logs for details)".toList
def msgImport : Str := "Import error - missing dependencies or incorrect imports".toList
def msgSyntax : Str := "Syntax error in test code".toList
def msgModule : Str := "Module not found - missing dependencies".toList
def msgNotFound : Str := "Test not found".toList
def msgTimeout : Str := "Test execution timed out after 5 minutes".toList

/-- Python `needle in hay` on strings. -/
def isSubstr (needle : Str) : Str → Bool
  | [] => needle.isPrefixOf []
  | c :: rest => needle.isPrefixOf (c :: rest) || isSubstr needle rest

/-- The suffix of `hay` starting at the first occurrence of `needle`
(`re.search` with a literal head). -/
def suffixFrom (needle : Str) : Str → Option Str
  | [] => if needle = [] then some [] else none
  | c :: rest =>
    if needle.isPrefixOf (c :: rest) then some (c :: rest)
    else suffixFrom needle rest

/-- `re.search(r'NEEDLE.*?(?=\n|$)', hay)`: the first occurrence of the
needle extended to the end of its line. -/
def lineFrom (needle hay : Str) : Option Str :=
  (suffixFrom needle hay).map (fun s => s.takeWhile (· ≠ '\n'))

/-- Python `str.strip()` (ASCII whitespace). -/
def stripStr (s : Str) : Str :=
  ((s.dropWhile isSpaceCh).reverse.dropWhile isSpaceCh).reverse

/-- `s.split('\n')`. -/
def splitNl (s : Str) : List Str := s.splitOn '\n'

/-- `lines[-3:]`. -/
def lastN (n : Nat) (l : List Str) : List Str := l.drop (l.length - n)

/-- Result of `_parse_pytest_output` (status and error message; the float
`execution_time` field is independent of both and is not modelled). -/
structure ParseResult where
  status : Str
  errorMessage : Option Str
deriving Repr, DecidableEq

/-- `TestService._parse_pytest_output`, step by step: the exit-code default,
the marker-based classification, the targeted diagnosis overrides, and the
final fallback for an empty message. -/
def parsePytestOutput (stdout stderr : Str) (returnCode : Int) : ParseResult :=
  let r0 : ParseResult :=
    if returnCode = 0 then ⟨statusPassed, none⟩
    else if returnCode = 1 then ⟨statusFailed, some msgUnknown⟩
    else ⟨statusError, some msgUnknown⟩
  let combined := stdout ++ '\n' :: stderr
  let r1 : ParseResult :=
    if isSubstr needlePassed stdout ∧ returnCode = 0 then ⟨statusPassed, none⟩
    else if isSubstr needleFailed stdout then
      ⟨statusFailed,
        some (match lineFrom needleFailed combined with
              | some li => li
              | none => msgFailedDefault)⟩
    else if isSubstr needleError combined ∨ returnCode > 1 then
      ⟨statusError,
        if stripStr stderr ≠ [] then some ((stripStr stderr).take 500)
        else if isSubstr needleError stdout then
          some (match lineFrom needleError stdout with
                | some li => li
                | none => msgErrorDefault)
        else r0.errorMessage⟩
    else r0
  let r2 : ParseResult :=
    if isSubstr needleImportError combined then ⟨statusError, some msgImport⟩
    else if isSubstr needleSyntaxError combined then ⟨statusError, some msgSyntax⟩
    else if isSubstr needleModuleNotFound combined then ⟨statusError, some msgModule⟩
    else r1
  if r2.errorMessage.getD [] = [] ∧ r2.status ≠ statusPassed then
    let lines := splitNl (stripStr combined)
    if lines ≠ [] then
      ⟨r2.status, some ((List.intercalate ['\n'] (lastN 3 lines)).take 500)⟩
    else r2
  else r2

/-- A `Test` row as mutated by the execution engine. -/
structure TestRow where
  id : Nat
  name : Str
  code : Str
  templateId : Option Nat
  status : Option Str
  lastExecution : Option Nat
  executionTime : Option ℚ
  errorMessage : Option Str
  servicesVisited : Option Str
deriving Repr, DecidableEq

structure TemplateRow where
  id : Nat
  name : Str
  templateCode : Str
deriving Repr, DecidableEq

/-- The store seen by `TestService`. -/
structure TestDb where
  tests : List TestRow
  templates : List TemplateRow
deriving Repr, DecidableEq

/-- The outcome of the external `subprocess.run` invocation of pytest. -/
inductive RunOutcome where
  | done (stdout stderr : Str) (returnCode : Int)
  | timeout
deriving Repr, DecidableEq

/-- Result dictionary of `execute_single_test`. -/
structure ExecResultRow where
  status : Str
  testId : Nat
  testName : Option Str
  executionTime : Option ℚ
  message : Option Str
deriving Repr, DecidableEq

/-- Ensure the template code ends with a blank line
(the two `endswith` fix-ups of `_combine_template_and_test`). -/
def ensureBlankLine (tc : Str) : Str :=
  let tc1 := if tc.getLast? ≠ some '\n' then tc ++ ['\n'] else tc
  if ¬ (['\n', '\n'].isSuffixOf tc1) then tc1 ++ ['\n'] else tc1

/-- The minimal preamble used when the test has no template. -/
def minimalTemplate : Str := "import pytest\nimport requests\n\n".toList

/-- `TestService._combine_template_and_test` (total in the model: the Python
`None` arises only from an exception inside this try block). -/
def combineTemplateAndTest (db : TestDb) (t : TestRow) : Str :=
  let templateCode : Str :=
    match t.templateId with
    | some tid =>
      match db.templates.find? (fun tp => tp.id == tid) with
      | some tp => tp.templateCode
      | none => []
    | none => []
  if templateCode ≠ [] then ensureBlankLine templateCode ++ t.code
  else minimalTemplate ++ t.code

/-- `TestService._update_test_results`: set status, timestamp, duration and
error message, and default `services_visited` to the empty JSON list when
falsy. -/
def updateTestResults (now : Nat) (st : Str) (msg : Option Str) (time : ℚ)
    (t : TestRow) : TestRow :=
  { t with
    status := some st
    lastExecution := some now
    executionTime := some time
    errorMessage := msg
    servicesVisited :=
      if t.servicesVisited.getD [] = [] then some ("[]".toList)
      else t.servicesVisited }

/-- `TestService.execute_single_test`.  `runner` is the external pytest
invocation on the materialized file's contents, `timeOf` the float duration
parser `_extract_pytest_execution_time` (an oracle over the captured stdout),
and `now` the wall clock.  A missing test id returns the structured
not-found result and leaves the store untouched. -/
def executeSingleTest (runner : Str → RunOutcome) (timeOf : Str → ℚ) (now : Nat)
    (db : TestDb) (testId : Nat) : ExecResultRow × TestDb :=
  match db.tests.find? (fun t => t.id == testId) with
  | none =>
    ({ status := statusError, testId := testId, testName := none,
       executionTime := none, message := some msgNotFound }, db)
  | some t =>
    let code := combineTemplateAndTest db t
    let (st, msg, time) :=
      match runner code with
      | .done out err rc =>
        let pr := parsePytestOutput out err rc
        (pr.status, pr.errorMessage, timeOf out)
      | .timeout => (statusError, some msgTimeout, 0)
    let newTests := updateFirst (fun tr => tr.id == testId)
      (updateTestResults now st msg time) db.tests
    let db' : TestDb := { db with tests := newTests }
    ({ status := st, testId := testId, testName := some t.name,
       executionTime := some time, message := some (msg.getD []) }, db')

/-! ## Shared helper lemmas -/

theorem nodup_subset_length_le {l1 l2 : List Nat} (h1 : l1.Nodup) (hs : l1 ⊆ l2) :
    l1.length ≤ l2.length := by
  calc l1.length = l1.toFinset.card := (List.toFinset_card_of_nodup h1).symm
    _ ≤ l2.toFinset.card := Finset.card_le_card
        (fun x hx => List.mem_toFinset.mpr (hs (List.mem_toFinset.mp hx)))
    _ = l2.dedup.length := List.card_toFinset l2
    _ ≤ l2.length := (List.dedup_sublist l2).length_le

theorem round2_nonneg (q : ℚ) (h0 : 0 ≤ q) : 0 ≤ round2 q := by
  unfold round2
  apply div_nonneg _ (by norm_num)
  have h1 : (0 : ℤ) ≤ round (q * 100) := by
    rw [round_eq]
    exact Int.floor_nonneg.mpr (by linarith)
  exact_mod_cast h1

theorem round2_le_100 (q : ℚ) (h100 : q ≤ 100) : round2 q ≤ 100 := by
  unfold round2
  rw [div_le_iff₀ (by norm_num : (0:ℚ) < 100)]
  have h1 : round (q * 100) ≤ 10000 := by
    rw [round_eq]
    have h2 : ⌊q * 100 + 1/2⌋ ≤ ⌊(10000 : ℚ) + 1/2⌋ := Int.floor_le_floor (by linarith)
    have h3 : ⌊(10000 : ℚ) + 1/2⌋ = 10000 := by
      rw [Int.floor_eq_iff]
      constructor
      · push_cast; linarith
      · push_cast; linarith
    omega
  have h4 : ((round (q * 100) : ℤ) : ℚ) ≤ ((10000 : ℤ) : ℚ) := by exact_mod_cast h1
  calc ((round (q * 100) : ℤ) : ℚ) ≤ ((10000 : ℤ) : ℚ) := h4
    _ = 100 * 100 := by norm_num

/-! ## C9 -/

/-- C9: `execute_single_test` called with a test id that does not exist
returns the structured not-found result (`status = "error"`,
`message = "Test not found"`), without raising (the function is total) and
without altering any stored row: the store comes back unchanged. -/
theorem execute_single_test_not_found
    (runner : Str → RunOutcome) (timeOf : Str → ℚ) (now : Nat)
    (db : TestDb) (testId : Nat)
    (h : ∀ t ∈ db.tests, t.id ≠ testId) :
    executeSingleTest runner timeOf now db testId =
      ({ status := statusError, testId := testId, testName := none,
         executionTime := none, message := some msgNotFound }, db) := by
  unfold executeSingleTest
  have hf : db.tests.find? (fun t => t.id == testId) = none :=
    List.find?_eq_none.mpr (fun t ht => by simpa using h t ht)
  rw [hf]

/-- A store with a single test of id 1 for the C9 witness. -/
def c9db : TestDb :=
  { tests := [{ id := 1, name := [], code := [], templateId := none,
                status := none, lastExecution := none, executionTime := none,
                errorMessage := none, servicesVisited := none }],
    templates := [] }

theorem execute_single_test_not_found_witness :
    executeSingleTest (fun _ => RunOutcome.timeout) (fun _ => 0) 7 c9db 2 =
      ({ status := statusError, testId := 2, testName := none,
         executionTime := none, message := some msgNotFound }, c9db) :=
  execute_single_test_not_found (fun _ => RunOutcome.timeout) (fun _ => 0) 7 c9db 2
    (by decide)

/-! ## C7 -/

theorem round2_zero : round2 0 = 0 := by
  unfold round2
  norm_num

theorem summary_covered_le_total (db : CovDb) (specId : Option Nat)
    (hfk : ∀ r ∈ db.coverage, ∃ e ∈ db.endpoints, e.id = r.endpointId) :
    (getCoverageSummary db specId).coveredEndpoints ≤
      (getCoverageSummary db specId).totalEndpoints := by
  unfold getCoverageSummary
  by_cases hs : specId.getD 0 ≠ 0
  · simp only [if_pos hs]
    unfold coveredIdsSpec
    have hsub : ((db.coverage.filter (fun r =>
        db.endpoints.any (fun e => e.id == r.endpointId &&
          e.specId == some (specId.getD 0)))).map (fun r => r.endpointId)).dedup ⊆
        (db.endpoints.filter (fun e => e.specId == some (specId.getD 0))).map
          (fun e => e.id) := by
      intro x hx
      have hx2 := (List.mem_dedup).mp hx
      obtain ⟨r, hr, hrx⟩ := List.mem_map.mp hx2
      have hr2 := List.mem_filter.mp hr
      obtain ⟨e, he, hcond⟩ := List.any_eq_true.mp hr2.2
      rw [Bool.and_eq_true, beq_iff_eq, beq_iff_eq] at hcond
      refine List.mem_map.mpr ⟨e, List.mem_filter.mpr ⟨he, ?_⟩, ?_⟩
      · simp [hcond.2]
      · rw [hcond.1, hrx]
    calc ((db.coverage.filter (fun r =>
          db.endpoints.any (fun e => e.id == r.endpointId &&
            e.specId == some (specId.getD 0)))).map
          (fun r => r.endpointId)).dedup.length
        ≤ ((db.endpoints.filter (fun e =>
            e.specId == some (specId.getD 0))).map (fun e => e.id)).length :=
          nodup_subset_length_le (List.nodup_dedup _) hsub
      _ = (db.endpoints.filter (fun e =>
            e.specId == some (specId.getD 0))).length := by rw [List.length_map]
  · simp only [if_neg hs]
    unfold coveredIdsAll
    have hsub : ((db.coverage.map (fun r => r.endpointId)).dedup : List Nat) ⊆
        db.endpoints.map (fun e => e.id) := by
      intro x hx
      have hx2 := (List.mem_dedup).mp hx
      obtain ⟨r, hr, hrx⟩ := List.mem_map.mp hx2
      obtain ⟨e, he, hex⟩ := hfk r hr
      exact List.mem_map.mpr ⟨e, he, by rw [hex, hrx]⟩
    calc (db.coverage.map (fun r => r.endpointId)).dedup.length
        ≤ (db.endpoints.map (fun e => e.id)).length :=
          nodup_subset_length_le (List.nodup_dedup _) hsub
      _ = db.endpoints.length := by rw [List.length_map]

/-- C7: for every stored catalog and coverage state (with coverage rows
referencing existing endpoints), `get_coverage_summary` returns a
`coverage_percentage` in `[0, 100]` that equals `covered/total*100` rounded
to two decimals, and `0` when the endpoint count is zero — computed without
any division error (`ℚ` division is total in the model exactly because the
code never divides when `total == 0`). -/
theorem get_coverage_summary_percentage (db : CovDb) (specId : Option Nat)
    (hfk : ∀ r ∈ db.coverage, ∃ e ∈ db.endpoints, e.id = r.endpointId) :
    0 ≤ (getCoverageSummary db specId).coveragePercentage ∧
    (getCoverageSummary db specId).coveragePercentage ≤ 100 ∧
    ((getCoverageSummary db specId).totalEndpoints = 0 →
      (getCoverageSummary db specId).coveragePercentage = 0) ∧
    (getCoverageSummary db specId).coveragePercentage =
      round2 (if (getCoverageSummary db specId).totalEndpoints > 0 then
        ((getCoverageSummary db specId).coveredEndpoints : ℚ) /
          ((getCoverageSummary db specId).totalEndpoints : ℚ) * 100 else 0) := by
  have hle := summary_covered_le_total db specId hfk
  set s := getCoverageSummary db specId with hsdef
  have hq : 0 ≤ (if s.totalEndpoints > 0 then
      (s.coveredEndpoints : ℚ) / (s.totalEndpoints : ℚ) * 100 else 0) ∧
      (if s.totalEndpoints > 0 then
        (s.coveredEndpoints : ℚ) / (s.totalEndpoints : ℚ) * 100 else 0) ≤ 100 := by
    by_cases ht : s.totalEndpoints > 0
    · simp only [ht, if_true]
      constructor
      · positivity
      · have h1 : (s.coveredEndpoints : ℚ) / (s.totalEndpoints : ℚ) ≤ 1 := by
          rw [div_le_one (by exact_mod_cast ht)]
          exact_mod_cast hle
        nlinarith [h1]
    · simp [ht]
  have hform : s.coveragePercentage =
      round2 (if s.totalEndpoints > 0 then
        (s.coveredEndpoints : ℚ) / (s.totalEndpoints : ℚ) * 100 else 0) := by
    rw [hsdef]
    unfold getCoverageSummary
    by_cases hs2 : specId.getD 0 ≠ 0 <;> simp [hs2]
  refine ⟨?_, ?_, ?_, hform⟩
  · rw [hform]; exact round2_nonneg _ hq.1
  · rw [hform]; exact round2_le_100 _ hq.2
  · intro h0
    rw [hform, h0]
    simpa using round2_zero

/-- A small store for the C7 witness: one endpoint, one coverage row. -/
def c7db : CovDb :=
  { endpoints := [{ id := 1, specId := some 1, path := ['/','a'],
                    method := ['G','E','T'], operationId := none,
                    summary := none, tags := [] }],
    coverage := [⟨10, 1⟩] }

theorem get_coverage_summary_percentage_witness :
    0 ≤ (getCoverageSummary c7db none).coveragePercentage ∧
    (getCoverageSummary c7db none).coveragePercentage ≤ 100 ∧
    ((getCoverageSummary c7db none).totalEndpoints = 0 →
      (getCoverageSummary c7db none).coveragePercentage = 0) ∧
    (getCoverageSummary c7db none).coveragePercentage =
      round2 (if (getCoverageSummary c7db none).totalEndpoints > 0 then
        ((getCoverageSummary c7db none).coveredEndpoints : ℚ) /
          ((getCoverageSummary c7db none).totalEndpoints : ℚ) * 100 else 0) :=
  get_coverage_summary_percentage c7db none (by decide)

/-! ## C3 -/

theorem matchedIds_nodup (calls : List (Str × Str)) (eps : List Endpoint) :
    (matchedIds calls eps).Nodup := by
  unfold matchedIds
  suffices h : ∀ (cs : List (Str × Str)) (acc : List Nat), acc.Nodup →
      (cs.foldl (fun acc call =>
        match findMatchingEndpoint call.2 call.1 eps with
        | some ep => if ep.id ∈ acc then acc else acc ++ [ep.id]
        | none => acc) acc).Nodup from h calls [] List.nodup_nil
  intro cs
  induction cs with
  | nil => intro acc hacc; exact hacc
  | cons c cs2 ih =>
    intro acc hacc
    simp only [List.foldl_cons]
    apply ih
    cases findMatchingEndpoint c.2 c.1 eps with
    | none => exact hacc
    | some ep =>
      by_cases hin : ep.id ∈ acc
      · simpa [hin] using hacc
      · simp only [hin, if_false]
        rw [List.nodup_append]
        exact ⟨hacc, List.nodup_singleton _, by simpa using hin⟩

theorem analyze_rows_of_test (db : CovDb) (t : TestRec) :
    ((analyzeSingleTest db t).1.coverage.filter (fun r => r.testId == t.id)) =
      ((analyzeSingleTest db t).2.map (fun i => (⟨t.id, i⟩ : CoverageRow))) := by
  show ((db.coverage.filter (fun r => r.testId ≠ t.id)) ++
      (matchedIds (extractHttpCalls t.code) (candidateEndpoints db t)).map
        (fun i => (⟨t.id, i⟩ : CoverageRow))).filter (fun r => r.testId == t.id) = _
  rw [List.filter_append]
  have h1 : (db.coverage.filter (fun r => r.testId ≠ t.id)).filter
      (fun r => r.testId == t.id) = [] := by
    rw [List.filter_eq_nil_iff]
    intro r hr
    have h2 := (List.mem_filter.mp hr).2
    simp only [ne_eq, decide_not, Bool.not_eq_eq_eq_not, Bool.not_true,
      decide_eq_false_iff_not] at h2
    simp [h2]
  have h2 : ((matchedIds (extractHttpCalls t.code)
      (candidateEndpoints db t)).map (fun i => (⟨t.id, i⟩ : CoverageRow))).filter
      (fun r => r.testId == t.id) =
      (matchedIds (extractHttpCalls t.code) (candidateEndpoints db t)).map
        (fun i => (⟨t.id, i⟩ : CoverageRow)) := by
    rw [List.filter_eq_self]
    intro r hr
    obtain ⟨i, -, rfl⟩ := List.mem_map.mp hr
    simp
  rw [h1, h2, List.nil_append]
  rfl

theorem analyze_rows_of_others (db : CovDb) (t : TestRec) :
    ((analyzeSingleTest db t).1.coverage.filter (fun r => r.testId ≠ t.id)) =
      (db.coverage.filter (fun r => r.testId ≠ t.id)) := by
  show ((db.coverage.filter (fun r => r.testId ≠ t.id)) ++
      (matchedIds (extractHttpCalls t.code) (candidateEndpoints db t)).map
        (fun i => (⟨t.id, i⟩ : CoverageRow))).filter (fun r => r.testId ≠ t.id) = _
  rw [List.filter_append]
  have h1 : (db.coverage.filter (fun r => r.testId ≠ t.id)).filter
      (fun r => r.testId ≠ t.id) = db.coverage.filter (fun r => r.testId ≠ t.id) := by
    rw [List.filter_eq_self]
    intro r hr
    exact (List.mem_filter.mp hr).2
  have h2 : ((matchedIds (extractHttpCalls t.code)
      (candidateEndpoints db t)).map (fun i => (⟨t.id, i⟩ : CoverageRow))).filter
      (fun r => r.testId ≠ t.id) = [] := by
    rw [List.filter_eq_nil_iff]
    intro r hr
    obtain ⟨i, -, rfl⟩ := List.mem_map.mp hr
    simp
  rw [h1, h2, List.append_nil]

/-- C3: `_analyze_single_test` first deletes the coverage rows of the test
and then inserts exactly one row per distinct endpoint id matched from the
test's current body: the resulting rows for this test are exactly the
matched ids (without duplicates, one row per distinct endpoint), rows of
other tests are untouched, the result is a function of the current body and
endpoint catalog only (so no stale mapping from a prior body survives), and
re-analyzing the unchanged test yields the identical store and mapping
(idempotent replacement). -/
theorem analyze_single_test_replaces (db : CovDb) (t : TestRec) :
    ((analyzeSingleTest db t).1.coverage.filter (fun r => r.testId == t.id)) =
      ((analyzeSingleTest db t).2.map (fun i => (⟨t.id, i⟩ : CoverageRow))) ∧
    ((analyzeSingleTest db t).1.coverage.filter (fun r => r.testId ≠ t.id)) =
      (db.coverage.filter (fun r => r.testId ≠ t.id)) ∧
    (analyzeSingleTest db t).2.Nodup ∧
    (analyzeSingleTest db t).2 =
      matchedIds (extractHttpCalls t.code) (candidateEndpoints db t) ∧
    analyzeSingleTest (analyzeSingleTest db t).1 t = analyzeSingleTest db t := by
  refine ⟨analyze_rows_of_test db t, analyze_rows_of_others db t,
    matchedIds_nodup _ _, rfl, ?_⟩
  have hends : (analyzeSingleTest db t).1.endpoints = db.endpoints := rfl
  have hcand : candidateEndpoints (analyzeSingleTest db t).1 t =
      candidateEndpoints db t := by
    unfold candidateEndpoints
    rw [hends]
  have hfilter := analyze_rows_of_others db t
  have e2 : (analyzeSingleTest (analyzeSingleTest db t).1 t).2 =
      (analyzeSingleTest db t).2 := by
    show matchedIds (extractHttpCalls t.code)
        (candidateEndpoints (analyzeSingleTest db t).1 t) = _
    rw [hcand]
    rfl
  have hcov : (analyzeSingleTest (analyzeSingleTest db t).1 t).1.coverage =
      (analyzeSingleTest db t).1.coverage := by
    show ((analyzeSingleTest db t).1.coverage.filter (fun r => r.testId ≠ t.id)) ++
        (matchedIds (extractHttpCalls t.code)
          (candidateEndpoints (analyzeSingleTest db t).1 t)).map
          (fun i => (⟨t.id, i⟩ : CoverageRow)) = _
    rw [hcand, hfilter]
    rfl
  have e1 : (analyzeSingleTest (analyzeSingleTest db t).1 t).1 =
      (analyzeSingleTest db t).1 := by
    have ha := (analyzeSingleTest (analyzeSingleTest db t).1 t).1
    cases hA : (analyzeSingleTest (analyzeSingleTest db t).1 t).1 with
    | mk endsA covA =>
      cases hB : (analyzeSingleTest db t).1 with
      | mk endsB covB =>
        have hcovAB : covA = covB := by
          have := hcov
          rw [hA, hB] at this
          exact this
        have hendsAB : endsA = endsB := by
          have hx : (analyzeSingleTest (analyzeSingleTest db t).1 t).1.endpoints =
              (analyzeSingleTest db t).1.endpoints := rfl
          rw [hA, hB] at hx
          exact hx
        rw [hcovAB, hendsAB]
  calc analyzeSingleTest (analyzeSingleTest db t).1 t
      = ((analyzeSingleTest (analyzeSingleTest db t).1 t).1,
         (analyzeSingleTest (analyzeSingleTest db t).1 t).2) := rfl
    _ = ((analyzeSingleTest db t).1, (analyzeSingleTest db t).2) := by rw [e1, e2]
    _ = analyzeSingleTest db t := rfl

/-! ## C8 -/

/-- C8 (amended): `get_coverage_by_microservice` returns the rows sorted
ascending by coverage percentage, and its entries are exactly one row per
microservice that has at least one spec — a microservice with specs but zero
endpoints is still included (with zero percentage); only spec-less
microservices are excluded. -/
theorem coverage_by_microservice_sorted (db : FullDb) :
    List.Pairwise
      (fun a b : MsCovRow => a.coveragePercentage ≤ b.coveragePercentage)
      (getCoverageByMicroservice db) ∧
    (∀ row ∈ getCoverageByMicroservice db,
      ∃ ms ∈ db.microservices, ms.specIds ≠ [] ∧ row = msRow db ms) ∧
    (∀ ms ∈ db.microservices, ms.specIds ≠ [] →
      msRow db ms ∈ getCoverageByMicroservice db) := by
  refine ⟨?_, ?_, ?_⟩
  · have h := @List.sorted_mergeSort MsCovRow
      (fun a b : MsCovRow => decide (a.coveragePercentage ≤ b.coveragePercentage))
      (fun a b c hab hbc => by
        simp only [decide_eq_true_eq] at *
        exact le_trans hab hbc)
      (fun a b => by
        simp only [Bool.or_eq_true, decide_eq_true_eq]
        exact le_total _ _)
      ((db.microservices.filter (fun ms => ms.specIds ≠ [])).map (msRow db))
    exact h.imp (fun hab => by simpa using hab)
  · intro row hrow
    have hmem : row ∈ (db.microservices.filter
        (fun ms => ms.specIds ≠ [])).map (msRow db) :=
      (List.mergeSort_perm _ _).subset hrow
    obtain ⟨ms, hms, rfl⟩ := List.mem_map.mp hmem
    have h2 := List.mem_filter.mp hms
    exact ⟨ms, h2.1, by simpa using h2.2, rfl⟩
  · intro ms hms hne
    have hmem : msRow db ms ∈ (db.microservices.filter
        (fun ms => ms.specIds ≠ [])).map (msRow db) :=
      List.mem_map.mpr ⟨ms, List.mem_filter.mpr ⟨hms, by simpa using hne⟩, rfl⟩
    exact (List.mergeSort_perm ((db.microservices.filter
      (fun ms => ms.specIds ≠ [])).map (msRow db)) _).symm.subset hmem

theorem coverage_by_microservice_sorted_witness :
    msRow ⟨[⟨1, ['m'], ['n'], [5]⟩], [], []⟩ ⟨1, ['m'], ['n'], [5]⟩ ∈
      getCoverageByMicroservice ⟨[⟨1, ['m'], ['n'], [5]⟩], [], []⟩ :=
  (coverage_by_microservice_sorted ⟨[⟨1, ['m'], ['n'], [5]⟩], [], []⟩).2.2
    ⟨1, ['m'], ['n'], [5]⟩ (by decide) (by decide)

/-- A store for the C8 counterexample: one microservice owning one spec that
declares no endpoints. -/
def c8db : FullDb :=
  { microservices := [⟨1, ['m'], ['n'], [5]⟩], endpoints := [], coverage := [] }

/-- C8 counterexample: the claim says services with zero endpoints are
excluded, but a service whose specs declare no endpoints is returned (the
code only skips services with no specs at all): here the single returned row
has `total_endpoints = 0`. -/
theorem coverage_by_microservice_zero_endpoints_included :
    (getCoverageByMicroservice c8db).map (fun r => r.totalEndpoints) = [0] ∧
    (getCoverageByMicroservice c8db).length = 1 := by
  have h : getCoverageByMicroservice c8db = [msRow c8db ⟨1, ['m'], ['n'], [5]⟩] := by
    unfold getCoverageByMicroservice
    have h2 : c8db.microservices.filter (fun ms => ms.specIds ≠ []) =
        [⟨1, ['m'], ['n'], [5]⟩] := by rfl
    rw [h2]
    simp [List.mergeSort_singleton]
  rw [h]
  constructor <;> rfl

/-! ## C6 -/

theorem insertDedup_nodup (acc : List (Str × Str)) (x : Str × Str)
    (h : acc.Nodup) : (insertDedup acc x).Nodup := by
  unfold insertDedup
  by_cases hx : x ∈ acc
  · simpa [hx]
  · simp only [hx, if_false]
    rw [List.nodup_append]
    exact ⟨h, List.nodup_singleton _, by simpa using hx⟩

/-- C6: the call-site extractor is a total function (the model is a pure
function, mirroring that the Python code only uses non-raising regex
operations), its output is de-duplicated, and an argument from which no path
is recoverable (not starting with `/`, no URL match, no brace) is discarded:
`_extract_path` returns `None` for it. -/
theorem extract_http_calls_safety (code arg : Str) :
    (extractHttpCalls code).Nodup ∧
    (arg ≠ [] → arg.head? ≠ some '/' → findUrlPath arg = none → ('{' ∈ arg → False) →
      extractPath arg = none) := by
  constructor
  · unfold extractHttpCalls
    suffices h : ∀ (ms : List (Str × Str)) (acc : List (Str × Str)), acc.Nodup →
        (ms.foldl (fun acc m =>
          match extractPath m.2 with
          | some p => if p ≠ [] then insertDedup acc (upperStr m.1, p) else acc
          | none => acc) acc).Nodup from h (patternScans code) [] List.nodup_nil
    intro ms
    induction ms with
    | nil => intro acc hacc; exact hacc
    | cons m ms2 ih =>
      intro acc hacc
      simp only [List.foldl_cons]
      apply ih
      cases extractPath m.2 with
      | none => exact hacc
      | some p =>
        dsimp only
        by_cases hp : p = []
        · rw [if_neg (fun hcon => hcon hp)]
          exact hacc
        · rw [if_pos hp]
          exact insertDedup_nodup acc _ hacc
  · intro hne hhead hurl hbrace
    unfold extractPath
    rw [if_neg hne, if_neg hhead, hurl]
    have hb : ('{' ∈ arg) = False := by
      simp only [eq_iff_iff, iff_false]
      exact hbrace
    simp [hb]

theorem extract_http_calls_safety_witness :
    extractPath ['x','y','z'] = none :=
  (extract_http_calls_safety [] ['x','y','z']).2 (by decide) (by decide)
    (by decide) (by decide)

/-! ## C4 -/

theorem nil_isPrefixOf (l : Str) : List.isPrefixOf [] l = true := by
  cases l <;> rfl

theorem suffixFrom_isPrefixOf (needle : Str) :
    ∀ (hay s : Str), suffixFrom needle hay = some s → needle.isPrefixOf s = true := by
  intro hay
  induction hay with
  | nil =>
    intro s h
    unfold suffixFrom at h
    by_cases hn : needle = []
    · subst hn
      rw [if_pos rfl] at h
      simp only [Option.some.injEq] at h
      subst h
      exact nil_isPrefixOf []
    · simp [hn] at h
  | cons c rest ih =>
    intro s h
    unfold suffixFrom at h
    by_cases hp : needle.isPrefixOf (c :: rest) = true
    · rw [if_pos hp] at h
      simp only [Option.some.injEq] at h
      subst h
      exact hp
    · rw [if_neg hp] at h
      exact ih s h

theorem suffixFrom_isSome_of_isSubstr (needle : Str) :
    ∀ (hay : Str), isSubstr needle hay = true → (suffixFrom needle hay).isSome = true := by
  intro hay
  induction hay with
  | nil =>
    intro h
    unfold isSubstr at h
    unfold suffixFrom
    have : needle = [] := by
      cases needle with
      | nil => rfl
      | cons a as_ => simp [List.isPrefixOf] at h
    simp [this]
  | cons c rest ih =>
    intro h
    unfold isSubstr at h
    unfold suffixFrom
    by_cases hp : needle.isPrefixOf (c :: rest) = true
    · simp [hp]
    · rw [if_neg hp]
      rw [Bool.or_eq_true] at h
      exact ih (h.resolve_left hp)

theorem isPrefixOf_append (n s b : Str) (h : n.isPrefixOf s = true) :
    n.isPrefixOf (s ++ b) = true := by
  induction n generalizing s with
  | nil => exact nil_isPrefixOf _
  | cons a as_ ih =>
    cases s with
    | nil => simp [List.isPrefixOf] at h
    | cons c cs =>
      simp only [List.isPrefixOf, Bool.and_eq_true] at h ⊢
      exact ⟨h.1, ih cs h.2⟩

theorem isSubstr_append_left (n a b : Str) (h : isSubstr n a = true) :
    isSubstr n (a ++ b) = true := by
  induction a with
  | nil =>
    unfold isSubstr at h
    have : n = [] := by
      cases n with
      | nil => rfl
      | cons x xs => simp [List.isPrefixOf] at h
    subst this
    cases b with
    | nil => rfl
    | cons c cs =>
      unfold isSubstr
      simp [List.isPrefixOf]
  | cons c cs ih =>
    unfold isSubstr at h ⊢
    rw [Bool.or_eq_true] at h
    rw [List.cons_append]
    rw [Bool.or_eq_true]
    cases h with
    | inl hp => exact Or.inl (by rw [← List.cons_append]; exact isPrefixOf_append _ _ _ hp)
    | inr hs => exact Or.inr (ih hs)

/-- The one-line summary extracted for a `FAILED` marker is nonempty. -/
theorem lineFrom_failed_ne_nil (hay li : Str)
    (h : lineFrom needleFailed hay = some li) : li ≠ [] := by
  unfold lineFrom at h
  cases hs : suffixFrom needleFailed hay with
  | none => rw [hs] at h; simp at h
  | some s =>
    rw [hs] at h
    simp only [Option.map_some', Option.some.injEq] at h
    have hpre := suffixFrom_isPrefixOf needleFailed hay s hs
    cases s with
    | nil => simp [needleFailed, List.isPrefixOf] at hpre
    | cons c cs =>
      have hc : c = 'F' := by
        simp only [needleFailed] at hpre
        simp only [List.isPrefixOf, Bool.and_eq_true, beq_iff_eq] at hpre
        exact hpre.1.symm
      subst hc
      subst h
      simp [List.takeWhile]
theorem mem_of_isPrefixOf (n s : Str) (h : n.isPrefixOf s = true) :
    ∀ c ∈ n, c ∈ s := by
  induction n generalizing s with
  | nil => intro c hc; simp at hc
  | cons a as_ ih =>
    cases s with
    | nil => simp [List.isPrefixOf] at h
    | cons b bs =>
      simp only [List.isPrefixOf, Bool.and_eq_true, beq_iff_eq] at h
      intro c hc
      rcases List.mem_cons.mp hc with rfl | hc2
      · exact List.mem_cons.mpr (Or.inl h.1)
      · exact List.mem_cons.mpr (Or.inr (ih bs h.2 c hc2))

theorem mem_of_suffixFrom (n : Str) :
    ∀ (h s : Str), suffixFrom n h = some s → ∀ c ∈ s, c ∈ h := by
  intro h
  induction h with
  | nil =>
    intro s hs c hc
    unfold suffixFrom at hs
    by_cases hn : n = []
    · simp only [if_pos hn, Option.some.injEq] at hs
      subst hs
      simp at hc
    · simp [hn] at hs
  | cons a rest ih =>
    intro s hs c hc
    unfold suffixFrom at hs
    by_cases hp : n.isPrefixOf (a :: rest) = true
    · rw [if_pos hp] at hs
      simp only [Option.some.injEq] at hs
      subst hs
      exact hc
    · rw [if_neg hp] at hs
      exact List.mem_cons.mpr (Or.inr (ih s hs c hc))

theorem mem_of_isSubstr (n h : Str) (hsub : isSubstr n h = true) :
    ∀ c ∈ n, c ∈ h := by
  intro c hc
  have hsome := suffixFrom_isSome_of_isSubstr n h hsub
  cases hsf : suffixFrom n h with
  | none => rw [hsf] at hsome; simp at hsome
  | some s =>
    exact mem_of_suffixFrom n h s hsf c
      (mem_of_isPrefixOf n s (suffixFrom_isPrefixOf n h s hsf) c hc)

theorem stripStr_eq_nil_all_ws (s : Str) (h : stripStr s = []) :
    ∀ c ∈ s, isSpaceCh c = true := by
  unfold stripStr at h
  have h1 : (s.dropWhile isSpaceCh).reverse.dropWhile isSpaceCh = [] := by
    have := congrArg List.reverse h
    rwa [List.reverse_reverse, List.reverse_nil] at this
  have h2 : ∀ c ∈ (s.dropWhile isSpaceCh).reverse, isSpaceCh c = true :=
    List.dropWhile_eq_nil_iff.mp h1
  intro c hc
  rcases List.mem_append.mp
      ((List.takeWhile_append_dropWhile isSpaceCh s) ▸ hc) with hc1 | hc2
  · exact List.mem_takeWhile_imp hc1
  · exact h2 c (List.mem_reverse.mpr hc2)

theorem isPrefixOf_stops_at_nl (n : Str) (hnl : '\n' ∉ n) :
    ∀ (x y : Str), n.isPrefixOf (x ++ '\n' :: y) = true → n.isPrefixOf x = true := by
  induction n with
  | nil => intro x y _; exact nil_isPrefixOf _
  | cons a as_ ih =>
    intro x y h
    cases x with
    | nil =>
      simp only [List.nil_append, List.isPrefixOf, Bool.and_eq_true, beq_iff_eq] at h
      exact absurd (h.1 ▸ List.mem_cons_self a as_) hnl
    | cons b bs =>
      simp only [List.cons_append, List.isPrefixOf, Bool.and_eq_true] at h ⊢
      exact ⟨h.1, ih (fun hm => hnl (List.mem_cons.mpr (Or.inr hm))) bs y h.2⟩

theorem isSubstr_of_isPrefixOf (n s : Str) (h : n.isPrefixOf s = true) :
    isSubstr n s = true := by
  cases s with
  | nil => exact h
  | cons a rest =>
    unfold isSubstr
    rw [Bool.or_eq_true]
    exact Or.inl h

theorem isSubstr_split (n : Str) (hnl : '\n' ∉ n) :
    ∀ (a b : Str), isSubstr n (a ++ '\n' :: b) = true →
      isSubstr n a = true ∨ isSubstr n b = true := by
  intro a
  induction a with
  | nil =>
    intro b h
    simp only [List.nil_append] at h
    unfold isSubstr at h
    rw [Bool.or_eq_true] at h
    cases h with
    | inl hp =>
      cases n with
      | nil => exact Or.inl rfl
      | cons x xs =>
        simp only [List.isPrefixOf, Bool.and_eq_true, beq_iff_eq] at hp
        exact absurd (hp.1 ▸ List.mem_cons_self x xs) hnl
    | inr hs => exact Or.inr hs
  | cons c a' ih =>
    intro b h
    rw [List.cons_append] at h
    unfold isSubstr at h
    rw [Bool.or_eq_true] at h
    cases h with
    | inl hp =>
      have hpx : n.isPrefixOf (c :: a') = true :=
        isPrefixOf_stops_at_nl n hnl (c :: a') b (by simpa using hp)
      exact Or.inl (isSubstr_of_isPrefixOf n (c :: a') hpx)
    | inr hs =>
      cases ih b hs with
      | inl h1 =>
        refine Or.inl ?_
        unfold isSubstr
        rw [Bool.or_eq_true]
        exact Or.inr h1
      | inr h2 => exact Or.inr h2

/-- The one-line summary extracted for a marker whose first character is not
a newline is nonempty. -/
theorem lineFrom_ne_nil (c0 : Char) (needle hay li : Str)
    (hn : needle.head? = some c0) (hc : ¬ c0 = '\n')
    (h : lineFrom needle hay = some li) : li ≠ [] := by
  unfold lineFrom at h
  cases hs : suffixFrom needle hay with
  | none => rw [hs] at h; simp at h
  | some s =>
    rw [hs] at h
    simp only [Option.map_some', Option.some.injEq] at h
    have hpre := suffixFrom_isPrefixOf needle hay s hs
    cases needle with
    | nil => simp at hn
    | cons x xs =>
      simp only [List.head?_cons, Option.some.injEq] at hn
      cases s with
      | nil => simp [List.isPrefixOf] at hpre
      | cons d ds =>
        simp only [List.isPrefixOf, Bool.and_eq_true, beq_iff_eq] at hpre
        have hdn : ¬ d = '\n' := by
          intro hDn
          apply hc
          rw [← hn, hpre.1, hDn]
        rw [← h]
        simp only [List.takeWhile]
        rw [show (decide ¬d = '\n') = true by simpa using hdn]
        simp

/-- C4 counterexample: with stdout `"FAILED x"`, empty stderr and exit code
0, the code classifies the run as `failed`, not `passed` — so exit code 0
does not take top priority as the claim states; and with empty output and
exit code 5 the message stays the default `"Unknown error"` instead of
falling back to the last lines of the (empty) combined output. -/
theorem parse_pytest_output_cex :
    parsePytestOutput ("FAILED x".toList) [] 0 =
      ⟨statusFailed, some ("FAILED x".toList)⟩ ∧
    statusFailed ≠ statusPassed ∧
    parsePytestOutput [] [] 5 = ⟨statusError, some msgUnknown⟩ ∧
    msgUnknown ≠ [] := by
  refine ⟨by decide, by decide, by decide, by decide⟩

/-- C4 (amended): the actual priority order of `_parse_pytest_output`.  The
targeted diagnoses (`ImportError`, then `SyntaxError`, then
`ModuleNotFoundError`, as substrings of stdout+newline+stderr) override
everything; otherwise `PASSED` in stdout with exit code 0 gives `passed`
with no message, even when `FAILED` or `ERROR` markers are also present;
otherwise a `FAILED` marker in stdout gives `failed` with a one-line failure
summary even when the exit code is 0; otherwise exit code 0 with no `ERROR`
marker gives `passed` with no message; otherwise an `ERROR` marker or exit
code > 1 gives `error`, preferring stripped stderr truncated to 500
characters; and with exit code 1 and no markers at all the message stays the
default `"Unknown error"` — the last-lines fallback never replaces a
nonempty default. -/
theorem parse_pytest_output_amended (stdout stderr : Str) (rc : Int) :
    (isSubstr needleImportError (stdout ++ '\n' :: stderr) = true →
      parsePytestOutput stdout stderr rc = ⟨statusError, some msgImport⟩) ∧
    (isSubstr needleImportError (stdout ++ '\n' :: stderr) = false →
     isSubstr needleSyntaxError (stdout ++ '\n' :: stderr) = true →
      parsePytestOutput stdout stderr rc = ⟨statusError, some msgSyntax⟩) ∧
    (isSubstr needleImportError (stdout ++ '\n' :: stderr) = false →
     isSubstr needleSyntaxError (stdout ++ '\n' :: stderr) = false →
     isSubstr needleModuleNotFound (stdout ++ '\n' :: stderr) = true →
      parsePytestOutput stdout stderr rc = ⟨statusError, some msgModule⟩) ∧
    (isSubstr needleImportError (stdout ++ '\n' :: stderr) = false →
     isSubstr needleSyntaxError (stdout ++ '\n' :: stderr) = false →
     isSubstr needleModuleNotFound (stdout ++ '\n' :: stderr) = false →
     isSubstr needlePassed stdout = true → rc = 0 →
      parsePytestOutput stdout stderr rc = ⟨statusPassed, none⟩) ∧
    (isSubstr needleImportError (stdout ++ '\n' :: stderr) = false →
     isSubstr needleSyntaxError (stdout ++ '\n' :: stderr) = false →
     isSubstr needleModuleNotFound (stdout ++ '\n' :: stderr) = false →
     ¬(isSubstr needlePassed stdout = true ∧ rc = 0) →
     isSubstr needleFailed stdout = true →
      parsePytestOutput stdout stderr rc =
        ⟨statusFailed,
         some ((lineFrom needleFailed (stdout ++ '\n' :: stderr)).getD
           msgFailedDefault)⟩) ∧
    (isSubstr needleImportError (stdout ++ '\n' :: stderr) = false →
     isSubstr needleSyntaxError (stdout ++ '\n' :: stderr) = false →
     isSubstr needleModuleNotFound (stdout ++ '\n' :: stderr) = false →
     rc = 0 → isSubstr needleFailed stdout = false →
     isSubstr needleError (stdout ++ '\n' :: stderr) = false →
      parsePytestOutput stdout stderr rc = ⟨statusPassed, none⟩) ∧
    (isSubstr needleImportError (stdout ++ '\n' :: stderr) = false →
     isSubstr needleSyntaxError (stdout ++ '\n' :: stderr) = false →
     isSubstr needleModuleNotFound (stdout ++ '\n' :: stderr) = false →
     ¬(isSubstr needlePassed stdout = true ∧ rc = 0) →
     isSubstr needleFailed stdout = false →
     (isSubstr needleError (stdout ++ '\n' :: stderr) = true ∨ rc > 1) →
      (parsePytestOutput stdout stderr rc).status = statusError ∧
      (stripStr stderr ≠ [] →
        (parsePytestOutput stdout stderr rc).errorMessage =
          some ((stripStr stderr).take 500))) ∧
    (isSubstr needleImportError (stdout ++ '\n' :: stderr) = false →
     isSubstr needleSyntaxError (stdout ++ '\n' :: stderr) = false →
     isSubstr needleModuleNotFound (stdout ++ '\n' :: stderr) = false →
     isSubstr needleFailed stdout = false →
     isSubstr needleError (stdout ++ '\n' :: stderr) = false →
     rc = 1 →
      parsePytestOutput stdout stderr rc = ⟨statusFailed, some msgUnknown⟩) := by
  refine ⟨?_, ?_, ?_, ?_, ?_, ?_, ?_, ?_⟩
  · intro hI
    unfold parsePytestOutput
    simp only [hI, if_true]
    rw [if_neg (by decide)]
  · intro hI hS
    unfold parsePytestOutput
    simp only [hI, hS, Bool.false_eq_true, if_false, if_true]
    rw [if_neg (by decide)]
  · intro hI hS hM
    unfold parsePytestOutput
    simp only [hI, hS, hM, Bool.false_eq_true, if_false, if_true]
    rw [if_neg (by decide)]
  · intro hI hS hM hP hrc
    subst hrc
    unfold parsePytestOutput
    simp only [hI, hS, hM, hP, Bool.false_eq_true, if_false, eq_self_iff_true,
      if_true, true_and, and_self, and_true]
    rw [if_neg (by decide)]
  · intro hI hS hM hP hF
    unfold parsePytestOutput
    simp only [hI, hS, hM, hF, Bool.false_eq_true, if_false, if_true]
    rw [if_neg hP]
    cases hl : lineFrom needleFailed (stdout ++ '\n' :: stderr) with
    | none =>
      have hsome := suffixFrom_isSome_of_isSubstr needleFailed
        (stdout ++ '\n' :: stderr)
        (isSubstr_append_left needleFailed stdout ('\n' :: stderr) hF)
      unfold lineFrom at hl
      cases hsf : suffixFrom needleFailed (stdout ++ '\n' :: stderr) with
      | none => rw [hsf] at hsome; simp at hsome
      | some s => rw [hsf] at hl; simp at hl
    | some li =>
      have hne := lineFrom_ne_nil 'F' needleFailed _ li rfl (by decide) hl
      simp only [Option.getD_some]
      rw [if_neg (by
        intro hcon
        exact hne (by simpa using hcon.1))]
  · intro hI hS hM hrc hF hE
    subst hrc
    unfold parsePytestOutput
    split_ifs <;> simp_all
  · intro hI hS hM hP hF hor
    unfold parsePytestOutput
    simp only [hI, hS, hM, hF, Bool.false_eq_true, if_false]
    rw [if_neg hP, if_pos hor]
    by_cases hstd : stripStr stderr = []
    · have hstd2 : ¬ stripStr stderr ≠ [] := fun hcon => hcon hstd
      rw [if_neg hstd2]
      by_cases hEs : isSubstr needleError stdout = true
      · rw [if_pos hEs]
        cases hl : lineFrom needleError stdout with
        | none =>
          have hsome := suffixFrom_isSome_of_isSubstr needleError stdout hEs
          unfold lineFrom at hl
          cases hsf : suffixFrom needleError stdout with
          | none => rw [hsf] at hsome; simp at hsome
          | some s => rw [hsf] at hl; simp at hl
        | some li =>
          have hne := lineFrom_ne_nil 'E' needleError _ li rfl (by decide) hl
          rw [if_neg (by
            intro hcon
            exact hne (by simpa using hcon.1))]
          exact ⟨rfl, fun hcon => absurd hstd hcon⟩
      · rw [if_neg hEs]
        have hEc : isSubstr needleError (stdout ++ '\n' :: stderr) = false := by
          by_contra hcon
          rw [Bool.not_eq_false] at hcon
          cases isSubstr_split needleError (by decide) stdout stderr hcon with
          | inl h1 => exact hEs h1
          | inr h2 =>
            have hmem := mem_of_isSubstr needleError stderr h2 'E' (by decide)
            have hws := stripStr_eq_nil_all_ws stderr hstd 'E' hmem
            simp [isSpaceCh] at hws
        have hrc1 : rc > 1 := by
          cases hor with
          | inl h1 => rw [hEc] at h1; exact absurd h1 Bool.false_ne_true
          | inr h2 => exact h2
        have hrc0 : ¬ rc = 0 := by omega
        have hrcne1 : ¬ rc = 1 := by omega
        rw [if_neg hrc0, if_neg hrcne1]
        rw [if_neg (by decide)]
        exact ⟨rfl, fun hcon => absurd hstd hcon⟩
    · rw [if_pos hstd]
      have htk : (stripStr stderr).take 500 ≠ [] := by
        intro hcon
        rcases List.take_eq_nil_iff.mp hcon with h1 | h1 <;>
          first
          | exact absurd h1 hstd
          | norm_num at h1
      rw [if_neg (by
        intro hcon
        exact htk (by simpa using hcon.1))]
      exact ⟨rfl, fun _ => rfl⟩
  · intro hI hS hM hF hE hrc
    subst hrc
    unfold parsePytestOutput
    simp only [hI, hS, hM, hF, hE, Bool.false_eq_true, false_and, if_false,
      false_or, and_false,
      show ((1:Int) = 0) = False from by norm_num,
      show ((1:Int) = 1) = True from by norm_num,
      show ((1:Int) > 1) = False from by norm_num,
      if_true, or_false]
    rw [if_neg (by decide)]

theorem parse_pytest_output_amended_witness :
    parsePytestOutput ("ImportError: boom".toList) [] 2 =
      ⟨statusError, some msgImport⟩ :=
  (parse_pytest_output_amended ("ImportError: boom".toList) [] 2).1 (by decide)

/-! ## C1 -/

/-- One upsert operation derived from the contract: a `(path, METHOD)` key
with the operation metadata. -/
structure EpOp where
  path : Str
  method : Str
  operationId : Option Str
  summary : Option Str
  tags : List Str
deriving Repr, DecidableEq

/-- The operations contributed by one path item, in method-iteration
order. -/
def pathOps (order : List Str) (pitem : Str × PathVal) : List EpOp :=
  match pitem.2 with
  | .notDict => []
  | .dict items =>
    order.filterMap (fun m =>
      match lookupKey m items with
      | none => none
      | some .notDict => none
      | some (.op oid sm tg) => some ⟨pitem.1, upperStr m, oid, sm, tg.getD []⟩)

/-- All upsert operations of one contract. -/
def specOps (order : List Str) (content : SpecContent) : List EpOp :=
  match content with
  | .falsy => []
  | .obj none => []
  | .obj (some paths) => (paths.map (pathOps order)).join

/-- Apply the upsert operations in order, collecting the touched ids. -/
def applyOps (sid : Nat) (db : EpDb) : List EpOp → EpDb × List Nat
  | [] => (db, [])
  | o :: ops =>
    let r := upsertEndpoint db sid o.path o.method o.operationId o.summary o.tags
    let rest := applyOps sid r.1 ops
    (rest.1, r.2 :: rest.2)

theorem applyOps_append (sid : Nat) (ops1 : List EpOp) :
    ∀ (db : EpDb) (ops2 : List EpOp),
      applyOps sid db (ops1 ++ ops2) =
        ((applyOps sid (applyOps sid db ops1).1 ops2).1,
         (applyOps sid db ops1).2 ++ (applyOps sid (applyOps sid db ops1).1 ops2).2) := by
  induction ops1 with
  | nil => intro db ops2; simp [applyOps]
  | cons o rest ih =>
    intro db ops2
    simp only [List.cons_append, applyOps]
    simp only [List.append_eq]
    rw [ih]

theorem processOpenapiSpec_eq_applyOps (order : List Str) (db : EpDb) (s : SpecRec) :
    processOpenapiSpec order db s = applyOps s.id db (specOps order s.content) := by
  cases hc : s.content with
  | falsy => simp [processOpenapiSpec, specOps, applyOps, hc]
  | obj paths? =>
    cases paths? with
    | none => simp [processOpenapiSpec, specOps, applyOps, hc]
    | some paths =>
      simp only [processOpenapiSpec, specOps, hc]
      have hinner : ∀ (pitem : Str × PathVal) (acc : EpDb × List Nat),
          (match pitem.2 with
            | .notDict => acc
            | .dict items =>
              order.foldl (fun acc2 m =>
                match lookupKey m items with
                | none => acc2
                | some .notDict => acc2
                | some (.op oid sm tg) =>
                  let r := upsertEndpoint acc2.1 s.id pitem.1 (upperStr m) oid sm (tg.getD [])
                  (r.1, acc2.2 ++ [r.2])) acc) =
            ((applyOps s.id acc.1 (pathOps order pitem)).1,
             acc.2 ++ (applyOps s.id acc.1 (pathOps order pitem)).2) := by
        intro pitem acc
        cases hpv : pitem.2 with
        | notDict => simp [pathOps, hpv, applyOps]
        | dict items =>
          simp only [pathOps, hpv]
          clear hpv
          induction order generalizing acc with
          | nil => simp [applyOps]
          | cons m ms ihm =>
            simp only [List.foldl_cons, List.filterMap_cons]
            cases hlk : lookupKey m items with
            | none => dsimp only; rw [ihm]
            | some ov =>
              cases ov with
              | notDict => dsimp only; rw [ihm]
              | op oid sm tg =>
                dsimp only [applyOps]
                rw [ihm]
                simp [applyOps, List.append_assoc]
      have houter : ∀ (ps : List (Str × PathVal)) (acc : EpDb × List Nat),
          ps.foldl (fun acc pitem =>
            match pitem.2 with
            | .notDict => acc
            | .dict items =>
              order.foldl (fun acc2 m =>
                match lookupKey m items with
                | none => acc2
                | some .notDict => acc2
                | some (.op oid sm tg) =>
                  let r := upsertEndpoint acc2.1 s.id pitem.1 (upperStr m) oid sm (tg.getD [])
                  (r.1, acc2.2 ++ [r.2])) acc) acc =
            ((applyOps s.id acc.1 ((ps.map (pathOps order)).join)).1,
             acc.2 ++ (applyOps s.id acc.1 ((ps.map (pathOps order)).join)).2) := by
        intro ps
        induction ps with
        | nil => intro acc; simp [applyOps]
        | cons pitem rest ihp =>
          intro acc
          simp only [List.foldl_cons, List.map_cons, List.join_cons]
          rw [hinner pitem acc, ihp, applyOps_append]
          simp [List.append_assoc]
      rw [houter paths (db, [])]
      simp

/-- The values at a key: the first matching row exists, carries the
operation's metadata, and has the given id. -/
def epValsAt (sid : Nat) (db : EpDb) (o : EpOp) (i : Nat) : Prop :=
  ∃ e, db.endpoints.find? (epKeyMatch sid o.path o.method) = some e ∧
    e.operationId = o.operationId ∧ e.summary = o.summary ∧ e.tags = o.tags ∧
    e.id = i

theorem find?_updateFirst_pos {α : Type} (p : α → Bool) (f : α → α)
    (hf : ∀ x, p (f x) = p x) :
    ∀ (l : List α) (e : α), l.find? p = some e →
      (updateFirst p f l).find? p = some (f e) := by
  intro l
  induction l with
  | nil => intro e h; simp at h
  | cons x xs ih =>
    intro e h
    by_cases hx : p x = true
    · rw [List.find?_cons_of_pos _ hx] at h
      simp only [Option.some.injEq] at h
      subst h
      unfold updateFirst
      rw [if_pos hx]
      exact List.find?_cons_of_pos _ (by rw [hf]; exact hx)
    · rw [List.find?_cons_of_neg _ hx] at h
      unfold updateFirst
      rw [if_neg hx]
      rw [List.find?_cons_of_neg _ hx]
      exact ih e h

theorem find?_updateFirst_frame {α : Type} (p q : α → Bool) (f : α → α)
    (hfq : ∀ x, q (f x) = q x) (hpq : ∀ x, ¬(p x = true ∧ q x = true)) :
    ∀ (l : List α), (updateFirst p f l).find? q = l.find? q := by
  intro l
  induction l with
  | nil => rfl
  | cons x xs ih =>
    unfold updateFirst
    by_cases hx : p x = true
    · rw [if_pos hx]
      have hqx : q x = false := by
        by_contra hcon
        rw [Bool.not_eq_false] at hcon
        exact hpq x ⟨hx, hcon⟩
      have hqfx : q (f x) = false := by rw [hfq]; exact hqx
      rw [List.find?_cons_of_neg _ (by simp [hqfx]),
        List.find?_cons_of_neg _ (by simp [hqx])]
    · rw [if_neg hx]
      by_cases hqx : q x = true
      · rw [List.find?_cons_of_pos _ hqx, List.find?_cons_of_pos _ hqx]
      · rw [List.find?_cons_of_neg _ hqx, List.find?_cons_of_neg _ hqx]
        exact ih

theorem updateFirst_eq_self {α : Type} (p : α → Bool) (f : α → α) :
    ∀ (l : List α) (e : α), l.find? p = some e → f e = e →
      updateFirst p f l = l := by
  intro l
  induction l with
  | nil => intro e h _; simp at h
  | cons x xs ih =>
    intro e h hfe
    unfold updateFirst
    by_cases hx : p x = true
    · rw [List.find?_cons_of_pos _ hx] at h
      simp only [Option.some.injEq] at h
      subst h
      rw [if_pos hx, hfe]
    · rw [List.find?_cons_of_neg _ hx] at h
      rw [if_neg hx, ih e h hfe]

theorem epKeyMatch_metadata_update (sid : Nat) (p m : Str) (oid sm : Option Str)
    (tg : List Str) (x : Endpoint) :
    epKeyMatch sid p m
      ({ x with operationId := oid, summary := sm, tags := tg }) =
      epKeyMatch sid p m x := rfl

/-- U1: after an upsert, the first row at the key carries the written
metadata and the returned id. -/
theorem upsert_establishes (sid : Nat) (db : EpDb) (o : EpOp) :
    epValsAt sid
      (upsertEndpoint db sid o.path o.method o.operationId o.summary o.tags).1 o
      (upsertEndpoint db sid o.path o.method o.operationId o.summary o.tags).2 := by
  unfold upsertEndpoint
  cases hf : db.endpoints.find? (epKeyMatch sid o.path o.method) with
  | some e =>
    dsimp only
    refine ⟨{ e with operationId := o.operationId, summary := o.summary, tags := o.tags }, ?_, rfl, rfl, rfl, rfl⟩
    exact find?_updateFirst_pos _ _ (fun x => epKeyMatch_metadata_update _ _ _ _ _ _ x)
      db.endpoints e hf
  | none =>
    dsimp only
    refine ⟨{ id := db.nextId, specId := some sid, path := o.path, method := o.method, operationId := o.operationId, summary := o.summary, tags := o.tags }, ?_, rfl, rfl, rfl, rfl⟩
    rw [List.find?_append, List.find?_eq_none.mpr (fun x hx => ?_), Option.none_or]
    · exact List.find?_cons_of_pos _ (by simp [epKeyMatch])
    · intro hcon
      have := List.find?_eq_none.mp hf x hx
      exact this hcon

/-- U2: an upsert at one key leaves the first-row view at any other key
unchanged. -/
theorem upsert_frame (sid : Nat) (db : EpDb) (o : EpOp) (p' m' : Str)
    (hne : ¬(o.path = p' ∧ o.method = m')) :
    (upsertEndpoint db sid o.path o.method o.operationId o.summary o.tags).1.endpoints.find?
        (epKeyMatch sid p' m') =
      db.endpoints.find? (epKeyMatch sid p' m') := by
  have hpq : ∀ x : Endpoint, ¬(epKeyMatch sid o.path o.method x = true ∧
      epKeyMatch sid p' m' x = true) := by
    intro x ⟨h1, h2⟩
    unfold epKeyMatch at h1 h2
    rw [Bool.and_eq_true, Bool.and_eq_true] at h1 h2
    apply hne
    constructor
    · have e1 : x.path = o.path := by simpa using h1.1.2
      have e2 : x.path = p' := by simpa using h2.1.2
      rw [← e1, e2]
    · have e1 : x.method = o.method := by simpa using h1.2
      have e2 : x.method = m' := by simpa using h2.2
      rw [← e1, e2]
  unfold upsertEndpoint
  cases hf : db.endpoints.find? (epKeyMatch sid o.path o.method) with
  | some e =>
    dsimp only
    exact find?_updateFirst_frame _ _ _
      (fun x => epKeyMatch_metadata_update _ _ _ _ _ _ x) hpq db.endpoints
  | none =>
    dsimp only
    rw [List.find?_append]
    have hnew : (List.find? (epKeyMatch sid p' m')
        [{ id := db.nextId, specId := some sid, path := o.path, method := o.method,
           operationId := o.operationId, summary := o.summary, tags := o.tags }]) =
        none := by
      rw [List.find?_eq_none]
      intro x hx
      simp only [List.mem_singleton] at hx
      subst hx
      intro hcon
      exact hpq _ ⟨by simp [epKeyMatch], hcon⟩
    rw [hnew]
    cases db.endpoints.find? (epKeyMatch sid p' m') <;> rfl

/-- U3: upserting values that are already the first row's values does not
change the store and returns that row's id. -/
theorem upsert_replay (sid : Nat) (db : EpDb) (o : EpOp) (i : Nat)
    (h : epValsAt sid db o i) :
    upsertEndpoint db sid o.path o.method o.operationId o.summary o.tags = (db, i) := by
  obtain ⟨e, hfind, h1, h2, h3, h4⟩ := h
  unfold upsertEndpoint
  rw [hfind]
  dsimp only
  have hfe : ({ e with operationId := o.operationId, summary := o.summary, tags := o.tags } : Endpoint) = e := by
    cases e
    simp_all
  rw [updateFirst_eq_self _ _ db.endpoints e hfind hfe, h4]

/-- Applying operations whose keys avoid a key leaves that key's first-row
view unchanged. -/
theorem applyOps_frame (sid : Nat) (p' m' : Str) :
    ∀ (ops : List EpOp) (db : EpDb),
      (∀ o ∈ ops, ¬(o.path = p' ∧ o.method = m')) →
      (applyOps sid db ops).1.endpoints.find? (epKeyMatch sid p' m') =
        db.endpoints.find? (epKeyMatch sid p' m') := by
  intro ops
  induction ops with
  | nil => intro db _; rfl
  | cons o rest ih =>
    intro db hne
    simp only [applyOps]
    rw [ih _ (fun o2 ho2 => hne o2 (List.mem_cons.mpr (Or.inr ho2)))]
    exact upsert_frame sid db o p' m' (hne o (List.mem_cons_self o rest))

theorem epValsAt_of_frame (sid : Nat) (db db2 : EpDb) (o : EpOp) (i : Nat)
    (h : epValsAt sid db o i)
    (hframe : db2.endpoints.find? (epKeyMatch sid o.path o.method) =
      db.endpoints.find? (epKeyMatch sid o.path o.method)) :
    epValsAt sid db2 o i := by
  obtain ⟨e, hfind, hrest⟩ := h
  exact ⟨e, by rw [hframe]; exact hfind, hrest⟩

/-- After one run, every operation's key holds that operation's metadata and
the id recorded for it (keys assumed distinct, as dict keys are). -/
theorem applyOps_establishes (sid : Nat) :
    ∀ (ops : List EpOp) (db : EpDb),
      (ops.map (fun o => (o.path, o.method))).Nodup →
      ∀ pr ∈ ops.zip (applyOps sid db ops).2,
        epValsAt sid (applyOps sid db ops).1 pr.1 pr.2 := by
  intro ops
  induction ops with
  | nil => intro db _ pr hpr; simp [applyOps] at hpr
  | cons o rest ih =>
    intro db hnodup pr hpr
    simp only [List.map_cons, List.nodup_cons] at hnodup
    simp only [applyOps, List.zip_cons_cons] at hpr ⊢
    rcases List.mem_cons.mp hpr with rfl | htail
    · refine epValsAt_of_frame sid _ _ _ _ (upsert_establishes sid db o) ?_
      apply applyOps_frame
      intro o2 ho2 hcon
      apply hnodup.1
      rw [List.mem_map]
      exact ⟨o2, ho2, by simp [hcon.1, hcon.2]⟩
    · exact ih _ hnodup.2 pr htail

theorem applyOps_length (sid : Nat) :
    ∀ (ops : List EpOp) (db : EpDb), (applyOps sid db ops).2.length = ops.length := by
  intro ops
  induction ops with
  | nil => intro db; rfl
  | cons o rest ih => intro db; simp [applyOps, ih]

/-- Replaying operations whose values are already in place is the
identity and reproduces the recorded ids. -/
theorem applyOps_replay (sid : Nat) :
    ∀ (ops : List EpOp) (ids : List Nat) (db : EpDb),
      ids.length = ops.length →
      (∀ pr ∈ ops.zip ids, epValsAt sid db pr.1 pr.2) →
      applyOps sid db ops = (db, ids) := by
  intro ops
  induction ops with
  | nil =>
    intro ids db hlen _
    simp only [List.length_nil, List.length_eq_zero] at hlen
    subst hlen
    rfl
  | cons o rest ih =>
    intro ids db hlen hvals
    cases ids with
    | nil => simp at hlen
    | cons i irest =>
      simp only [List.length_cons, Nat.succ.injEq] at hlen
      simp only [List.zip_cons_cons] at hvals
      have hhead := hvals (o, i) (List.mem_cons_self _ _)
      simp only [applyOps]
      rw [upsert_replay sid db o i hhead]
      dsimp only
      rw [ih irest db hlen (fun pr hpr => hvals pr (List.mem_cons.mpr (Or.inr hpr)))]

/-- C5: re-running `_process_openapi_spec` on an unchanged contract is
idempotent — the second run updates the existing rows with the same metadata
instead of duplicating them, returns the same endpoint ids, and leaves the
store (including the id allocator) identical; and a contract with no `paths`
key (or a falsy document) yields zero endpoints and no store change, not an
error.  The key-distinctness hypothesis holds because contract paths and the
method set are Python dict/set keys. -/
theorem process_openapi_spec_idempotent (order : List Str) (db : EpDb) (s : SpecRec)
    (hkeys : ((specOps order s.content).map (fun o => (o.path, o.method))).Nodup) :
    processOpenapiSpec order (processOpenapiSpec order db s).1 s =
      processOpenapiSpec order db s ∧
    (s.content = .obj none → processOpenapiSpec order db s = (db, [])) ∧
    (s.content = .falsy → processOpenapiSpec order db s = (db, [])) := by
  refine ⟨?_, ?_, ?_⟩
  · simp only [processOpenapiSpec_eq_applyOps]
    apply applyOps_replay
    · rw [applyOps_length]
    · intro pr hpr
      exact applyOps_establishes s.id (specOps order s.content) db hkeys pr hpr
  · intro h
    rw [processOpenapiSpec_eq_applyOps, h]
    rfl
  · intro h
    rw [processOpenapiSpec_eq_applyOps, h]
    rfl

/-- A one-path, one-method contract for the C5 witness. -/
def c5spec : SpecRec :=
  { id := 3,
    content := .obj (some [(['/','a'],
      .dict [(['g','e','t'], .op none none none)])]) }

theorem process_openapi_spec_idempotent_witness :
    processOpenapiSpec [['g','e','t'], ['p','o','s','t']]
        (processOpenapiSpec [['g','e','t'], ['p','o','s','t']] ⟨1, []⟩ c5spec).1
        c5spec =
      processOpenapiSpec [['g','e','t'], ['p','o','s','t']] ⟨1, []⟩ c5spec :=
  (process_openapi_spec_idempotent [['g','e','t'], ['p','o','s','t']] ⟨1, []⟩
    c5spec (by decide)).1

/-! ## A segment-wise view of `_normalize_path` (C2)

`_normalize_path` is a pipeline of string rewrites; the spec describes it
segment by segment.  We build paths explicitly from a list of slash-free
segments and characterize what each rewrite stage does to every segment. -/

/-- Join segments with single `'/'` separators (no leading or trailing one):
`joinSlash [s1, s2] = s1 ++ "/" ++ s2`. -/
def joinSlash : List Str → Str
  | [] => []
  | [a] => a
  | a :: b :: rest => a ++ '/' :: joinSlash (b :: rest)

/-- A segment of the shape `{...}`: a `'{'`, a nonempty run of non-`'}'`
characters, and a closing `'}'` ending the segment — exactly the spans the
`\x7b[^}]+\x7d` pass replaces when the segment stands between slashes. -/
def isTemplateSeg (seg : Str) : Bool :=
  match seg with
  | [] => false
  | c :: r =>
      c = '{' && !(r.takeWhile (· ≠ '}')).isEmpty &&
        r.dropWhile (· ≠ '}') == ['}']

/-- Effect of the `/\d+(?=/|$)` pass on one slash-free segment. -/
def cStep (seg : Str) : Str :=
  if seg ≠ [] ∧ seg.all Char.isDigit then idTok else seg

/-- Effect of the `/[a-f0-9-]\x7b36\x7d(?=/|$)` pass on one slash-free
segment. -/
def uStep (seg : Str) : Str :=
  if seg.length = 36 ∧ seg.all isUuidCh then idTok else seg

/-- Effect of the `\x7b[^}]+\x7d` pass on one well-formed segment. -/
def eStep (seg : Str) : Str :=
  if isTemplateSeg seg then idTok else seg

/-- The per-segment normalization the spec describes: digit-only segments,
36-character `[a-f0-9-]`-class segments and `{...}` template segments become
`{id}`; every other segment is untouched. -/
def normSeg (seg : Str) : Str :=
  if seg ≠ [] ∧ seg.all Char.isDigit then idTok
  else if seg.length = 36 ∧ seg.all isUuidCh then idTok
  else if isTemplateSeg seg then idTok
  else seg

/-- Well-formedness of one path segment: no separator, no query character,
no newline (which would interact with the `$`-before-final-newline rule),
and braces occur only as a whole `{...}` template segment. -/
def segWf (seg : Str) : Prop :=
  '/' ∉ seg ∧ '?' ∉ seg ∧ '\n' ∉ seg ∧
    (('{' ∉ seg ∧ '}' ∉ seg) ∨ isTemplateSeg seg = true)

instance segWf_decidable : DecidablePred segWf := fun seg => by
  unfold segWf
  infer_instance

theorem uStep_idTok : uStep idTok = idTok := by decide

theorem eStep_idTok : eStep idTok = idTok := by decide

/-- Running the three per-segment stage effects in the code's order computes
`normSeg`. -/
theorem cascadeSeg (seg : Str) : eStep (uStep (cStep seg)) = normSeg seg := by
  by_cases h1 : seg ≠ [] ∧ seg.all Char.isDigit
  · rw [cStep, if_pos h1, uStep_idTok, eStep_idTok, normSeg, if_pos h1]
  · rw [cStep, if_neg h1, normSeg, if_neg h1]
    by_cases h2 : seg.length = 36 ∧ seg.all isUuidCh
    · rw [uStep, if_pos h2, eStep_idTok, if_pos h2]
    · rw [uStep, if_neg h2, if_neg h2, eStep]

theorem takeWhile_append_sat (p : Char → Bool) (x y : Str)
    (hx : ∀ c ∈ x, p c = true) :
    (x ++ y).takeWhile p = x ++ y.takeWhile p := by
  induction x with
  | nil => rfl
  | cons c r ih =>
    rw [List.cons_append,
      List.takeWhile_cons_of_pos (hx c (List.mem_cons_self c r)),
      ih (fun d hd => hx d (List.mem_cons_of_mem c hd)), List.cons_append]

theorem dropWhile_append_sat (p : Char → Bool) (x y : Str)
    (hx : ∀ c ∈ x, p c = true) :
    (x ++ y).dropWhile p = y.dropWhile p := by
  induction x with
  | nil => rfl
  | cons c r ih =>
    rw [List.cons_append,
      List.dropWhile_cons_of_pos (hx c (List.mem_cons_self c r)),
      ih (fun d hd => hx d (List.mem_cons_of_mem c hd))]

theorem takeWhile_eq_self_sat (p : Char → Bool) (x : Str)
    (hx : ∀ c ∈ x, p c = true) : x.takeWhile p = x := by
  have := takeWhile_append_sat p x [] hx
  simpa using this

/-- `takeWhile`/`dropWhile` split an all-satisfying prefix followed by a
failing character exactly at that character. -/
theorem takeWhile_break (p : Char → Bool) (x : Str) (b : Char) (y : Str)
    (hx : ∀ c ∈ x, p c = true) (hb : ¬p b = true) :
    (x ++ b :: y).takeWhile p = x ∧ (x ++ b :: y).dropWhile p = b :: y := by
  constructor
  · rw [takeWhile_append_sat p x _ hx, List.takeWhile_cons_of_neg hb,
      List.append_nil]
  · rw [dropWhile_append_sat p x _ hx, List.dropWhile_cons_of_neg hb]

/-- A nonempty `dropWhile` result starts where the property first fails, and
appending behind the list does not change that split. -/
theorem dropWhile_append_of_cons {p : Char → Bool} {x : Str} {e : Char}
    {f : Str} (hx : x.dropWhile p = e :: f) (y : Str) :
    (x ++ y).dropWhile p = e :: (f ++ y) := by
  induction x with
  | nil => simp at hx
  | cons c r ih =>
    by_cases hc : p c = true
    · rw [List.dropWhile_cons_of_pos hc] at hx
      rw [List.cons_append, List.dropWhile_cons_of_pos hc, ih hx]
    · rw [List.dropWhile_cons_of_neg hc] at hx
      cases hx
      rw [List.cons_append, List.dropWhile_cons_of_neg hc]

theorem head_dropWhile_neg {p : Char → Bool} {x : Str} {e : Char} {f : Str}
    (hx : x.dropWhile p = e :: f) : p e = false := by
  induction x with
  | nil => simp at hx
  | cons c r ih =>
    by_cases hc : p c = true
    · rw [List.dropWhile_cons_of_pos hc] at hx
      exact ih hx
    · rw [List.dropWhile_cons_of_neg hc] at hx
      cases hx
      exact Bool.not_eq_true _ ▸ hc

theorem mem_of_dropWhile_cons {p : Char → Bool} {x : Str} {e : Char} {f : Str}
    (hx : x.dropWhile p = e :: f) : e ∈ x :=
  (@List.dropWhile_sublist _ x p).subset (hx ▸ List.mem_cons_self e f)

/-- Every character of a slash-joined segment list is a separator or belongs
to one of the segments. -/
theorem mem_joinSlash {c : Char} : ∀ {segs : List Str}, c ∈ joinSlash segs →
    c = '/' ∨ ∃ seg ∈ segs, c ∈ seg := by
  intro segs
  induction segs with
  | nil => intro h; simp [joinSlash] at h
  | cons a rest ih =>
    intro h
    cases rest with
    | nil =>
      exact Or.inr ⟨a, List.mem_cons_self a [], h⟩
    | cons b r =>
      rw [show joinSlash (a :: b :: r) = a ++ '/' :: joinSlash (b :: r)
        from rfl] at h
      rcases List.mem_append.mp h with ha | htl
      · exact Or.inr ⟨a, List.mem_cons_self a _, ha⟩
      · rcases List.mem_cons.mp htl with hc | hj
        · exact Or.inl hc
        · rcases ih hj with hc | ⟨seg, hseg, hcs⟩
          · exact Or.inl hc
          · exact Or.inr ⟨seg, List.mem_cons_of_mem a hseg, hcs⟩

/-- The numeric-id pass copies any slash-free prefix verbatim: its matches
start only at a `'/'`. -/
theorem subNumIds_copy (a m : Str) (ha : '/' ∉ a) :
    subNumIds (a ++ m) = a ++ subNumIds m := by
  induction a with
  | nil => rfl
  | cons c r ih =>
    have hc : ¬(c = '/') := by
      rintro rfl; exact ha (List.mem_cons_self _ _)
    rw [List.cons_append, subNumIds_cons, if_neg hc,
      ih (fun hm => ha (List.mem_cons_of_mem c hm)), List.cons_append]

/-- The UUID pass copies any slash-free prefix verbatim. -/
theorem subUuidIds_copy (a m : Str) (ha : '/' ∉ a) :
    subUuidIds (a ++ m) = a ++ subUuidIds m := by
  induction a with
  | nil => rfl
  | cons c r ih =>
    have hc : ¬(c = '/') := by
      rintro rfl; exact ha (List.mem_cons_self _ _)
    rw [List.cons_append, subUuidIds_cons, if_neg hc,
      ih (fun hm => ha (List.mem_cons_of_mem c hm)), List.cons_append]

/-- The brace pass copies any `'{'`-free prefix verbatim. -/
theorem subBraceIds_copy (a m : Str) (ha : '{' ∉ a) :
    subBraceIds (a ++ m) = a ++ subBraceIds m := by
  induction a with
  | nil => rfl
  | cons c r ih =>
    have hc : ¬(c = '{') := by
      rintro rfl; exact ha (List.mem_cons_self _ _)
    rw [List.cons_append, subBraceIds_cons, if_neg hc,
      ih (fun hm => ha (List.mem_cons_of_mem c hm)), List.cons_append]

/-- One step of the numeric-id pass at a segment boundary: the `'/'` plus a
slash-free segment (followed by the rest of the path, which is empty or
starts with the next separator) becomes `'/'` plus the `cStep` image. -/
theorem subNumIds_seg_step (a tail : Str) (ha : '/' ∉ a) (hnl : '\n' ∉ a)
    (htail : tail = [] ∨ tail.head? = some '/') :
    subNumIds ('/' :: (a ++ tail)) = '/' :: (cStep a ++ subNumIds tail) := by
  rw [subNumIds_cons, if_pos rfl]
  have htailtw : tail.takeWhile Char.isDigit = [] := by
    rcases htail with h | h
    · rw [h]; rfl
    · cases tail with
      | nil => rfl
      | cons t z =>
        injection h with h
        subst h
        exact List.takeWhile_cons_of_neg (by decide)
  have htaildw : tail.dropWhile Char.isDigit = tail := by
    rcases htail with h | h
    · rw [h]; rfl
    · cases tail with
      | nil => rfl
      | cons t z =>
        injection h with h
        subst h
        exact List.dropWhile_cons_of_neg (by decide)
  by_cases hd : a ≠ [] ∧ a.all Char.isDigit
  · have hall : ∀ c ∈ a, Char.isDigit c = true := List.all_eq_true.mp hd.2
    have htw : (a ++ tail).takeWhile Char.isDigit = a := by
      rw [takeWhile_append_sat _ _ _ hall, htailtw, List.append_nil]
    have hdw : (a ++ tail).dropWhile Char.isDigit = tail := by
      rw [dropWhile_append_sat _ _ _ hall, htaildw]
    rw [if_pos (by
      refine ⟨by rw [htw]; exact hd.1, ?_⟩
      rw [hdw]
      rcases htail with h | h
      · exact Or.inl h
      · exact Or.inr (Or.inl h)), hdw, cStep, if_pos hd]
    simp [idTok]
  · have hnomatch :
        ¬((a ++ tail).takeWhile Char.isDigit ≠ [] ∧
          ((a ++ tail).dropWhile Char.isDigit = [] ∨
            ((a ++ tail).dropWhile Char.isDigit).head? = some '/' ∨
            (a ++ tail).dropWhile Char.isDigit = ['\n'])) := by
      cases haa : a with
      | nil =>
        intro hcond
        rw [List.nil_append, htailtw] at hcond
        exact hcond.1 rfl
      | cons c r =>
        rw [← haa]
        have hnotall : ¬a.all Char.isDigit = true := by
          intro hall
          exact hd ⟨by rw [haa]; exact List.cons_ne_nil c r, hall⟩
        have hne : a.dropWhile Char.isDigit ≠ [] := by
          intro hnil
          exact hnotall (List.all_eq_true.mpr
            (List.dropWhile_eq_nil_iff.mp hnil))
        obtain ⟨e, f, hef⟩ := List.exists_cons_of_ne_nil hne
        have hsplit : (a ++ tail).dropWhile Char.isDigit = e :: (f ++ tail) :=
          dropWhile_append_of_cons hef tail
        have hemem : e ∈ a := mem_of_dropWhile_cons hef
        have hes : e ≠ '/' := fun h => ha (h ▸ hemem)
        intro hcond
        rcases hcond.2 with hnil | hhd | hnlc
        · rw [hsplit] at hnil; exact List.cons_ne_nil _ _ hnil
        · rw [hsplit] at hhd
          exact hes (by injection hhd)
        · rw [hsplit] at hnlc
          have : e = '\n' := by injection hnlc
          exact hnl (this ▸ hemem)
    rw [if_neg hnomatch, subNumIds_copy a tail ha, cStep, if_neg hd]

/-- One step of the UUID pass at a segment boundary. -/
theorem subUuidIds_seg_step (a tail : Str) (ha : '/' ∉ a) (hnl : '\n' ∉ a)
    (htail : tail = [] ∨ tail.head? = some '/') :
    subUuidIds ('/' :: (a ++ tail)) = '/' :: (uStep a ++ subUuidIds tail) := by
  rw [subUuidIds_cons, if_pos rfl]
  by_cases hu : a.length = 36 ∧ a.all isUuidCh
  · have htake : (a ++ tail).take 36 = a := by
      rw [List.take_append_eq_append_take, hu.1, ← hu.1, List.take_length]
      simp
    have hdrop : (a ++ tail).drop 36 = tail := by
      rw [List.drop_append_eq_append_drop, hu.1, ← hu.1, List.drop_length]
      simp
    rw [if_pos (by
      refine ⟨by rw [htake, hu.1], by rw [htake]; exact hu.2, ?_⟩
      rw [hdrop]
      rcases htail with h | h
      · exact Or.inl h
      · exact Or.inr (Or.inl h)), hdrop, uStep, if_pos hu]
    simp [idTok]
  · have hnomatch :
        ¬(((a ++ tail).take 36).length = 36 ∧
          ((a ++ tail).take 36).all isUuidCh ∧
          ((a ++ tail).drop 36 = [] ∨
            ((a ++ tail).drop 36).head? = some '/' ∨
            (a ++ tail).drop 36 = ['\n'])) := by
      rcases Nat.lt_trichotomy a.length 36 with hlt | heq | hgt
      · rcases htail with h | h
        · intro hcond
          rw [h, List.append_nil] at hcond
          have : (a.take 36).length = a.length := by
            rw [List.length_take]; omega
          rw [this] at hcond
          omega
        · cases tail with
          | nil => simp at h
          | cons t z =>
            cases h
            intro hcond
            have hmem : '/' ∈ (a ++ '/' :: z).take 36 := by
              rw [List.take_append_eq_append_take]
              refine List.mem_append.mpr (Or.inr ?_)
              rw [List.take_cons (by omega)]
              exact List.mem_cons_self _ _
            have := List.all_eq_true.mp hcond.2.1 '/' hmem
            simp [isUuidCh] at this
      · intro hcond
        have htake : (a ++ tail).take 36 = a := by
          rw [List.take_append_eq_append_take, heq, ← heq, List.take_length]
          simp
        rw [htake] at hcond
        exact hu ⟨heq, hcond.2.1⟩
      · intro hcond
        have hne : a.drop 36 ≠ [] := by
          intro hnil
          have := congrArg List.length hnil
          rw [List.length_drop] at this
          simp at this
          omega
        obtain ⟨e, f, hef⟩ := List.exists_cons_of_ne_nil hne
        have hdrop : (a ++ tail).drop 36 = e :: (f ++ tail) := by
          rw [List.drop_append_eq_append_drop,
            Nat.sub_eq_zero_of_le (le_of_lt hgt), List.drop_zero, hef,
            List.cons_append]
        have hemem : e ∈ a := List.drop_subset 36 a (hef ▸ List.mem_cons_self e f)
        have hes : e ≠ '/' := fun h => ha (h ▸ hemem)
        rcases hcond.2.2 with hnil | hhd | hnlc
        · rw [hdrop] at hnil; exact List.cons_ne_nil _ _ hnil
        · rw [hdrop] at hhd
          exact hes (by injection hhd)
        · rw [hdrop] at hnlc
          have : e = '\n' := by injection hnlc
          exact hnl (this ▸ hemem)
    rw [if_neg hnomatch, subUuidIds_copy a tail ha, uStep, if_neg hu]

/-- Shape of a template segment: `'{'`, a nonempty brace-free interior, and a
final `'}'`. -/
theorem isTemplateSeg_decomp {a : Str} (h : isTemplateSeg a = true) :
    ∃ w, a = '{' :: (w ++ ['}']) ∧ w ≠ [] ∧ '}' ∉ w := by
  cases a with
  | nil => simp [isTemplateSeg] at h
  | cons c r =>
    simp only [isTemplateSeg, Bool.and_eq_true, decide_eq_true_eq,
      Bool.not_eq_true', beq_iff_eq] at h
    obtain ⟨⟨hc, hte⟩, hdr⟩ := h
    subst hc
    refine ⟨r.takeWhile (· ≠ '}'), ?_, List.isEmpty_eq_false.mp hte, ?_⟩
    · have hr2 : r = r.takeWhile (· ≠ '}') ++ ['}'] := by
        conv_lhs => rw [← List.takeWhile_append_dropWhile (· ≠ '}') r]
        rw [hdr]
      conv_lhs => rw [hr2]
    · intro hmem
      have := List.mem_takeWhile_imp hmem
      simp at this

/-- One segment under the brace pass: a well-formed segment followed by the
rest of the path becomes its `eStep` image followed by the processed rest. -/
theorem subBraceIds_seg_step (a tail : Str)
    (ha : ('{' ∉ a ∧ '}' ∉ a) ∨ isTemplateSeg a = true) :
    subBraceIds (a ++ tail) = eStep a ++ subBraceIds tail := by
  rcases ha with ⟨hob, _⟩ | htpl
  · have hnt : ¬isTemplateSeg a = true := fun h => by
      obtain ⟨w, hw, _, _⟩ := isTemplateSeg_decomp h
      exact hob (hw ▸ List.mem_cons_self _ _)
    rw [subBraceIds_copy a tail hob, eStep, if_neg hnt]
  · obtain ⟨w, hw, hwne, hwnb⟩ := isTemplateSeg_decomp htpl
    subst hw
    have hsp := takeWhile_break (fun c => decide (c ≠ '}')) w '}' tail
      (fun c hc => decide_eq_true (fun he => hwnb (he ▸ hc)))
      (by decide)
    rw [List.cons_append, List.append_assoc, List.singleton_append,
      subBraceIds_cons, if_pos rfl, hsp.2]
    dsimp only
    rw [hsp.1, if_neg hwne, eStep, if_pos htpl]

/-- The numeric-id pass over a whole slash-joined path maps `cStep` over its
segments. -/
theorem subNumIds_join : ∀ (segs : List Str),
    (∀ seg ∈ segs, '/' ∉ seg ∧ '\n' ∉ seg) →
    subNumIds ('/' :: joinSlash segs) = '/' :: joinSlash (segs.map cStep) := by
  intro segs
  induction segs with
  | nil => intro _; decide
  | cons a rest ih =>
    intro hwf
    cases rest with
    | nil =>
      have h := subNumIds_seg_step a [] (hwf a (List.mem_cons_self a [])).1
        (hwf a (List.mem_cons_self a [])).2 (Or.inl rfl)
      rw [List.append_nil] at h
      rw [show joinSlash [a] = a from rfl, h, subNumIds_nil, List.append_nil]
      rfl
    | cons b r =>
      rw [show joinSlash (a :: b :: r) = a ++ '/' :: joinSlash (b :: r)
          from rfl,
        subNumIds_seg_step a ('/' :: joinSlash (b :: r))
          (hwf a (List.mem_cons_self a _)).1
          (hwf a (List.mem_cons_self a _)).2 (Or.inr rfl),
        ih (fun s hs => hwf s (List.mem_cons_of_mem a hs))]
      rfl

/-- The UUID pass over a whole slash-joined path maps `uStep` over its
segments. -/
theorem subUuidIds_join : ∀ (segs : List Str),
    (∀ seg ∈ segs, '/' ∉ seg ∧ '\n' ∉ seg) →
    subUuidIds ('/' :: joinSlash segs) = '/' :: joinSlash (segs.map uStep) := by
  intro segs
  induction segs with
  | nil => intro _; decide
  | cons a rest ih =>
    intro hwf
    cases rest with
    | nil =>
      have h := subUuidIds_seg_step a [] (hwf a (List.mem_cons_self a [])).1
        (hwf a (List.mem_cons_self a [])).2 (Or.inl rfl)
      rw [List.append_nil] at h
      rw [show joinSlash [a] = a from rfl, h, subUuidIds_nil, List.append_nil]
      rfl
    | cons b r =>
      rw [show joinSlash (a :: b :: r) = a ++ '/' :: joinSlash (b :: r)
          from rfl,
        subUuidIds_seg_step a ('/' :: joinSlash (b :: r))
          (hwf a (List.mem_cons_self a _)).1
          (hwf a (List.mem_cons_self a _)).2 (Or.inr rfl),
        ih (fun s hs => hwf s (List.mem_cons_of_mem a hs))]
      rfl

theorem subBraceIds_join_core : ∀ (segs : List Str),
    (∀ seg ∈ segs, ('{' ∉ seg ∧ '}' ∉ seg) ∨ isTemplateSeg seg = true) →
    subBraceIds (joinSlash segs) = joinSlash (segs.map eStep) := by
  intro segs
  induction segs with
  | nil => intro _; rfl
  | cons a rest ih =>
    intro hwf
    cases rest with
    | nil =>
      have h := subBraceIds_seg_step a [] (hwf a (List.mem_cons_self a []))
      rw [List.append_nil] at h
      rw [show joinSlash [a] = a from rfl, h, subBraceIds_nil, List.append_nil]
      rfl
    | cons b r =>
      rw [show joinSlash (a :: b :: r) = a ++ '/' :: joinSlash (b :: r)
          from rfl,
        subBraceIds_seg_step a _ (hwf a (List.mem_cons_self a _)),
        subBraceIds_cons, if_neg (by decide : ¬('/' = '{')),
        ih (fun s hs => hwf s (List.mem_cons_of_mem a hs))]
      rfl

/-- The brace pass over a whole slash-joined path maps `eStep` over its
segments. -/
theorem subBraceIds_join (segs : List Str)
    (hwf : ∀ seg ∈ segs, ('{' ∉ seg ∧ '}' ∉ seg) ∨ isTemplateSeg seg = true) :
    subBraceIds ('/' :: joinSlash segs) = '/' :: joinSlash (segs.map eStep) := by
  rw [subBraceIds_cons, if_neg (by decide : ¬('/' = '{')),
    subBraceIds_join_core segs hwf]

/-- Truncation at `'?'` removes exactly a query suffix. -/
theorem truncAtQ_path (base q : Str) (hbase : '?' ∉ base)
    (hq : q = [] ∨ q.head? = some '?') :
    truncAtQ (base ++ q) = base := by
  unfold truncAtQ
  have hqt : q.takeWhile (· ≠ '?') = [] := by
    rcases hq with h | h
    · rw [h]; rfl
    · cases q with
      | nil => rfl
      | cons c z =>
        injection h with h
        subst h
        exact List.takeWhile_cons_of_neg (by decide)
  have hbs : ∀ c ∈ base, (fun b => decide (b ≠ '?')) c = true := by
    intro c hc
    simp only [decide_eq_true_eq]
    intro he
    exact hbase (he ▸ hc)
  rw [takeWhile_append_sat _ base q hbs, hqt, List.append_nil]

/-- `rstrip('/')` removes a whole block of trailing slashes. -/
theorem rstripSlash_append_replicate (x : Str) (k : Nat) :
    rstripSlash (x ++ List.replicate k '/') = rstripSlash x := by
  unfold rstripSlash
  rw [List.reverse_append, List.reverse_replicate,
    dropWhile_append_sat _ _ _ (fun c hc => by
      rw [List.eq_of_mem_replicate hc]; decide)]

/-- `rstrip('/')` is the identity when the string does not end in `'/'`. -/
theorem rstripSlash_no_trailing (x : Str) (h : x.getLast? ≠ some '/') :
    rstripSlash x = x := by
  unfold rstripSlash
  cases hx : x.reverse with
  | nil =>
    have hxe : x = [] := by
      have := congrArg List.reverse hx
      simpa using this
    subst hxe; rfl
  | cons c r =>
    have hcl : x.getLast? = some c := by
      rw [← List.head?_reverse, hx]; rfl
    have hc : ¬((fun b => decide (b = '/')) c = true) := by
      simp only [decide_eq_true_eq]
      intro hcc
      exact h (hcc ▸ hcl)
    rw [@List.dropWhile_cons_of_neg Char (fun b => decide (b = '/')) c r hc,
      ← hx, List.reverse_reverse]

theorem getLast?_cons_of_ne_nil (c : Char) (m : Str) (h : m ≠ []) :
    (c :: m).getLast? = m.getLast? := by
  cases m with
  | nil => exact absurd rfl h
  | cons d t => exact List.getLast?_cons_cons

theorem getLast?_append_ne_nil (x m : Str) (h : m ≠ []) :
    (x ++ m).getLast? = m.getLast? := by
  induction x with
  | nil => rfl
  | cons c r ih =>
    rw [List.cons_append, getLast?_cons_of_ne_nil c (r ++ m) (by
      intro hnil
      exact h (List.append_eq_nil.mp hnil).2), ih]

/-- The last character of a slash-joined path with a nonempty last segment is
the last character of that segment. -/
theorem joinSlash_getLast : ∀ (segs : List Str) (lastSeg : Str),
    segs.getLast? = some lastSeg → lastSeg ≠ [] →
    ('/' :: joinSlash segs).getLast? = lastSeg.getLast? := by
  intro segs
  induction segs with
  | nil => intro l hl _; simp at hl
  | cons a rest ih =>
    intro lastSeg hl hne
    cases rest with
    | nil =>
      rw [List.getLast?_singleton] at hl
      have ha2 : a = lastSeg := by injection hl
      show ('/' :: a).getLast? = lastSeg.getLast?
      rw [ha2]
      exact getLast?_cons_of_ne_nil '/' lastSeg hne
    | cons b r =>
      rw [List.getLast?_cons_cons] at hl
      have hj := ih lastSeg hl hne
      show ('/' :: (a ++ '/' :: joinSlash (b :: r))).getLast? = _
      rw [getLast?_cons_of_ne_nil _ _ (by simp),
        getLast?_append_ne_nil a _ (List.cons_ne_nil _ _)]
      exact hj

/-- C2, counterexample.  The claim reads `_normalize_path` as stripping a
single trailing slash and replacing every digit-only segment.  The code's
`rstrip('/')` strips every trailing slash: `"/a//"` normalizes to `"/a"`,
not to the claimed `"/a/"`.  And the digit rule fires only after a `'/'`:
the digit-only input `"12"` (no leading slash) is returned unchanged, not
replaced by the placeholder. -/
theorem normalize_path_cex :
    normalizePath ['/', 'a', '/', '/'] = ['/', 'a'] ∧
    (['/', 'a'] : Str) ≠ ['/', 'a', '/'] ∧
    normalizePath ['1', '2'] = ['1', '2'] ∧
    (['1', '2'] : Str) ≠ idTok := by
  decide

/-- C2, amended.  On a well-formed path — `'/'`-separated slash-free
segments whose braces only form whole `{...}` templates, a nonempty last
segment, any block of extra trailing slashes, and an optional `?...` query
suffix — `_normalize_path` drops the query and all trailing slashes and
rewrites every segment independently: digit-only segments, 36-character
`[a-f0-9-]`-class segments and `{...}` template segments become `{id}`,
all others survive verbatim. -/
theorem normalize_path_amended (segs : List Str) (k : Nat) (q : Str)
    (hne : segs ≠ [])
    (hwf : ∀ seg ∈ segs, segWf seg)
    (hlast : segs.getLast? ≠ some [])
    (hq : q = [] ∨ q.head? = some '?') :
    normalizePath (('/' :: joinSlash segs) ++ List.replicate k '/' ++ q) =
      '/' :: joinSlash (segs.map normSeg) := by
  have hqmark : '?' ∉ ('/' :: joinSlash segs) ++ List.replicate k '/' := by
    intro hmem
    rcases List.mem_append.mp hmem with h1 | h2
    · rcases List.mem_cons.mp h1 with h | h
      · exact absurd h (by decide)
      · rcases mem_joinSlash h with h | ⟨seg, hseg, hcs⟩
        · exact absurd h (by decide)
        · exact (hwf seg hseg).2.1 hcs
    · exact absurd (List.eq_of_mem_replicate h2) (by decide)
  have hA : truncAtQ ((('/' :: joinSlash segs) ++ List.replicate k '/') ++ q)
      = ('/' :: joinSlash segs) ++ List.replicate k '/' :=
    truncAtQ_path _ q hqmark hq
  obtain ⟨lastSeg, hlseq⟩ :=
    Option.isSome_iff_exists.mp (List.getLast?_isSome.mpr hne)
  have hlne : lastSeg ≠ [] := by
    intro hl; exact hlast (hl ▸ hlseq)
  have hlmem : lastSeg ∈ segs := List.mem_of_mem_getLast? (hlseq ▸ rfl)
  have hnotr : ('/' :: joinSlash segs).getLast? ≠ some '/' := by
    rw [joinSlash_getLast segs lastSeg hlseq hlne]
    intro hsl
    exact (hwf lastSeg hlmem).1 (List.mem_of_mem_getLast? (hsl ▸ rfl))
  have hsf : ∀ seg ∈ segs, '/' ∉ seg ∧ '\n' ∉ seg :=
    fun seg hs => ⟨(hwf seg hs).1, (hwf seg hs).2.2.1⟩
  have hsfC : ∀ seg ∈ segs.map cStep, '/' ∉ seg ∧ '\n' ∉ seg := by
    intro s hs
    obtain ⟨seg, hseg, rfl⟩ := List.mem_map.mp hs
    rw [cStep]
    split
    · exact ⟨by decide, by decide⟩
    · exact hsf seg hseg
  have hwfE : ∀ seg ∈ (segs.map cStep).map uStep,
      ('{' ∉ seg ∧ '}' ∉ seg) ∨ isTemplateSeg seg = true := by
    intro s hs
    obtain ⟨s1, hs1, rfl⟩ := List.mem_map.mp hs
    obtain ⟨seg, hseg, rfl⟩ := List.mem_map.mp hs1
    by_cases h1 : seg ≠ [] ∧ seg.all Char.isDigit
    · rw [cStep, if_pos h1, uStep_idTok]
      exact Or.inr (by decide)
    · rw [cStep, if_neg h1]
      by_cases h2 : seg.length = 36 ∧ seg.all isUuidCh
      · rw [uStep, if_pos h2]
        exact Or.inr (by decide)
      · rw [uStep, if_neg h2]
        exact (hwf seg hseg).2.2.2
  rw [normalizePath, hA, rstripSlash_append_replicate,
    rstripSlash_no_trailing _ hnotr, subNumIds_join segs hsf,
    subUuidIds_join _ hsfC, subBraceIds_join _ hwfE, List.map_map,
    List.map_map]
  have hm : segs.map ((eStep ∘ uStep) ∘ cStep) = segs.map normSeg :=
    List.map_congr_left (fun seg _ => cascadeSeg seg)
  rw [hm]

theorem normalize_path_amended_witness :
    normalizePath (('/' :: joinSlash [['a'], ['4', '2']]) ++
        List.replicate 2 '/' ++ ['?', 'x']) =
      '/' :: joinSlash ([['a'], ['4', '2']].map normSeg) :=
  normalize_path_amended [['a'], ['4', '2']] 2 ['?', 'x']
    (by decide) (by decide) (by decide) (by decide)

/-! ## Invariants of the extractor output (C10)

The extractor resolves every path through `_normalize_path`; comparing its
output against normalized catalog paths without further processing is sound
only if normalization is idempotent.  We prove idempotence of the whole
pipeline, pass by pass. -/

/-- The lookahead test of the numeric-id pass after its `'/'`. -/
abbrev numCond (rest : Str) : Prop :=
  rest.takeWhile Char.isDigit ≠ [] ∧
    (rest.dropWhile Char.isDigit = [] ∨
      (rest.dropWhile Char.isDigit).head? = some '/' ∨
      rest.dropWhile Char.isDigit = ['\n'])

/-- The window-and-lookahead test of the UUID pass after its `'/'`. -/
abbrev uuidCond (rest : Str) : Prop :=
  (rest.take 36).length = 36 ∧ (rest.take 36).all isUuidCh ∧
    (rest.drop 36 = [] ∨ (rest.drop 36).head? = some '/' ∨
      rest.drop 36 = ['\n'])

/-- Each pass maps nonempty input to nonempty output. -/
theorem subNumIds_ne_nil (c : Char) (rest : Str) : subNumIds (c :: rest) ≠ [] := by
  rw [subNumIds_cons]
  split_ifs <;> simp

theorem subUuidIds_ne_nil (c : Char) (rest : Str) : subUuidIds (c :: rest) ≠ [] := by
  rw [subUuidIds_cons]
  split_ifs <;> simp

theorem subBraceIds_ne_nil (c : Char) (rest : Str) : subBraceIds (c :: rest) ≠ [] := by
  rw [subBraceIds_cons]
  by_cases hc : c = '{'
  · rw [if_pos hc]
    cases hdw : rest.dropWhile (· ≠ '}') with
    | nil => simp
    | cons d tail =>
      dsimp only
      split_ifs <;> simp [idTok]
  · rw [if_neg hc]
    simp

theorem subNumIds_eq_nil {l : Str} (h : subNumIds l = []) : l = [] := by
  cases l with
  | nil => rfl
  | cons c rest => exact absurd h (subNumIds_ne_nil c rest)

theorem subUuidIds_eq_nil {l : Str} (h : subUuidIds l = []) : l = [] := by
  cases l with
  | nil => rfl
  | cons c rest => exact absurd h (subUuidIds_ne_nil c rest)

theorem subBraceIds_eq_nil {l : Str} (h : subBraceIds l = []) : l = [] := by
  cases l with
  | nil => rfl
  | cons c rest => exact absurd h (subBraceIds_ne_nil c rest)

/-- Each pass preserves the first character exactly: a replacement keeps the
leading `'/'` (or `'{'`). -/
theorem head?_subNumIds (l : Str) : (subNumIds l).head? = l.head? := by
  cases l with
  | nil => rfl
  | cons c rest =>
    rw [subNumIds_cons]
    split_ifs with h1 h2
    · subst h1; rfl
    · subst h1; rfl
    · rfl

theorem head?_subUuidIds (l : Str) : (subUuidIds l).head? = l.head? := by
  cases l with
  | nil => rfl
  | cons c rest =>
    rw [subUuidIds_cons]
    split_ifs with h1 h2
    · subst h1; rfl
    · subst h1; rfl
    · rfl

theorem head?_subBraceIds (l : Str) : (subBraceIds l).head? = l.head? := by
  cases l with
  | nil => rfl
  | cons c rest =>
    rw [subBraceIds_cons]
    by_cases h1 : c = '{'
    · rw [if_pos h1]
      subst h1
      cases hdw : rest.dropWhile (· ≠ '}') with
      | nil => rfl
      | cons d tail =>
        dsimp only
        split_ifs <;> rfl
    · rw [if_neg h1]
      rfl

/-- A pass result equal to a single newline forces the same input. -/
theorem subNumIds_eq_singleton_nl {l : Str} (h : subNumIds l = ['\n']) :
    l = ['\n'] := by
  cases l with
  | nil => simp [subNumIds_nil] at h
  | cons c rest =>
    have hc : c = '\n' := by
      have := head?_subNumIds (c :: rest)
      rw [h] at this
      exact (Option.some.injEq _ _).mp this.symm
    subst hc
    rw [subNumIds_cons, if_neg (by decide)] at h
    injection h with _ h2
    rw [subNumIds_eq_nil h2]

theorem subUuidIds_eq_singleton_nl {l : Str} (h : subUuidIds l = ['\n']) :
    l = ['\n'] := by
  cases l with
  | nil => simp [subUuidIds_nil] at h
  | cons c rest =>
    have hc : c = '\n' := by
      have := head?_subUuidIds (c :: rest)
      rw [h] at this
      exact (Option.some.injEq _ _).mp this.symm
    subst hc
    rw [subUuidIds_cons, if_neg (by decide)] at h
    injection h with _ h2
    rw [subUuidIds_eq_nil h2]

theorem subBraceIds_eq_singleton_nl {l : Str} (h : subBraceIds l = ['\n']) :
    l = ['\n'] := by
  cases l with
  | nil => simp [subBraceIds_nil] at h
  | cons c rest =>
    have hc : c = '\n' := by
      have := head?_subBraceIds (c :: rest)
      rw [h] at this
      exact (Option.some.injEq _ _).mp this.symm
    subst hc
    rw [subBraceIds_cons, if_neg (by decide)] at h
    injection h with _ h2
    rw [subBraceIds_eq_nil h2]

/-- Without a closing `'}'` anywhere, the brace pass never fires. -/
theorem subBraceIds_of_no_close : ∀ (n : Nat) (l : Str), l.length ≤ n →
    '}' ∉ l → subBraceIds l = l := by
  intro n
  induction n with
  | zero =>
    intro l h _
    rw [List.length_eq_zero.mp (Nat.le_zero.mp h)]
    rfl
  | succ n ih =>
    intro l hlen hnc
    cases l with
    | nil => rfl
    | cons c rest =>
      simp only [List.length_cons, Nat.succ_le_succ_iff] at hlen
      have hncr : '}' ∉ rest := fun hm => hnc (List.mem_cons_of_mem c hm)
      rw [subBraceIds_cons]
      by_cases hc : c = '{'
      · rw [if_pos hc]
        have hdw : rest.dropWhile (· ≠ '}') = [] :=
          List.dropWhile_eq_nil_iff.mpr
            (fun x hx => decide_eq_true (fun he => hncr (he ▸ hx)))
        rw [hdw]
        dsimp only
        rw [ih rest hlen hncr, hc]
      · rw [if_neg hc, ih rest hlen hncr]
/-- The last character of a numeric-id pass result is the input's last
character or the `'}'` of an inserted `{id}`. -/
theorem getLast?_subNumIds : ∀ (n : Nat) (l : Str), l.length ≤ n →
    (subNumIds l).getLast? = l.getLast? ∨ (subNumIds l).getLast? = some '}' := by
  intro n
  induction n with
  | zero =>
    intro l h
    rw [List.length_eq_zero.mp (Nat.le_zero.mp h)]
    exact Or.inl rfl
  | succ n ih =>
    intro l hl
    cases l with
    | nil => exact Or.inl rfl
    | cons c rest =>
      simp only [List.length_cons, Nat.succ_le_succ_iff] at hl
      rw [subNumIds_cons]
      by_cases hc : c = '/'
      · subst hc
        rw [if_pos rfl]
        by_cases hcond : numCond rest
        · rw [if_pos hcond]
          cases hr2 : rest.dropWhile Char.isDigit with
          | nil =>
            rw [subNumIds_nil, List.append_nil]
            right
            decide
          | cons d r2' =>
            have hX := subNumIds_ne_nil d r2'
            rw [getLast?_append_ne_nil _ _ hX]
            rcases ih (d :: r2')
                (le_trans (hr2 ▸ length_dropWhile_le Char.isDigit rest) hl)
              with h | h
            · left
              rw [h]
              have hsplit : rest = rest.takeWhile Char.isDigit ++ (d :: r2') := by
                conv_lhs =>
                  rw [← List.takeWhile_append_dropWhile Char.isDigit rest]
                rw [hr2]
              rw [getLast?_cons_of_ne_nil '/' rest (by
                intro hnil
                rw [hnil] at hr2
                simp at hr2)]
              conv_rhs => rw [hsplit]
              rw [getLast?_append_ne_nil _ _ (List.cons_ne_nil d r2')]
            · right; rw [h]
        · rw [if_neg hcond]
          cases rest with
          | nil => exact Or.inl rfl
          | cons d r' =>
            have hX := subNumIds_ne_nil d r'
            rw [getLast?_cons_of_ne_nil _ _ hX,
              getLast?_cons_of_ne_nil '/' _ (List.cons_ne_nil d r')]
            exact ih (d :: r') hl
      · rw [if_neg hc]
        cases rest with
        | nil => exact Or.inl rfl
        | cons d r' =>
          have hX := subNumIds_ne_nil d r'
          rw [getLast?_cons_of_ne_nil _ _ hX,
            getLast?_cons_of_ne_nil c _ (List.cons_ne_nil d r')]
          exact ih (d :: r') hl

/-- The last character of a UUID pass result is the input's last character or
the `'}'` of an inserted `{id}`. -/
theorem getLast?_subUuidIds : ∀ (n : Nat) (l : Str), l.length ≤ n →
    (subUuidIds l).getLast? = l.getLast? ∨ (subUuidIds l).getLast? = some '}' := by
  intro n
  induction n with
  | zero =>
    intro l h
    rw [List.length_eq_zero.mp (Nat.le_zero.mp h)]
    exact Or.inl rfl
  | succ n ih =>
    intro l hl
    cases l with
    | nil => exact Or.inl rfl
    | cons c rest =>
      simp only [List.length_cons, Nat.succ_le_succ_iff] at hl
      rw [subUuidIds_cons]
      by_cases hc : c = '/'
      · subst hc
        rw [if_pos rfl]
        by_cases hcond : uuidCond rest
        · rw [if_pos hcond]
          cases hr2 : rest.drop 36 with
          | nil =>
            rw [subUuidIds_nil, List.append_nil]
            right
            decide
          | cons d r2' =>
            have hX := subUuidIds_ne_nil d r2'
            rw [getLast?_append_ne_nil _ _ hX]
            have hr2len : (d :: r2').length ≤ n := by
              have := congrArg List.length hr2
              rw [List.length_drop] at this
              omega
            rcases ih (d :: r2') hr2len with h | h
            · left
              rw [h]
              have hsplit : rest = rest.take 36 ++ (d :: r2') := by
                conv_lhs => rw [← List.take_append_drop 36 rest]
                rw [hr2]
              rw [getLast?_cons_of_ne_nil '/' rest (by
                intro hnil
                rw [hnil] at hr2
                simp at hr2)]
              conv_rhs => rw [hsplit]
              rw [getLast?_append_ne_nil _ _ (List.cons_ne_nil d r2')]
            · right; rw [h]
        · rw [if_neg hcond]
          cases rest with
          | nil => exact Or.inl rfl
          | cons d r' =>
            have hX := subUuidIds_ne_nil d r'
            rw [getLast?_cons_of_ne_nil _ _ hX,
              getLast?_cons_of_ne_nil '/' _ (List.cons_ne_nil d r')]
            exact ih (d :: r') hl
      · rw [if_neg hc]
        cases rest with
        | nil => exact Or.inl rfl
        | cons d r' =>
          have hX := subUuidIds_ne_nil d r'
          rw [getLast?_cons_of_ne_nil _ _ hX,
            getLast?_cons_of_ne_nil c _ (List.cons_ne_nil d r')]
          exact ih (d :: r') hl

/-- The last character of a brace pass result is the input's last character
or the `'}'` of an inserted `{id}`. -/
theorem getLast?_subBraceIds : ∀ (n : Nat) (l : Str), l.length ≤ n →
    (subBraceIds l).getLast? = l.getLast? ∨ (subBraceIds l).getLast? = some '}' := by
  intro n
  induction n with
  | zero =>
    intro l h
    rw [List.length_eq_zero.mp (Nat.le_zero.mp h)]
    exact Or.inl rfl
  | succ n ih =>
    intro l hl
    cases l with
    | nil => exact Or.inl rfl
    | cons c rest =>
      simp only [List.length_cons, Nat.succ_le_succ_iff] at hl
      rw [subBraceIds_cons]
      by_cases hc : c = '{'
      · subst hc
        rw [if_pos rfl]
        cases hdw : rest.dropWhile (· ≠ '}') with
        | nil =>
          dsimp only
          cases rest with
          | nil => exact Or.inl rfl
          | cons d r' =>
            have hX := subBraceIds_ne_nil d r'
            rw [getLast?_cons_of_ne_nil _ _ hX,
              getLast?_cons_of_ne_nil '{' _ (List.cons_ne_nil d r')]
            exact ih (d :: r') hl
        | cons d tail =>
          dsimp only
          by_cases hw : rest.takeWhile (· ≠ '}') = []
          · rw [if_pos hw]
            cases rest with
            | nil => simp at hdw
            | cons e r' =>
              have hX := subBraceIds_ne_nil e r'
              rw [getLast?_cons_of_ne_nil _ _ hX,
                getLast?_cons_of_ne_nil '{' _ (List.cons_ne_nil e r')]
              exact ih (e :: r') hl
          · rw [if_neg hw]
            have htlen : tail.length ≤ n :=
              le_trans (le_of_lt (dropWhile_cons_length_le hdw)) hl
            have hsplit : rest = rest.takeWhile (· ≠ '}') ++ (d :: tail) := by
              conv_lhs =>
                rw [← List.takeWhile_append_dropWhile (· ≠ '}') rest]
              rw [hdw]
            cases tail with
            | nil =>
              rw [subBraceIds_nil, List.append_nil]
              right
              decide
            | cons e t' =>
              have hX := subBraceIds_ne_nil e t'
              rw [getLast?_append_ne_nil _ _ hX]
              rcases ih (e :: t') htlen with h | h
              · left
                rw [h]
                rw [getLast?_cons_of_ne_nil '{' rest (by
                  intro hnil
                  rw [hnil] at hdw
                  simp at hdw)]
                conv_rhs => rw [hsplit]
                rw [getLast?_append_ne_nil _ _ (List.cons_ne_nil d _),
                  getLast?_cons_of_ne_nil d _ (List.cons_ne_nil e t')]
              · right; rw [h]
      · rw [if_neg hc]
        cases rest with
        | nil => exact Or.inl rfl
        | cons d r' =>
          have hX := subBraceIds_ne_nil d r'
          rw [getLast?_cons_of_ne_nil _ _ hX,
            getLast?_cons_of_ne_nil c _ (List.cons_ne_nil d r')]
          exact ih (d :: r') hl

/-- `rstrip('/')` returns a prefix of its input. -/
theorem rstripSlash_decomp (m : Str) : ∃ t, m = rstripSlash m ++ t := by
  refine ⟨(m.reverse.takeWhile (· = '/')).reverse, ?_⟩
  conv_lhs =>
    rw [← List.reverse_reverse m,
      ← List.takeWhile_append_dropWhile (· = '/') m.reverse]
  rw [List.reverse_append]
  rfl

theorem head?_rstripSlash {m : Str} (h : rstripSlash m ≠ []) :
    (rstripSlash m).head? = m.head? := by
  obtain ⟨t, ht⟩ := rstripSlash_decomp m
  conv_rhs => rw [ht]
  cases hx : rstripSlash m with
  | nil => exact absurd hx h
  | cons a b => rfl

/-- `rstrip('/')` output never ends in `'/'`. -/
theorem getLast?_rstripSlash (m : Str) : (rstripSlash m).getLast? ≠ some '/' := by
  unfold rstripSlash
  cases hdw : m.reverse.dropWhile (· = '/') with
  | nil => simp
  | cons a b =>
    have ha := head_dropWhile_neg hdw
    rw [List.getLast?_reverse]
    intro hcontra
    have : a = '/' := by injection hcontra
    rw [this] at ha
    simp at ha

/-- Characters of a pass output come from the input or from `{id}`. -/
theorem mem_subNumIds : ∀ (n : Nat) (l : Str), l.length ≤ n →
    ∀ x ∈ subNumIds l, x ∈ l ∨ x ∈ idTok := by
  intro n
  induction n with
  | zero =>
    intro l h
    rw [List.length_eq_zero.mp (Nat.le_zero.mp h)]
    intro x hx
    simp [subNumIds_nil] at hx
  | succ n ih =>
    intro l hl x
    cases l with
    | nil => intro hx; simp [subNumIds_nil] at hx
    | cons c rest =>
      simp only [List.length_cons, Nat.succ_le_succ_iff] at hl
      rw [subNumIds_cons]
      by_cases hc : c = '/'
      · subst hc
        rw [if_pos rfl]
        by_cases hcond : numCond rest
        · rw [if_pos hcond]
          intro hx
          rcases List.mem_cons.mp hx with h | h
          · exact Or.inl (h ▸ List.mem_cons_self _ _)
          · rcases List.mem_append.mp h with h2 | h2
            · exact Or.inr h2
            · rcases ih (rest.dropWhile Char.isDigit)
                  (le_trans (length_dropWhile_le _ _) hl) x h2 with h3 | h3
              · exact Or.inl (List.mem_cons_of_mem _
                  ((List.dropWhile_sublist _).subset h3))
              · exact Or.inr h3
        · rw [if_neg hcond]
          intro hx
          rcases List.mem_cons.mp hx with h | h
          · exact Or.inl (h ▸ List.mem_cons_self _ _)
          · rcases ih rest hl x h with h3 | h3
            · exact Or.inl (List.mem_cons_of_mem _ h3)
            · exact Or.inr h3
      · rw [if_neg hc]
        intro hx
        rcases List.mem_cons.mp hx with h | h
        · exact Or.inl (h ▸ List.mem_cons_self _ _)
        · rcases ih rest hl x h with h3 | h3
          · exact Or.inl (List.mem_cons_of_mem _ h3)
          · exact Or.inr h3

theorem mem_subUuidIds : ∀ (n : Nat) (l : Str), l.length ≤ n →
    ∀ x ∈ subUuidIds l, x ∈ l ∨ x ∈ idTok := by
  intro n
  induction n with
  | zero =>
    intro l h
    rw [List.length_eq_zero.mp (Nat.le_zero.mp h)]
    intro x hx
    simp [subUuidIds_nil] at hx
  | succ n ih =>
    intro l hl x
    cases l with
    | nil => intro hx; simp [subUuidIds_nil] at hx
    | cons c rest =>
      simp only [List.length_cons, Nat.succ_le_succ_iff] at hl
      rw [subUuidIds_cons]
      by_cases hc : c = '/'
      · subst hc
        rw [if_pos rfl]
        by_cases hcond : uuidCond rest
        · rw [if_pos hcond]
          intro hx
          rcases List.mem_cons.mp hx with h | h
          · exact Or.inl (h ▸ List.mem_cons_self _ _)
          · rcases List.mem_append.mp h with h2 | h2
            · exact Or.inr h2
            · have hdl : (rest.drop 36).length ≤ n := by
                rw [List.length_drop]; omega
              rcases ih (rest.drop 36) hdl x h2 with h3 | h3
              · exact Or.inl (List.mem_cons_of_mem _
                  (List.drop_subset 36 rest h3))
              · exact Or.inr h3
        · rw [if_neg hcond]
          intro hx
          rcases List.mem_cons.mp hx with h | h
          · exact Or.inl (h ▸ List.mem_cons_self _ _)
          · rcases ih rest hl x h with h3 | h3
            · exact Or.inl (List.mem_cons_of_mem _ h3)
            · exact Or.inr h3
      · rw [if_neg hc]
        intro hx
        rcases List.mem_cons.mp hx with h | h
        · exact Or.inl (h ▸ List.mem_cons_self _ _)
        · rcases ih rest hl x h with h3 | h3
          · exact Or.inl (List.mem_cons_of_mem _ h3)
          · exact Or.inr h3

theorem mem_subBraceIds : ∀ (n : Nat) (l : Str), l.length ≤ n →
    ∀ x ∈ subBraceIds l, x ∈ l ∨ x ∈ idTok := by
  intro n
  induction n with
  | zero =>
    intro l h
    rw [List.length_eq_zero.mp (Nat.le_zero.mp h)]
    intro x hx
    simp [subBraceIds_nil] at hx
  | succ n ih =>
    intro l hl x
    cases l with
    | nil => intro hx; simp [subBraceIds_nil] at hx
    | cons c rest =>
      simp only [List.length_cons, Nat.succ_le_succ_iff] at hl
      rw [subBraceIds_cons]
      by_cases hc : c = '{'
      · subst hc
        rw [if_pos rfl]
        cases hdw : rest.dropWhile (· ≠ '}') with
        | nil =>
          dsimp only
          intro hx
          rcases List.mem_cons.mp hx with h | h
          · exact Or.inl (h ▸ List.mem_cons_self _ _)
          · rcases ih rest hl x h with h3 | h3
            · exact Or.inl (List.mem_cons_of_mem _ h3)
            · exact Or.inr h3
        | cons d tail =>
          dsimp only
          by_cases hw : rest.takeWhile (· ≠ '}') = []
          · rw [if_pos hw]
            intro hx
            rcases List.mem_cons.mp hx with h | h
            · exact Or.inl (h ▸ List.mem_cons_self _ _)
            · rcases ih rest hl x h with h3 | h3
              · exact Or.inl (List.mem_cons_of_mem _ h3)
              · exact Or.inr h3
          · rw [if_neg hw]
            intro hx
            rcases List.mem_append.mp hx with h | h
            · exact Or.inr h
            · have htlen : tail.length ≤ n :=
                le_trans (le_of_lt (dropWhile_cons_length_le hdw)) hl
              rcases ih tail htlen x h with h3 | h3
              · refine Or.inl (List.mem_cons_of_mem _ ?_)
                exact (List.dropWhile_sublist (· ≠ '}')).subset
                  (hdw ▸ List.mem_cons_of_mem d h3)
              · exact Or.inr h3
      · rw [if_neg hc]
        intro hx
        rcases List.mem_cons.mp hx with h | h
        · exact Or.inl (h ▸ List.mem_cons_self _ _)
        · rcases ih rest hl x h with h3 | h3
          · exact Or.inl (List.mem_cons_of_mem _ h3)
          · exact Or.inr h3

/-- A fixed point of the numeric pass starting at `'/'` means the lookahead
failed there, and the tail is again a fixed point (a successful match would
put `'{'` right after the slash, contradicting the digit run). -/
theorem subNumIds_fixed_inv {rest : Str}
    (h : subNumIds ('/' :: rest) = '/' :: rest) :
    ¬numCond rest ∧ subNumIds rest = rest := by
  rw [subNumIds_cons, if_pos rfl] at h
  by_cases hcond : numCond rest
  · exfalso
    rw [if_pos hcond] at h
    simp only [idTok, List.cons_append, List.nil_append] at h
    injection h with _ h2
    apply hcond.1
    rw [← h2]
    exact List.takeWhile_cons_of_neg (by decide)
  · rw [if_neg hcond] at h
    injection h with _ h2
    exact ⟨hcond, h2⟩

theorem subNumIds_cons_fixed {c : Char} {rest : Str}
    (h : subNumIds (c :: rest) = c :: rest) : subNumIds rest = rest := by
  by_cases hc : c = '/'
  · subst hc; exact (subNumIds_fixed_inv h).2
  · rw [subNumIds_cons, if_neg hc] at h
    injection h

theorem subNumIds_fixed_append : ∀ (u s : Str),
    subNumIds (u ++ s) = u ++ s → subNumIds s = s := by
  intro u
  induction u with
  | nil => intro s h; simpa using h
  | cons c u' ih =>
    intro s h
    rw [List.cons_append] at h
    exact ih s (subNumIds_cons_fixed h)

/-- A fixed point of the UUID pass starting at `'/'` means the window test
failed there, and the tail is again a fixed point. -/
theorem subUuidIds_fixed_inv {rest : Str}
    (h : subUuidIds ('/' :: rest) = '/' :: rest) :
    ¬uuidCond rest ∧ subUuidIds rest = rest := by
  rw [subUuidIds_cons, if_pos rfl] at h
  by_cases hcond : uuidCond rest
  · exfalso
    rw [if_pos hcond] at h
    simp only [idTok, List.cons_append, List.nil_append] at h
    injection h with _ h2
    have h36 : '{' ∈ rest.take 36 := by
      rw [← h2, List.take_cons (by omega)]
      exact List.mem_cons_self _ _
    have := List.all_eq_true.mp hcond.2.1 '{' h36
    simp [isUuidCh] at this
  · rw [if_neg hcond] at h
    injection h with _ h2
    exact ⟨hcond, h2⟩

theorem subUuidIds_cons_fixed {c : Char} {rest : Str}
    (h : subUuidIds (c :: rest) = c :: rest) : subUuidIds rest = rest := by
  by_cases hc : c = '/'
  · subst hc; exact (subUuidIds_fixed_inv h).2
  · rw [subUuidIds_cons, if_neg hc] at h
    injection h

theorem subUuidIds_fixed_append : ∀ (u s : Str),
    subUuidIds (u ++ s) = u ++ s → subUuidIds s = s := by
  intro u
  induction u with
  | nil => intro s h; simpa using h
  | cons c u' ih =>
    intro s h
    rw [List.cons_append] at h
    exact ih s (subUuidIds_cons_fixed h)

/-- The digit prefix is not changed by any pass, and the first non-digit
survives in place, so the numeric lookahead fails on a pass image whenever it
failed on the input. -/
theorem numCond_transfer_subNum {rest : Str} (h : ¬numCond rest) :
    ¬numCond (subNumIds rest) := by
  intro hc
  apply h
  have hdig : ∀ c ∈ rest.takeWhile Char.isDigit, Char.isDigit c = true :=
    fun c hcm => List.mem_takeWhile_imp hcm
  have hcopy : subNumIds rest =
      rest.takeWhile Char.isDigit ++ subNumIds (rest.dropWhile Char.isDigit) := by
    conv_lhs => rw [← List.takeWhile_append_dropWhile Char.isDigit rest]
    exact subNumIds_copy _ _ (fun hm => by
      have := hdig '/' hm
      simp at this)
  have hY : (subNumIds (rest.dropWhile Char.isDigit)).takeWhile Char.isDigit = []
      ∧ (subNumIds (rest.dropWhile Char.isDigit)).dropWhile Char.isDigit =
        subNumIds (rest.dropWhile Char.isDigit) := by
    cases hr : rest.dropWhile Char.isDigit with
    | nil => exact ⟨rfl, rfl⟩
    | cons e f =>
      have he : Char.isDigit e = false := head_dropWhile_neg hr
      cases hY0 : subNumIds (e :: f) with
      | nil => exact absurd (subNumIds_eq_nil hY0) (by simp)
      | cons y ys =>
        have hy : y = e := by
          have hh := head?_subNumIds (e :: f)
          rw [hY0] at hh
          exact (Option.some.injEq _ _).mp hh
        subst hy
        exact ⟨List.takeWhile_cons_of_neg (by simp [he]),
          List.dropWhile_cons_of_neg (by simp [he])⟩
  have htw2 : (subNumIds rest).takeWhile Char.isDigit =
      rest.takeWhile Char.isDigit := by
    rw [hcopy, takeWhile_append_sat _ _ _ hdig, hY.1, List.append_nil]
  have hdw2 : (subNumIds rest).dropWhile Char.isDigit =
      subNumIds (rest.dropWhile Char.isDigit) := by
    rw [hcopy, dropWhile_append_sat _ _ _ hdig, hY.2]
  refine ⟨by rw [← htw2]; exact hc.1, ?_⟩
  rcases hc.2 with h1 | h1 | h1
  · rw [hdw2] at h1
    exact Or.inl (subNumIds_eq_nil h1)
  · rw [hdw2, head?_subNumIds] at h1
    exact Or.inr (Or.inl h1)
  · rw [hdw2] at h1
    exact Or.inr (Or.inr (subNumIds_eq_singleton_nl h1))

theorem numCond_transfer_subUuid {rest : Str} (h : ¬numCond rest) :
    ¬numCond (subUuidIds rest) := by
  intro hc
  apply h
  have hdig : ∀ c ∈ rest.takeWhile Char.isDigit, Char.isDigit c = true :=
    fun c hcm => List.mem_takeWhile_imp hcm
  have hcopy : subUuidIds rest =
      rest.takeWhile Char.isDigit ++ subUuidIds (rest.dropWhile Char.isDigit) := by
    conv_lhs => rw [← List.takeWhile_append_dropWhile Char.isDigit rest]
    exact subUuidIds_copy _ _ (fun hm => by
      have := hdig '/' hm
      simp at this)
  have hY : (subUuidIds (rest.dropWhile Char.isDigit)).takeWhile Char.isDigit = []
      ∧ (subUuidIds (rest.dropWhile Char.isDigit)).dropWhile Char.isDigit =
        subUuidIds (rest.dropWhile Char.isDigit) := by
    cases hr : rest.dropWhile Char.isDigit with
    | nil => exact ⟨rfl, rfl⟩
    | cons e f =>
      have he : Char.isDigit e = false := head_dropWhile_neg hr
      cases hY0 : subUuidIds (e :: f) with
      | nil => exact absurd (subUuidIds_eq_nil hY0) (by simp)
      | cons y ys =>
        have hy : y = e := by
          have hh := head?_subUuidIds (e :: f)
          rw [hY0] at hh
          exact (Option.some.injEq _ _).mp hh
        subst hy
        exact ⟨List.takeWhile_cons_of_neg (by simp [he]),
          List.dropWhile_cons_of_neg (by simp [he])⟩
  have htw2 : (subUuidIds rest).takeWhile Char.isDigit =
      rest.takeWhile Char.isDigit := by
    rw [hcopy, takeWhile_append_sat _ _ _ hdig, hY.1, List.append_nil]
  have hdw2 : (subUuidIds rest).dropWhile Char.isDigit =
      subUuidIds (rest.dropWhile Char.isDigit) := by
    rw [hcopy, dropWhile_append_sat _ _ _ hdig, hY.2]
  refine ⟨by rw [← htw2]; exact hc.1, ?_⟩
  rcases hc.2 with h1 | h1 | h1
  · rw [hdw2] at h1
    exact Or.inl (subUuidIds_eq_nil h1)
  · rw [hdw2, head?_subUuidIds] at h1
    exact Or.inr (Or.inl h1)
  · rw [hdw2] at h1
    exact Or.inr (Or.inr (subUuidIds_eq_singleton_nl h1))

theorem numCond_transfer_subBrace {rest : Str} (h : ¬numCond rest) :
    ¬numCond (subBraceIds rest) := by
  intro hc
  apply h
  have hdig : ∀ c ∈ rest.takeWhile Char.isDigit, Char.isDigit c = true :=
    fun c hcm => List.mem_takeWhile_imp hcm
  have hcopy : subBraceIds rest =
      rest.takeWhile Char.isDigit ++ subBraceIds (rest.dropWhile Char.isDigit) := by
    conv_lhs => rw [← List.takeWhile_append_dropWhile Char.isDigit rest]
    exact subBraceIds_copy _ _ (fun hm => by
      have := hdig '{' hm
      simp at this)
  have hY : (subBraceIds (rest.dropWhile Char.isDigit)).takeWhile Char.isDigit = []
      ∧ (subBraceIds (rest.dropWhile Char.isDigit)).dropWhile Char.isDigit =
        subBraceIds (rest.dropWhile Char.isDigit) := by
    cases hr : rest.dropWhile Char.isDigit with
    | nil => exact ⟨rfl, rfl⟩
    | cons e f =>
      have he : Char.isDigit e = false := head_dropWhile_neg hr
      cases hY0 : subBraceIds (e :: f) with
      | nil => exact absurd (subBraceIds_eq_nil hY0) (by simp)
      | cons y ys =>
        have hy : y = e := by
          have hh := head?_subBraceIds (e :: f)
          rw [hY0] at hh
          exact (Option.some.injEq _ _).mp hh
        subst hy
        exact ⟨List.takeWhile_cons_of_neg (by simp [he]),
          List.dropWhile_cons_of_neg (by simp [he])⟩
  have htw2 : (subBraceIds rest).takeWhile Char.isDigit =
      rest.takeWhile Char.isDigit := by
    rw [hcopy, takeWhile_append_sat _ _ _ hdig, hY.1, List.append_nil]
  have hdw2 : (subBraceIds rest).dropWhile Char.isDigit =
      subBraceIds (rest.dropWhile Char.isDigit) := by
    rw [hcopy, dropWhile_append_sat _ _ _ hdig, hY.2]
  refine ⟨by rw [← htw2]; exact hc.1, ?_⟩
  rcases hc.2 with h1 | h1 | h1
  · rw [hdw2] at h1
    exact Or.inl (subBraceIds_eq_nil h1)
  · rw [hdw2, head?_subBraceIds] at h1
    exact Or.inr (Or.inl h1)
  · rw [hdw2] at h1
    exact Or.inr (Or.inr (subBraceIds_eq_singleton_nl h1))

/-- The UUID window test fails on a UUID-pass image whenever it failed on the
input: the pass only copies up to the next `'/'`, the window cannot absorb a
`'/'`, and an inserted `{id}` puts `'{'` (outside the class) in the window. -/
theorem uuidCond_transfer_subUuid {rest : Str} (h : ¬uuidCond rest) :
    ¬uuidCond (subUuidIds rest) := by
  intro hc
  obtain ⟨p, hpd⟩ : ∃ p, rest.takeWhile (· ≠ '/') = p := ⟨_, rfl⟩
  obtain ⟨r', hrd⟩ : ∃ r, rest.dropWhile (· ≠ '/') = r := ⟨_, rfl⟩
  have hrest : rest = p ++ r' := by
    rw [← hpd, ← hrd, List.takeWhile_append_dropWhile]
  have hpn : '/' ∉ p := fun hm => by
    have := List.mem_takeWhile_imp (hpd ▸ hm)
    simp at this
  have hcopy : subUuidIds rest = p ++ subUuidIds r' := by
    conv_lhs => rw [hrest]
    exact subUuidIds_copy _ _ hpn
  have hr' : r' = [] ∨ ∃ f, r' = '/' :: f := by
    cases hr0 : r' with
    | nil => exact Or.inl rfl
    | cons e f =>
      have he := head_dropWhile_neg (hrd.trans hr0)
      simp only [decide_eq_false_iff_not, not_not] at he
      exact Or.inr ⟨f, by rw [he]⟩
  by_cases hlen : 36 ≤ p.length
  · -- the window lies inside the copied prefix on both sides
    apply h
    have htake : ∀ (A : Str), (p ++ A).take 36 = p.take 36 := by
      intro A
      rw [List.take_append_eq_append_take, Nat.sub_eq_zero_of_le hlen,
        List.take_zero, List.append_nil]
    have hdrop : ∀ (A : Str), (p ++ A).drop 36 = p.drop 36 ++ A := by
      intro A
      rw [List.drop_append_eq_append_drop, Nat.sub_eq_zero_of_le hlen,
        List.drop_zero]
    unfold uuidCond at hc ⊢
    rw [hcopy] at hc
    rw [htake, hdrop] at hc
    rw [hrest, htake, hdrop]
    refine ⟨hc.1, hc.2.1, ?_⟩
    cases hpdrop : p.drop 36 with
    | nil =>
      simp only [hpdrop, List.nil_append] at hc ⊢
      rcases hc.2.2 with h1 | h1 | h1
      · exact Or.inl (subUuidIds_eq_nil h1)
      · rw [head?_subUuidIds] at h1
        exact Or.inr (Or.inl h1)
      · exact Or.inr (Or.inr (subUuidIds_eq_singleton_nl h1))
    | cons e f =>
      simp only [hpdrop, List.cons_append] at hc ⊢
      rcases hc.2.2 with h1 | h1 | h1
      · exact absurd h1 (by simp)
      · exact Or.inr (Or.inl h1)
      · have he : e = '\n' ∧ f ++ subUuidIds r' = [] := by
          have h2 := h1
          injection h2 with ha hb
          exact ⟨ha, hb⟩
        rcases List.append_eq_nil.mp he.2 with ⟨hf, hX⟩
        refine Or.inr (Or.inr ?_)
        rw [he.1, hf, subUuidIds_eq_nil hX]
        rfl
  · -- the copied prefix is short: the output window reaches the next '/',
    -- which is outside the class, or the output is too short altogether
    push_neg at hlen
    rcases hr' with hnil | ⟨f, hcons⟩
    · rw [hnil] at hcopy
      rw [hcopy] at hc
      unfold uuidCond at hc
      have hta : (p ++ subUuidIds []).take 36 = p := by
        rw [subUuidIds_nil, List.append_nil]
        exact List.take_all_of_le (by omega)
      rw [hta] at hc
      have := hc.1
      omega
    · have hXshape : ∃ ys, subUuidIds r' = '/' :: ys := by
        cases hX0 : subUuidIds r' with
        | nil =>
          rw [hcons] at hX0
          exact absurd (subUuidIds_eq_nil hX0) (by simp)
        | cons y ys =>
          have hy : y = '/' := by
            have hh := head?_subUuidIds r'
            rw [hX0, hcons] at hh
            exact (Option.some.injEq _ _).mp hh
          exact ⟨ys, by rw [hy]⟩
      obtain ⟨ys, hX⟩ := hXshape
      have hmem : '/' ∈ (subUuidIds rest).take 36 := by
        rw [hcopy, hX, List.take_append_eq_append_take]
        refine List.mem_append.mpr (Or.inr ?_)
        rw [List.take_cons (by omega)]
        exact List.mem_cons_self _ _
      have := List.all_eq_true.mp hc.2.1 '/' hmem
      simp [isUuidCh] at this

/-- The UUID window test also fails on a brace-pass image whenever it failed
on the input: the brace pass copies up to the next `'{'`, and `'{'` is
outside the window class on both sides of the rewrite. -/
theorem uuidCond_transfer_subBrace {rest : Str} (h : ¬uuidCond rest) :
    ¬uuidCond (subBraceIds rest) := by
  intro hc
  obtain ⟨p, hpd⟩ : ∃ p, rest.takeWhile (· ≠ '{') = p := ⟨_, rfl⟩
  obtain ⟨r', hrd⟩ : ∃ r, rest.dropWhile (· ≠ '{') = r := ⟨_, rfl⟩
  have hrest : rest = p ++ r' := by
    rw [← hpd, ← hrd, List.takeWhile_append_dropWhile]
  have hpn : '{' ∉ p := fun hm => by
    have := List.mem_takeWhile_imp (hpd ▸ hm)
    simp at this
  have hcopy : subBraceIds rest = p ++ subBraceIds r' := by
    conv_lhs => rw [hrest]
    exact subBraceIds_copy _ _ hpn
  have hr' : r' = [] ∨ ∃ f, r' = '{' :: f := by
    cases hr0 : r' with
    | nil => exact Or.inl rfl
    | cons e f =>
      have he := head_dropWhile_neg (hrd.trans hr0)
      simp only [decide_eq_false_iff_not, not_not] at he
      exact Or.inr ⟨f, by rw [he]⟩
  by_cases hlen : 36 ≤ p.length
  · apply h
    have htake : ∀ (A : Str), (p ++ A).take 36 = p.take 36 := by
      intro A
      rw [List.take_append_eq_append_take, Nat.sub_eq_zero_of_le hlen,
        List.take_zero, List.append_nil]
    have hdrop : ∀ (A : Str), (p ++ A).drop 36 = p.drop 36 ++ A := by
      intro A
      rw [List.drop_append_eq_append_drop, Nat.sub_eq_zero_of_le hlen,
        List.drop_zero]
    unfold uuidCond at hc ⊢
    rw [hcopy] at hc
    rw [htake, hdrop] at hc
    rw [hrest, htake, hdrop]
    refine ⟨hc.1, hc.2.1, ?_⟩
    cases hpdrop : p.drop 36 with
    | nil =>
      simp only [hpdrop, List.nil_append] at hc ⊢
      rcases hc.2.2 with h1 | h1 | h1
      · exact Or.inl (subBraceIds_eq_nil h1)
      · rw [head?_subBraceIds] at h1
        exact Or.inr (Or.inl h1)
      · exact Or.inr (Or.inr (subBraceIds_eq_singleton_nl h1))
    | cons e f =>
      simp only [hpdrop, List.cons_append] at hc ⊢
      rcases hc.2.2 with h1 | h1 | h1
      · exact absurd h1 (by simp)
      · exact Or.inr (Or.inl h1)
      · have he : e = '\n' ∧ f ++ subBraceIds r' = [] := by
          have h2 := h1
          injection h2 with ha hb
          exact ⟨ha, hb⟩
        rcases List.append_eq_nil.mp he.2 with ⟨hf, hX⟩
        refine Or.inr (Or.inr ?_)
        rw [he.1, hf, subBraceIds_eq_nil hX]
        rfl
  · push_neg at hlen
    rcases hr' with hnil | ⟨f, hcons⟩
    · rw [hnil] at hcopy
      rw [hcopy] at hc
      unfold uuidCond at hc
      have hta : (p ++ subBraceIds []).take 36 = p := by
        rw [subBraceIds_nil, List.append_nil]
        exact List.take_all_of_le (by omega)
      rw [hta] at hc
      have := hc.1
      omega
    · have hXshape : ∃ ys, subBraceIds r' = '{' :: ys := by
        cases hX0 : subBraceIds r' with
        | nil =>
          rw [hcons] at hX0
          exact absurd (subBraceIds_eq_nil hX0) (by simp)
        | cons y ys =>
          have hy : y = '{' := by
            have hh := head?_subBraceIds r'
            rw [hX0, hcons] at hh
            exact (Option.some.injEq _ _).mp hh
          exact ⟨ys, by rw [hy]⟩
      obtain ⟨ys, hX⟩ := hXshape
      have hmem : '{' ∈ (subBraceIds rest).take 36 := by
        rw [hcopy, hX, List.take_append_eq_append_take]
        refine List.mem_append.mpr (Or.inr ?_)
        rw [List.take_cons (by omega)]
        exact List.mem_cons_self _ _
      have := List.all_eq_true.mp hc.2.1 '{' hmem
      simp [isUuidCh] at this

/-- The numeric-id pass is idempotent: its image contains no residual match
site. -/
theorem subNumIds_idem_aux : ∀ (n : Nat) (l : Str), l.length ≤ n →
    subNumIds (subNumIds l) = subNumIds l := by
  intro n
  induction n with
  | zero =>
    intro l h
    rw [List.length_eq_zero.mp (Nat.le_zero.mp h)]
    rfl
  | succ n ih =>
    intro l hl
    cases l with
    | nil => rfl
    | cons c rest =>
      simp only [List.length_cons, Nat.succ_le_succ_iff] at hl
      rw [subNumIds_cons]
      by_cases hc : c = '/'
      · subst hc
        rw [if_pos rfl]
        by_cases hcond : numCond rest
        · rw [if_pos hcond]
          have hncond : ¬numCond (idTok ++ subNumIds (rest.dropWhile Char.isDigit)) := by
            intro hcc
            apply hcc.1
            simp only [idTok, List.cons_append, List.nil_append]
            exact List.takeWhile_cons_of_neg (by decide)
          rw [List.cons_append, subNumIds_cons, if_pos rfl, if_neg hncond,
            subNumIds_copy idTok _ (by decide),
            ih (rest.dropWhile Char.isDigit)
              (le_trans (length_dropWhile_le _ _) hl)]
        · rw [if_neg hcond, subNumIds_cons, if_pos rfl,
            if_neg (numCond_transfer_subNum hcond), ih rest hl]
      · rw [if_neg hc, subNumIds_cons, if_neg hc, ih rest hl]

/-- The UUID pass is idempotent. -/
theorem subUuidIds_idem_aux : ∀ (n : Nat) (l : Str), l.length ≤ n →
    subUuidIds (subUuidIds l) = subUuidIds l := by
  intro n
  induction n with
  | zero =>
    intro l h
    rw [List.length_eq_zero.mp (Nat.le_zero.mp h)]
    rfl
  | succ n ih =>
    intro l hl
    cases l with
    | nil => rfl
    | cons c rest =>
      simp only [List.length_cons, Nat.succ_le_succ_iff] at hl
      rw [subUuidIds_cons]
      by_cases hc : c = '/'
      · subst hc
        rw [if_pos rfl]
        by_cases hcond : uuidCond rest
        · rw [if_pos hcond]
          have hncond : ¬uuidCond (idTok ++ subUuidIds (rest.drop 36)) := by
            intro hcc
            have hmem : '{' ∈ (idTok ++ subUuidIds (rest.drop 36)).take 36 := by
              simp only [idTok, List.cons_append, List.nil_append]
              rw [List.take_cons (by omega)]
              exact List.mem_cons_self _ _
            have := List.all_eq_true.mp hcc.2.1 '{' hmem
            simp [isUuidCh] at this
          have hdl : (rest.drop 36).length ≤ n := by
            rw [List.length_drop]; omega
          rw [List.cons_append, subUuidIds_cons, if_pos rfl, if_neg hncond,
            subUuidIds_copy idTok _ (by decide), ih (rest.drop 36) hdl]
        · rw [if_neg hcond, subUuidIds_cons, if_pos rfl,
            if_neg (uuidCond_transfer_subUuid hcond), ih rest hl]
      · rw [if_neg hc, subUuidIds_cons, if_neg hc, ih rest hl]

/-- The brace pass is idempotent: an inserted `{id}` is itself a `{...}`
template that rewrites to `{id}`. -/
theorem subBraceIds_idem_aux : ∀ (n : Nat) (l : Str), l.length ≤ n →
    subBraceIds (subBraceIds l) = subBraceIds l := by
  intro n
  induction n with
  | zero =>
    intro l h
    rw [List.length_eq_zero.mp (Nat.le_zero.mp h)]
    rfl
  | succ n ih =>
    intro l hl
    cases l with
    | nil => rfl
    | cons c rest =>
      simp only [List.length_cons, Nat.succ_le_succ_iff] at hl
      by_cases hc : c = '{'
      · subst hc
        cases hdw : rest.dropWhile (· ≠ '}') with
        | nil =>
          have hncr : '}' ∉ rest := fun hm => by
            have := List.dropWhile_eq_nil_iff.mp hdw '}' hm
            simp at this
          have hnc : '}' ∉ '{' :: rest := fun hm => by
            rcases List.mem_cons.mp hm with h1 | h1
            · exact absurd h1 (by decide)
            · exact hncr h1
          have hfix : subBraceIds ('{' :: rest) = '{' :: rest :=
            subBraceIds_of_no_close ('{' :: rest).length _ le_rfl hnc
          rw [hfix, hfix]
        | cons d tail =>
          have hd : d = '}' := by
            have := head_dropWhile_neg hdw
            simp only [decide_eq_false_iff_not, not_not] at this
            exact this
          subst hd
          have htlen : tail.length ≤ n :=
            le_trans (le_of_lt (dropWhile_cons_length_le hdw)) hl
          by_cases hw : rest.takeWhile (· ≠ '}') = []
          · have hrest : rest = '}' :: tail := by
              conv_lhs => rw [← List.takeWhile_append_dropWhile (· ≠ '}') rest]
              rw [hw, hdw, List.nil_append]
            have hsub : subBraceIds rest = '}' :: subBraceIds tail := by
              conv_lhs => rw [hrest]
              rw [subBraceIds_cons, if_neg (by decide)]
            have hout : subBraceIds ('{' :: rest) = '{' :: '}' :: subBraceIds tail := by
              rw [subBraceIds_cons, if_pos rfl, hdw]
              dsimp only
              rw [if_pos hw, hsub]
            rw [hout]
            have h2 : subBraceIds ('{' :: '}' :: subBraceIds tail) =
                '{' :: '}' :: subBraceIds (subBraceIds tail) := by
              rw [subBraceIds_cons, if_pos rfl,
                List.dropWhile_cons_of_neg (by decide)]
              dsimp only
              rw [if_pos (List.takeWhile_cons_of_neg (by decide)),
                subBraceIds_cons, if_neg (by decide)]
            rw [h2, ih tail htlen]
          · have hout : subBraceIds ('{' :: rest) = idTok ++ subBraceIds tail := by
              rw [subBraceIds_cons, if_pos rfl, hdw]
              dsimp only
              rw [if_neg hw]
            rw [hout]
            have h2 : subBraceIds (idTok ++ subBraceIds tail) =
                idTok ++ subBraceIds (subBraceIds tail) := by
              simp only [idTok, List.cons_append, List.nil_append]
              rw [subBraceIds_cons, if_pos rfl,
                List.dropWhile_cons_of_pos (by decide),
                List.dropWhile_cons_of_pos (by decide),
                List.dropWhile_cons_of_neg (by decide)]
              dsimp only
              rw [if_neg (by
                rw [List.takeWhile_cons_of_pos (by decide)]
                simp)]
              simp [idTok]
            rw [h2, ih tail htlen]
      · rw [subBraceIds_cons, if_neg hc, subBraceIds_cons, if_neg hc,
          ih rest hl]

/-- The UUID pass preserves fixedness under the numeric pass. -/
theorem numFix_subUuid_aux : ∀ (n : Nat) (y : Str), y.length ≤ n →
    subNumIds y = y → subNumIds (subUuidIds y) = subUuidIds y := by
  intro n
  induction n with
  | zero =>
    intro y h _
    rw [List.length_eq_zero.mp (Nat.le_zero.mp h)]
    rfl
  | succ n ih =>
    intro y hl hfix
    cases y with
    | nil => rfl
    | cons c rest =>
      simp only [List.length_cons, Nat.succ_le_succ_iff] at hl
      have hres : subNumIds rest = rest := subNumIds_cons_fixed hfix
      rw [subUuidIds_cons]
      by_cases hc : c = '/'
      · subst hc
        rw [if_pos rfl]
        have hinv := subNumIds_fixed_inv hfix
        by_cases hcond : uuidCond rest
        · rw [if_pos hcond]
          have hr2fix : subNumIds (rest.drop 36) = rest.drop 36 :=
            subNumIds_fixed_append (rest.take 36) _ (by
              rw [List.take_append_drop]
              exact hres)
          have hncond : ¬numCond (idTok ++ subUuidIds (rest.drop 36)) := by
            intro hcc
            apply hcc.1
            simp only [idTok, List.cons_append, List.nil_append]
            exact List.takeWhile_cons_of_neg (by decide)
          have hdl : (rest.drop 36).length ≤ n := by
            rw [List.length_drop]; omega
          rw [List.cons_append, subNumIds_cons, if_pos rfl, if_neg hncond,
            subNumIds_copy idTok _ (by decide), ih (rest.drop 36) hdl hr2fix]
        · rw [if_neg hcond, subNumIds_cons, if_pos rfl,
            if_neg (numCond_transfer_subUuid hinv.1), ih rest hl hres]
      · rw [if_neg hc, subNumIds_cons, if_neg hc, ih rest hl hres]

/-- The brace pass preserves fixedness under the numeric pass. -/
theorem numFix_subBrace_aux : ∀ (n : Nat) (y : Str), y.length ≤ n →
    subNumIds y = y → subNumIds (subBraceIds y) = subBraceIds y := by
  intro n
  induction n with
  | zero =>
    intro y h _
    rw [List.length_eq_zero.mp (Nat.le_zero.mp h)]
    rfl
  | succ n ih =>
    intro y hl hfix
    cases y with
    | nil => rfl
    | cons c rest =>
      simp only [List.length_cons, Nat.succ_le_succ_iff] at hl
      have hres : subNumIds rest = rest := subNumIds_cons_fixed hfix
      by_cases hc : c = '{'
      · subst hc
        cases hdw : rest.dropWhile (· ≠ '}') with
        | nil =>
          rw [subBraceIds_cons, if_pos rfl, hdw]
          dsimp only
          rw [subNumIds_cons, if_neg (by decide), ih rest hl hres]
        | cons d tail =>
          have hd : d = '}' := by
            have := head_dropWhile_neg hdw
            simp only [decide_eq_false_iff_not, not_not] at this
            exact this
          subst hd
          have htlen : tail.length ≤ n :=
            le_trans (le_of_lt (dropWhile_cons_length_le hdw)) hl
          by_cases hw : rest.takeWhile (· ≠ '}') = []
          · rw [subBraceIds_cons, if_pos rfl, hdw]
            dsimp only
            rw [if_pos hw, subNumIds_cons, if_neg (by decide), ih rest hl hres]
          · have hrest2 : rest = rest.takeWhile (· ≠ '}') ++ ('}' :: tail) := by
              conv_lhs => rw [← List.takeWhile_append_dropWhile (· ≠ '}') rest]
              rw [hdw]
            have htfix : subNumIds tail = tail :=
              subNumIds_fixed_append (rest.takeWhile (· ≠ '}') ++ ['}']) tail (by
                rw [List.append_assoc, List.singleton_append, ← hrest2]
                exact hres)
            rw [subBraceIds_cons, if_pos rfl, hdw]
            dsimp only
            rw [if_neg hw, subNumIds_copy idTok _ (by decide),
              ih tail htlen htfix]
      · rw [subBraceIds_cons, if_neg hc]
        by_cases hcs : c = '/'
        · subst hcs
          have hinv := subNumIds_fixed_inv hfix
          rw [subNumIds_cons, if_pos rfl,
            if_neg (numCond_transfer_subBrace hinv.1), ih rest hl hres]
        · rw [subNumIds_cons, if_neg hcs, ih rest hl hres]

/-- The brace pass preserves fixedness under the UUID pass. -/
theorem uuidFix_subBrace_aux : ∀ (n : Nat) (y : Str), y.length ≤ n →
    subUuidIds y = y → subUuidIds (subBraceIds y) = subBraceIds y := by
  intro n
  induction n with
  | zero =>
    intro y h _
    rw [List.length_eq_zero.mp (Nat.le_zero.mp h)]
    rfl
  | succ n ih =>
    intro y hl hfix
    cases y with
    | nil => rfl
    | cons c rest =>
      simp only [List.length_cons, Nat.succ_le_succ_iff] at hl
      have hres : subUuidIds rest = rest := subUuidIds_cons_fixed hfix
      by_cases hc : c = '{'
      · subst hc
        cases hdw : rest.dropWhile (· ≠ '}') with
        | nil =>
          rw [subBraceIds_cons, if_pos rfl, hdw]
          dsimp only
          rw [subUuidIds_cons, if_neg (by decide), ih rest hl hres]
        | cons d tail =>
          have hd : d = '}' := by
            have := head_dropWhile_neg hdw
            simp only [decide_eq_false_iff_not, not_not] at this
            exact this
          subst hd
          have htlen : tail.length ≤ n :=
            le_trans (le_of_lt (dropWhile_cons_length_le hdw)) hl
          by_cases hw : rest.takeWhile (· ≠ '}') = []
          · rw [subBraceIds_cons, if_pos rfl, hdw]
            dsimp only
            rw [if_pos hw, subUuidIds_cons, if_neg (by decide), ih rest hl hres]
          · have hrest2 : rest = rest.takeWhile (· ≠ '}') ++ ('}' :: tail) := by
              conv_lhs => rw [← List.takeWhile_append_dropWhile (· ≠ '}') rest]
              rw [hdw]
            have htfix : subUuidIds tail = tail :=
              subUuidIds_fixed_append (rest.takeWhile (· ≠ '}') ++ ['}']) tail (by
                rw [List.append_assoc, List.singleton_append, ← hrest2]
                exact hres)
            rw [subBraceIds_cons, if_pos rfl, hdw]
            dsimp only
            rw [if_neg hw, subUuidIds_copy idTok _ (by decide),
              ih tail htlen htfix]
      · rw [subBraceIds_cons, if_neg hc]
        by_cases hcs : c = '/'
        · subst hcs
          have hinv := subUuidIds_fixed_inv hfix
          rw [subUuidIds_cons, if_pos rfl,
            if_neg (uuidCond_transfer_subBrace hinv.1), ih rest hl hres]
        · rw [subUuidIds_cons, if_neg hcs, ih rest hl hres]

/-- `_normalize_path` is idempotent: its image drops no query, has no
trailing slash, and contains no residual substitution site. -/
theorem normalizePath_idem (l : Str) :
    normalizePath (normalizePath l) = normalizePath l := by
  unfold normalizePath
  obtain ⟨x, hx⟩ : ∃ x, rstripSlash (truncAtQ l) = x := ⟨_, rfl⟩
  rw [hx]
  have hq : '?' ∉ x := by
    intro hm
    obtain ⟨t, ht⟩ := rstripSlash_decomp (truncAtQ l)
    have hmem : '?' ∈ truncAtQ l := by
      rw [ht]
      exact List.mem_append.mpr (Or.inl (hx ▸ hm))
    have := List.mem_takeWhile_imp hmem
    simp at this
  have hqN : '?' ∉ subNumIds x := fun hm => by
    rcases mem_subNumIds x.length x le_rfl '?' hm with h1 | h1
    · exact hq h1
    · simp [idTok] at h1
  have hqU : '?' ∉ subUuidIds (subNumIds x) := fun hm => by
    rcases mem_subUuidIds (subNumIds x).length _ le_rfl '?' hm with h1 | h1
    · exact hqN h1
    · simp [idTok] at h1
  have hqB : '?' ∉ subBraceIds (subUuidIds (subNumIds x)) := fun hm => by
    rcases mem_subBraceIds (subUuidIds (subNumIds x)).length _ le_rfl '?' hm
      with h1 | h1
    · exact hqU h1
    · simp [idTok] at h1
  have hA : truncAtQ (subBraceIds (subUuidIds (subNumIds x))) =
      subBraceIds (subUuidIds (subNumIds x)) :=
    takeWhile_eq_self_sat _ _ (fun c hcm =>
      decide_eq_true (fun he => hqB (he ▸ hcm)))
  have hlast : (subBraceIds (subUuidIds (subNumIds x))).getLast? ≠ some '/' := by
    have h0 : x.getLast? ≠ some '/' := hx ▸ getLast?_rstripSlash (truncAtQ l)
    have h1 : (subNumIds x).getLast? ≠ some '/' := by
      rcases getLast?_subNumIds x.length x le_rfl with h | h
      · rw [h]; exact h0
      · rw [h]; simp
    have h2 : (subUuidIds (subNumIds x)).getLast? ≠ some '/' := by
      rcases getLast?_subUuidIds (subNumIds x).length _ le_rfl with h | h
      · rw [h]; exact h1
      · rw [h]; simp
    rcases getLast?_subBraceIds (subUuidIds (subNumIds x)).length _ le_rfl
      with h | h
    · rw [h]; exact h2
    · rw [h]; simp
  have hB : rstripSlash (subBraceIds (subUuidIds (subNumIds x))) =
      subBraceIds (subUuidIds (subNumIds x)) :=
    rstripSlash_no_trailing _ hlast
  rw [hA, hB]
  have hNfix : subNumIds (subBraceIds (subUuidIds (subNumIds x))) =
      subBraceIds (subUuidIds (subNumIds x)) :=
    numFix_subBrace_aux (subUuidIds (subNumIds x)).length _ le_rfl
      (numFix_subUuid_aux (subNumIds x).length _ le_rfl
        (subNumIds_idem_aux x.length x le_rfl))
  have hUfix : subUuidIds (subBraceIds (subUuidIds (subNumIds x))) =
      subBraceIds (subUuidIds (subNumIds x)) :=
    uuidFix_subBrace_aux (subUuidIds (subNumIds x)).length _ le_rfl
      (subUuidIds_idem_aux (subNumIds x).length _ le_rfl)
  rw [hNfix, hUfix,
    subBraceIds_idem_aux (subUuidIds (subNumIds x)).length
      (subUuidIds (subNumIds x)) le_rfl]

/-- `Char.ofNat` of a valid scalar value round-trips through `toNat`. -/
theorem toNat_ofNat_valid (n : Nat) (h : n < 55296) : (Char.ofNat n).toNat = n := by
  have hv : n.isValidChar := Or.inl h
  rw [Char.ofNat, dif_pos hv]
  rfl

/-- Lowercasing first does not change the result of uppercasing. -/
theorem toUpper_toLower (c : Char) : (c.toLower).toUpper = c.toUpper := by
  simp only [Char.toLower]
  split_ifs with h
  · have hval : (Char.ofNat (c.toNat + 32)).toNat = c.toNat + 32 :=
      toNat_ofNat_valid _ (by omega)
    simp only [Char.toUpper, hval]
    rw [if_pos (by omega), if_neg (by omega)]
    have h32 : c.toNat + 32 - 32 = c.toNat := by omega
    rw [h32, Char.ofNat_toNat]
  · rfl

/-- Case-insensitively equal characters have the same uppercase form. -/
theorem ciEq_toUpper {a b : Char} (h : ciEq a b = true) :
    a.toUpper = b.toUpper := by
  have hl : a.toLower = b.toLower := eq_of_beq h
  rw [← toUpper_toLower a, ← toUpper_toLower b, hl]

/-- The uppercase image of a case-insensitive match of `verb` is the
uppercase of `verb` itself. -/
theorem ciStarts_take_upper : ∀ (verb l : Str), ciStarts verb l = true →
    upperStr (l.take verb.length) = upperStr verb := by
  intro verb
  induction verb with
  | nil => intro l _; rfl
  | cons a as_ ih =>
    intro l h
    cases l with
    | nil => simp [ciStarts] at h
    | cons b bs =>
      simp only [ciStarts, Bool.and_eq_true] at h
      show upperStr (b :: bs.take as_.length) = upperStr (a :: as_)
      unfold upperStr
      simp only [List.map_cons]
      have hab : Char.toUpper b = Char.toUpper a := (ciEq_toUpper h.1).symm
      rw [hab]
      have := ih bs h.2
      unfold upperStr at this
      rw [this]

/-- A verb captured by `matchVerb` uppercases to one of the alternation's
verbs, uppercased. -/
theorem matchVerb_upper {l v r : Str} (h : matchVerb l = some (v, r)) :
    ∃ verb ∈ httpVerbs, upperStr v = upperStr verb := by
  unfold matchVerb at h
  cases hf : httpVerbs.find? (fun vb => ciStarts vb l) with
  | none => rw [hf] at h; simp at h
  | some vb =>
    rw [hf] at h
    simp only [Option.map_some', Option.some.injEq, Prod.mk.injEq] at h
    obtain ⟨hv, -⟩ := h
    refine ⟨vb, List.mem_of_find?_eq_some hf, ?_⟩
    rw [← hv]
    have hstart : ciStarts vb l = true := by
      have h5 := List.find?_some hf
      simpa using h5
    exact ciStarts_take_upper vb l hstart

theorem tryCallAt_verb {pfx : Str} {quoted : Bool} {l v arg after : Str}
    (h : tryCallAt pfx quoted l = some (v, arg, after)) :
    ∃ verb ∈ httpVerbs, upperStr v = upperStr verb := by
  unfold tryCallAt at h
  split at h
  · cases hmv : matchVerb (l.drop pfx.length) with
    | none => rw [hmv] at h; simp at h
    | some p0 =>
      obtain ⟨v0, l2⟩ := p0
      rw [hmv] at h
      dsimp only at h
      split at h
      · split at h
        · simp only [Option.some.injEq, Prod.mk.injEq] at h
          obtain ⟨hv, -, -⟩ := h
          subst hv
          exact matchVerb_upper hmv
        · simp at h
      · simp at h
  · simp at h

/-- Every pair produced by one pattern scan carries an uppercased verb. -/
theorem scanCalls_verb (pfx : Str) (hal : pfx ≠ []) (quoted : Bool) :
    ∀ (n : Nat) (l : Str), l.length ≤ n → ∀ v arg,
      (v, arg) ∈ scanCalls pfx quoted l →
      ∃ verb ∈ httpVerbs, upperStr v = upperStr verb := by
  intro n
  induction n with
  | zero =>
    intro l h v arg hm
    rw [List.length_eq_zero.mp (Nat.le_zero.mp h)] at hm
    simp [scanCalls_nil] at hm
  | succ n ih =>
    intro l hl v arg hm
    cases l with
    | nil => simp [scanCalls_nil] at hm
    | cons c rest =>
      simp only [List.length_cons, Nat.succ_le_succ_iff] at hl
      rw [scanCalls_cons pfx hal quoted c rest] at hm
      cases htc : tryCallAt pfx quoted (c :: rest) with
      | none =>
        rw [htc] at hm
        dsimp only at hm
        exact ih rest hl v arg hm
      | some res =>
        obtain ⟨v0, arg0, after⟩ := res
        rw [htc] at hm
        dsimp only at hm
        rcases List.mem_cons.mp hm with h1 | h1
        · cases h1
          exact tryCallAt_verb htc
        · have hlt : after.length ≤ n := by
            have := tryCallAt_shrinks pfx hal quoted _ _ _ _ htc
            simp only [List.length_cons] at this
            omega
          exact ih after hlt v arg h1

theorem patternScans_verb {code v arg : Str}
    (hm : (v, arg) ∈ patternScans code) :
    ∃ verb ∈ httpVerbs, upperStr v = upperStr verb := by
  unfold patternScans at hm
  rcases List.mem_append.mp hm with h | h
  · rcases List.mem_append.mp h with h2 | h2
    · rcases List.mem_append.mp h2 with h3 | h3
      · rcases List.mem_append.mp h3 with h4 | h4
        · exact scanCalls_verb _ (by decide) _ code.length code le_rfl v arg h4
        · exact scanCalls_verb _ (by decide) _ code.length code le_rfl v arg h4
      · exact scanCalls_verb _ (by decide) _ code.length code le_rfl v arg h3
    · exact scanCalls_verb _ (by decide) _ code.length code le_rfl v arg h2
  · exact scanCalls_verb _ (by decide) _ code.length code le_rfl v arg h

/-- Normalization keeps a leading `'/'` whenever the result is nonempty. -/
theorem normalizePath_head {g : Str} (hg : g.head? = some '/')
    (hne : normalizePath g ≠ []) : (normalizePath g).head? = some '/' := by
  unfold normalizePath at hne ⊢
  rw [head?_subBraceIds, head?_subUuidIds, head?_subNumIds]
  have hne2 : rstripSlash (truncAtQ g) ≠ [] := by
    intro h0
    apply hne
    rw [h0]
    rfl
  rw [head?_rstripSlash hne2]
  cases g with
  | nil => simp at hg
  | cons c m =>
    have hc : c = '/' := by injection hg
    subst hc
    unfold truncAtQ
    rw [List.takeWhile_cons_of_pos (by decide)]
    rfl

/-- A URL-pattern capture starts with `'/'`. -/
theorem tryUrlAt_shape {l g : Str} (h : tryUrlAt l = some g) :
    ∃ m, g = '/' :: m := by
  unfold tryUrlAt at h
  split at h
  · dsimp only at h
    split at h
    · simp at h
    · split at h
      · simp at h
      · split at h
        · simp at h
        · simp only [Option.some.injEq] at h
          exact ⟨_, h.symm⟩
        · simp at h
  · simp at h

theorem findUrlPath_shape : ∀ {l g : Str}, findUrlPath l = some g →
    ∃ m, g = '/' :: m := by
  intro l
  induction l with
  | nil => intro g h; simp [findUrlPath] at h
  | cons c rest ih =>
    intro g h
    unfold findUrlPath at h
    cases htry : tryUrlAt (c :: rest) with
    | some g0 =>
      rw [htry] at h
      dsimp only at h
      injection h with h2
      exact h2 ▸ tryUrlAt_shape htry
    | none =>
      rw [htry] at h
      dsimp only at h
      exact ih h

/-- A path-shaped fallback capture starts with `'/'`. -/
theorem findPathShaped_shape : ∀ {l g : Str}, findPathShaped l = some g →
    ∃ m, g = '/' :: m := by
  intro l
  induction l with
  | nil => intro g h; simp [findPathShaped] at h
  | cons c rest ih =>
    intro g h
    unfold findPathShaped at h
    split at h
    · simp only [Option.some.injEq] at h
      exact ⟨_, h.symm⟩
    · exact ih h

/-- Every successful `_extract_path` result is the normalization of a
slash-led string. -/
theorem extractPath_shape {arg p : Str} (h : extractPath arg = some p) :
    ∃ g, g.head? = some '/' ∧ p = normalizePath g := by
  unfold extractPath at h
  by_cases h0 : arg = []
  · rw [if_pos h0] at h; simp at h
  · rw [if_neg h0] at h
    by_cases h1 : arg.head? = some '/'
    · rw [if_pos h1] at h
      injection h with h2
      exact ⟨arg, h1, h2.symm⟩
    · rw [if_neg h1] at h
      cases hurl : findUrlPath arg with
      | some g0 =>
        rw [hurl] at h
        dsimp only at h
        obtain ⟨m, hm⟩ := findUrlPath_shape hurl
        injection h with h2
        exact ⟨g0, by rw [hm]; rfl, h2.symm⟩
      | none =>
        rw [hurl] at h
        dsimp only at h
        by_cases h2 : '{' ∈ arg
        · rw [if_pos h2] at h
          cases hps : findPathShaped arg with
          | some g0 =>
            rw [hps] at h
            dsimp only at h
            obtain ⟨m, hm⟩ := findPathShaped_shape hps
            injection h with h3
            exact ⟨g0, by rw [hm]; rfl, h3.symm⟩
          | none => rw [hps] at h; simp at h
        · rw [if_neg h2] at h; simp at h

theorem insertDedup_mem {acc : List (Str × Str)} {x pr : Str × Str}
    (h : pr ∈ insertDedup acc x) : pr ∈ acc ∨ pr = x := by
  unfold insertDedup at h
  split at h
  · exact Or.inl h
  · rcases List.mem_append.mp h with h1 | h1
    · exact Or.inl h1
    · exact Or.inr (by simpa using h1)

/-- Invariant of the extractor's accumulating fold. -/
theorem extractHttpCalls_inv (code : Str) :
    ∀ pr ∈ extractHttpCalls code,
      (∃ verb ∈ httpVerbs, pr.1 = upperStr verb) ∧
      pr.2 ≠ [] ∧ pr.2.head? = some '/' ∧ normalizePath pr.2 = pr.2 := by
  unfold extractHttpCalls
  suffices hgen : ∀ (ms : List (Str × Str)),
      (∀ m ∈ ms, ∃ verb ∈ httpVerbs, upperStr m.1 = upperStr verb) →
      ∀ (acc : List (Str × Str)),
      (∀ pr ∈ acc, (∃ verb ∈ httpVerbs, pr.1 = upperStr verb) ∧
        pr.2 ≠ [] ∧ pr.2.head? = some '/' ∧ normalizePath pr.2 = pr.2) →
      ∀ pr ∈ ms.foldl (fun acc m =>
        match extractPath m.2 with
        | some p => if p ≠ [] then insertDedup acc (upperStr m.1, p) else acc
        | none => acc) acc,
      (∃ verb ∈ httpVerbs, pr.1 = upperStr verb) ∧
        pr.2 ≠ [] ∧ pr.2.head? = some '/' ∧ normalizePath pr.2 = pr.2 by
    refine hgen (patternScans code) ?_ [] (by intro pr hpr; simp at hpr)
    intro m hm
    obtain ⟨v, arg⟩ := m
    exact patternScans_verb hm
  intro ms
  induction ms with
  | nil =>
    intro _ acc hacc pr hpr
    exact hacc pr hpr
  | cons m ms ih =>
    intro hms acc hacc pr hpr
    rw [List.foldl_cons] at hpr
    refine ih (fun m' hm' => hms m' (List.mem_cons_of_mem m hm')) _ ?_ pr hpr
    intro pr' hpr'
    cases hep : extractPath m.2 with
    | none =>
      rw [hep] at hpr'
      exact hacc pr' hpr'
    | some p =>
      rw [hep] at hpr'
      dsimp only at hpr'
      by_cases hp : p ≠ []
      · rw [if_pos hp] at hpr'
        rcases insertDedup_mem hpr' with h1 | h1
        · exact hacc pr' h1
        · subst h1
          obtain ⟨g, hg1, hg2⟩ := extractPath_shape hep
          refine ⟨?_, hp, ?_, ?_⟩
          · obtain ⟨verb, hverb, hvu⟩ := hms m (List.mem_cons_self m ms)
            exact ⟨verb, hverb, hvu⟩
          · rw [hg2]
            exact normalizePath_head hg1 (hg2 ▸ hp)
          · rw [hg2]
            exact normalizePath_idem g
      · rw [if_neg hp] at hpr'
        exact hacc pr' hpr'

/-- C10: every `(method, path)` pair produced by `_extract_http_calls` has a
method among the seven standard HTTP method names in uppercase, and a
nonempty path that starts with `'/'` and is a fixed point of
`_normalize_path`, so extractor output compares directly against normalized
catalog paths. -/
theorem extract_http_calls_invariants (code m p : Str)
    (hmem : (m, p) ∈ extractHttpCalls code) :
    m ∈ ([['G', 'E', 'T'], ['P', 'O', 'S', 'T'], ['P', 'U', 'T'],
      ['P', 'A', 'T', 'C', 'H'], ['D', 'E', 'L', 'E', 'T', 'E'],
      ['H', 'E', 'A', 'D'], ['O', 'P', 'T', 'I', 'O', 'N', 'S']] : List Str) ∧
    p ≠ [] ∧ p.head? = some '/' ∧ normalizePath p = p := by
  obtain ⟨⟨verb, hverb, hm⟩, h2, h3, h4⟩ := extractHttpCalls_inv code (m, p) hmem
  refine ⟨?_, h2, h3, h4⟩
  rw [show m = upperStr verb from hm]
  simp only [httpVerbs] at hverb
  fin_cases hverb <;> decide

/-- A concrete call site for the C10 witness. -/
def c10code : Str := "requests.get(\"/a\")".toList

theorem extract_http_calls_invariants_witness :
    (['G', 'E', 'T'] : Str) ∈ ([['G', 'E', 'T'], ['P', 'O', 'S', 'T'],
      ['P', 'U', 'T'], ['P', 'A', 'T', 'C', 'H'],
      ['D', 'E', 'L', 'E', 'T', 'E'], ['H', 'E', 'A', 'D'],
      ['O', 'P', 'T', 'I', 'O', 'N', 'S']] : List Str) ∧
    (['/', 'a'] : Str) ≠ [] ∧
    (['/', 'a'] : Str).head? = some '/' ∧
    normalizePath ['/', 'a'] = ['/', 'a'] :=
  extract_http_calls_invariants c10code ['G', 'E', 'T'] ['/', 'a'] (by decide)

end WeaveSuite
